import Mathlib

/-!
SkipList (src/main.cpp): a shallow embedding and its verification.

The C++ program keeps its nodes behind `std::shared_ptr`.  Here the store of
allocated nodes is a list `heap`; a pointer is an index into it and `nullptr`
is `none`.  The header node made by the constructor lives at address `0`, and
`make_shared` in `insert` allocates at the first unused address.  A node that
`remove` unlinks stays in the store as garbage that no link reaches.

Every access the C++ code performs unchecked (`p->`, `v[i]`) is a checked
access here: the operations return `Option`, and `none` stands for a null
dereference, an index at or past the length of a vector, or a `while` loop that
used up its fuel.  The fuel handed to the descent loops is the number of
allocated nodes.

Keys and values are C++ `int`s.  The program only compares and copies them, so
they are modelled by `Int`.
-/

namespace SkipList

/-- The constant `MAX_LEVEL` of the program. -/
def MAX_LEVEL : Nat := 32

/-- The class `Node`: a key, a value and the vector `forward` of links. -/
structure Node where
  key : Int
  value : Int
  forward : List (Option Nat)
deriving DecidableEq, Repr

/-- The constructor `Node(key, value, level)`: `level` null links. -/
def Node.new (key value : Int) (level : Nat) : Node :=
  ⟨key, value, List.replicate level none⟩

/-- The address of the header node. -/
def header : Nat := 0

end SkipList

/-- The class `SkipList`: the field `level` and the store of allocated nodes
(the field `header` is the constant address `SkipList.header`). -/
structure SkipList where
  level : Nat
  heap : List SkipList.Node
deriving DecidableEq, Repr

namespace SkipList

/-- The constructor `SkipList()`: level 0 and a header `Node(-1, -1, MAX_LEVEL)`. -/
def empty : SkipList := ⟨0, [Node.new (-1) (-1) MAX_LEVEL]⟩

/-- Dereference of a pointer, `*p`. -/
def deref (heap : List Node) (p : Nat) : Option Node := heap[p]?

/-- Read of `p->forward[i]`. -/
def readFwd (heap : List Node) (p i : Nat) : Option (Option Nat) :=
  (deref heap p).bind fun n => n.forward[i]?

/-- Assignment `p->forward[i] = q`. -/
def writeFwd (heap : List Node) (p i : Nat) (q : Option Nat) : Option (List Node) :=
  (deref heap p).bind fun n =>
    if i < n.forward.length then
      some (heap.set p { n with forward := n.forward.set i q })
    else none

/-- The loop of `randomLevel`: `while (d(gen) && newLevel < MAX_LEVEL) newLevel++`.
`flips` is the sequence of outcomes of `d(gen)` and `j` the number of outcomes
already drawn. -/
def randomLevelLoop (flips : Nat → Bool) (j newLevel : Nat) : Nat :=
  if flips j && decide (newLevel < MAX_LEVEL) then
    randomLevelLoop flips (j + 1) (newLevel + 1)
  else newLevel
termination_by MAX_LEVEL - newLevel
decreasing_by simp_wf; simp at *; omega

/-- The function `randomLevel`, over the outcomes `flips` of its generator. -/
def randomLevel (flips : Nat → Bool) : Nat := randomLevelLoop flips 0 1

/-- The inner loop of the three descents, at level `i`:
`while (current->forward[i] != nullptr && current->forward[i]->key < key)
   current = current->forward[i];` -/
def advance (heap : List Node) (key : Int) (i : Nat) : Nat → Nat → Option Nat
  | 0, _ => none
  | fuel + 1, current =>
    (readFwd heap current i).bind fun next =>
      match next with
      | none => some current
      | some q =>
        (deref heap q).bind fun n =>
          if n.key < key then advance heap key i fuel q else some current

/-- The descent of `insert` and `remove`:
`for (int i = level - 1; i >= 0; i--) { while ...; update[i] = current; }`.
The first numeric argument is `i + 1`. -/
def descend (heap : List Node) (key : Int) (fuel : Nat) :
    Nat → Nat → List (Option Nat) → Option (Nat × List (Option Nat))
  | 0, current, update => some (current, update)
  | i + 1, current, update =>
    (advance heap key i fuel current).bind fun current =>
      if i < update.length then
        descend heap key fuel i current (update.set i (some current))
      else none

/-- The descent of `search`: `for (int i = level - 1; i >= 0; i--) { while ...; }`. -/
def descendSearch (heap : List Node) (key : Int) (fuel : Nat) : Nat → Nat → Option Nat
  | 0, current => some current
  | i + 1, current =>
    (advance heap key i fuel current).bind fun current =>
      descendSearch heap key fuel i current

/-- The loop `for (int i = level; i < newLevel; i++) update[i] = header;` of
`insert`, with `n` iterations left. -/
def fillHeader : Nat → Nat → List (Option Nat) → Option (List (Option Nat))
  | 0, _, update => some update
  | n + 1, i, update =>
    if i < update.length then fillHeader n (i + 1) (update.set i (some header))
    else none

/-- The loop of `insert` that links the new node in, with `n` iterations left:
`for (int i = 0; i < newLevel; i++) {
   newNode->forward[i] = update[i]->forward[i]; update[i]->forward[i] = newNode; }` -/
def splice (newNode : Nat) (update : List (Option Nat)) :
    Nat → Nat → List Node → Option (List Node)
  | 0, _, heap => some heap
  | n + 1, i, heap =>
    update[i]?.bind fun u => u.bind fun p =>
      (readFwd heap p i).bind fun next =>
        (writeFwd heap newNode i next).bind fun heap =>
          (writeFwd heap p i (some newNode)).bind fun heap =>
            splice newNode update n (i + 1) heap

/-- The method `insert(key, value)`; `flips` are the coin flips of its call of
`randomLevel`. -/
def insert (key value : Int) (flips : Nat → Bool) (s : SkipList) : Option SkipList :=
  (descend s.heap key s.heap.length s.level header (List.replicate MAX_LEVEL none)).bind
    fun r =>
      let newLevel := randomLevel flips
      (if newLevel > s.level then
          (fillHeader (newLevel - s.level) s.level r.2).map fun u => (u, newLevel)
        else some (r.2, s.level)).bind
        fun ul =>
          let newNode := s.heap.length
          (splice newNode ul.1 newLevel 0 (s.heap ++ [Node.new key value newLevel])).map
            fun heap => ⟨ul.2, heap⟩

/-- The method `search(key)`. -/
def search (key : Int) (s : SkipList) : Option Int :=
  (descendSearch s.heap key s.heap.length s.level header).bind fun current =>
    (readFwd s.heap current 0).bind fun current =>
      match current with
      | none => some (-1)
      | some c =>
        (deref s.heap c).bind fun n =>
          if n.key = key then some n.value else some (-1)

/-- The unlinking loop of `remove`, with `n` iterations left:
`for (int i = 0; i < level; i++) {
   if (update[i]->forward[i] != current) break;
   update[i]->forward[i] = current->forward[i]; }` -/
def unlink (current : Nat) (update : List (Option Nat)) :
    Nat → Nat → List Node → Option (List Node)
  | 0, _, heap => some heap
  | n + 1, i, heap =>
    update[i]?.bind fun u => u.bind fun p =>
      (readFwd heap p i).bind fun next =>
        if next ≠ some current then some heap
        else
          (readFwd heap current i).bind fun after =>
            (writeFwd heap p i after).bind fun heap =>
              unlink current update n (i + 1) heap

/-- The loop `while (level > 1 && header->forward[level - 1] == nullptr) level--;`
of `remove`; the argument is `level`, the result its final value. -/
def shrink (heap : List Node) : Nat → Option Nat
  | 0 => some 0
  | l + 1 =>
    if 1 < l + 1 then
      (readFwd heap header l).bind fun top =>
        if top = none then shrink heap l else some (l + 1)
    else some (l + 1)

/-- The method `remove(key)`. -/
def remove (key : Int) (s : SkipList) : Option SkipList :=
  (descend s.heap key s.heap.length s.level header (List.replicate MAX_LEVEL none)).bind
    fun r =>
      (readFwd s.heap r.1 0).bind fun current =>
        match current with
        | none => some s
        | some c =>
          (deref s.heap c).bind fun n =>
            if n.key = key then
              (unlink c r.2 s.level 0 s.heap).bind fun heap =>
                (shrink heap s.level).map fun level => ⟨level, heap⟩
            else some s

/-! ## Observations of a state -/

/-- The nodes met from pointer `p` on by following `forward[i]`. -/
def chainFrom (heap : List Node) (i : Nat) : Nat → Option Nat → List Nat
  | 0, _ => []
  | _ + 1, none => []
  | fuel + 1, some p => p :: chainFrom heap i fuel ((readFwd heap p i).getD none)

/-- The chain of level `i`: the nodes reached from `header->forward[i]`. -/
def levelChain (s : SkipList) (i : Nat) : List Nat :=
  chainFrom s.heap i s.heap.length ((readFwd s.heap header i).getD none)

/-- The key and value stored at an address. -/
def entryAt (heap : List Node) (p : Nat) : Int × Int :=
  match heap[p]? with
  | some n => (n.key, n.value)
  | none => (0, 0)

/-- The (key, value) entries along the level-0 chain. -/
def entries (s : SkipList) : List (Int × Int) :=
  (levelChain s 0).map (entryAt s.heap)

/-- The keys along the level-0 chain. -/
def keys (s : SkipList) : List Int := (entries s).map Prod.fst

/-- A call of one of the two mutating methods. -/
inductive Call where
  | insert (key value : Int) (flips : Nat → Bool)
  | remove (key : Int)

/-- Run one call. -/
def Call.run : Call → SkipList → Option SkipList
  | .insert k v flips, s => SkipList.insert k v flips s
  | .remove k, s => SkipList.remove k s

/-- Run a sequence of calls, first to last. -/
def runCalls : List Call → SkipList → Option SkipList
  | [], s => some s
  | c :: cs, s => (c.run s).bind (runCalls cs)

/-- The states the program can be in: those reached from the constructed list
by calls of `insert` (with any coin flips) and `remove`. -/
inductive Reachable : SkipList → Prop
  | empty : Reachable SkipList.empty
  | insert {s t : SkipList} (k v : Int) (flips : Nat → Bool) :
      Reachable s → SkipList.insert k v flips s = some t → Reachable t
  | remove {s t : SkipList} (k : Int) :
      Reachable s → SkipList.remove k s = some t → Reachable t

/-! ## The predicates of the proofs -/

/-- The number of links of the node at an address (0 where nothing is allocated). -/
def lvl (heap : List Node) (p : Nat) : Nat :=
  match heap[p]? with
  | some n => n.forward.length
  | none => 0

/-- The key stored at an address. -/
def keyAt (heap : List Node) (p : Nat) : Int := (entryAt heap p).1

/-- The value stored at an address. -/
def valueAt (heap : List Node) (p : Nat) : Int := (entryAt heap p).2

/-- Starting at node `c`, the links `forward[i]` lead through exactly the nodes
`l` and then to `nullptr`. -/
def Linked (heap : List Node) (i : Nat) : Nat → List Nat → Prop
  | c, [] => readFwd heap c i = some none
  | c, q :: l => readFwd heap c i = some (some q) ∧ Linked heap i q l

/-- The members of `xs` that have a link at level `i`. -/
def atLevel (heap : List Node) (i : Nat) (xs : List Nat) : List Nat :=
  xs.filter fun p => decide (i < lvl heap p)

/-- The nodes of `xs` whose key is below `key`, as long as they come first. -/
def below (heap : List Node) (key : Int) (xs : List Nat) : List Nat :=
  xs.takeWhile fun p => decide (keyAt heap p < key)

/-- The nodes of `xs` from the first one whose key is not below `key`. -/
def notBelow (heap : List Node) (key : Int) (xs : List Nat) : List Nat :=
  xs.dropWhile fun p => decide (keyAt heap p < key)

/-- The last node of level above `i` among `pre`, the header if there is none. -/
def predAt (heap : List Node) (pre : List Nat) (i : Nat) : Nat :=
  (atLevel heap i pre).getLastD header

/-- Two stores hold the same nodes up to the contents of the links. -/
def SameNodes (h1 h2 : List Node) : Prop :=
  h2.length = h1.length ∧ ∀ p, entryAt h2 p = entryAt h1 p ∧ lvl h2 p = lvl h1 p

/-- The representation invariant: `xs` lists the addresses of the nodes of the
list in the order of the level-0 chain. -/
structure Inv (s : SkipList) (xs : List Nat) : Prop where
  hdr : lvl s.heap header = MAX_LEVEL
  level_le : s.level ≤ MAX_LEVEL
  nodup : (header :: xs).Nodup
  lvl_pos : ∀ p ∈ xs, 1 ≤ lvl s.heap p
  lvl_le : ∀ p ∈ xs, lvl s.heap p ≤ s.level
  sorted : xs.Pairwise fun p q => keyAt s.heap p ≤ keyAt s.heap q
  linked : ∀ i, i < MAX_LEVEL → Linked s.heap i header (atLevel s.heap i xs)

/-! ## Lists of entries -/

/-- The first entry of a list of entries that has the key. -/
def firstWith (key : Int) (es : List (Int × Int)) : Option (Int × Int) :=
  es.find? fun e => decide (e.1 = key)

/-- The value of the first entry with the key, and `-1` when there is none. -/
def lookup (key : Int) (es : List (Int × Int)) : Int :=
  match firstWith key es with
  | some e => e.2
  | none => -1

/-- The entries with `(key, value)` put in front of the first entry whose key is
not smaller. -/
def insEntry (key value : Int) (es : List (Int × Int)) : List (Int × Int) :=
  (es.takeWhile fun e => decide (e.1 < key)) ++
    (key, value) :: es.dropWhile fun e => decide (e.1 < key)

/-- The entries without the first one that has the key. -/
def delEntry (key : Int) (es : List (Int × Int)) : List (Int × Int) :=
  es.eraseP fun e => decide (e.1 = key)

/-- The first node of the level-0 chain that has the key. -/
def firstNode (key : Int) (s : SkipList) : Option Nat :=
  (levelChain s 0).find? fun p => decide (keyAt s.heap p = key)

/-! ## Sequences of calls and the scenario of `main` -/

/-- The calls `insert(k, v)` for a list of keys, values and coin flips. -/
def insertCalls (ps : List (Int × Int × (Nat → Bool))) : List Call :=
  ps.map fun p => Call.insert p.1 p.2.1 p.2.2

/-- The calls `remove(k)` for a list of keys. -/
def removeCalls (ks : List Int) : List Call := ks.map Call.remove

/-- Coin flips that succeed exactly `n` times before the first failure. -/
def heads (n : Nat) : Nat → Bool := fun i => decide (i < n)

/-- The six insertions of `main`, with some choice of coin flips. -/
def mainInserts : List (Int × Int × (Nat → Bool)) :=
  [(1, 10, heads 0), (3, 30, heads 2), (5, 50, heads 1), (7, 70, heads 0),
   (9, 90, heads 3), (11, 110, heads 0)]

/-- The list of `main` after its six insertions. -/
def mainState : SkipList :=
  (runCalls (insertCalls mainInserts) SkipList.empty).getD SkipList.empty

/-- The list that holds the single entry `(5, -1)`. -/
def minusOneState : SkipList :=
  (SkipList.insert 5 (-1) (heads 0) SkipList.empty).getD SkipList.empty

/-! ## Order of the chains -/

/-- The keys along the chain of level `i`. -/
def chainKeys (s : SkipList) (i : Nat) : List Int :=
  (levelChain s i).map (keyAt s.heap)

/-- The states reached by calls of `insert` and `remove` in which no `insert`
uses a key that is in the list at the time of the call. -/
inductive ReachableFresh : SkipList → Prop
  | empty : ReachableFresh SkipList.empty
  | insert {s t : SkipList} (k v : Int) (flips : Nat → Bool) :
      ReachableFresh s → k ∉ keys s → SkipList.insert k v flips s = some t →
        ReachableFresh t
  | remove {s t : SkipList} (k : Int) :
      ReachableFresh s → SkipList.remove k s = some t → ReachableFresh t

/-- The list after `insert(5, 1)` and `insert(5, 2)`. -/
def twinState : SkipList :=
  (runCalls (insertCalls [(5, 1, heads 0), (5, 2, heads 1)]) SkipList.empty).getD
    SkipList.empty

/-- Among the nodes of the level-0 chain with the same key, a node nearer to the
header has the greater address, that is, it was allocated later. -/
def YoungestFirst (s : SkipList) : Prop :=
  (levelChain s 0).Pairwise fun p q => keyAt s.heap p = keyAt s.heap q → q < p

/-! ## The reference model: a sorted association list -/

/-- A call without its coin flips. -/
inductive ModelOp where
  | insert (key value : Int)
  | remove (key : Int)
deriving DecidableEq

/-- The call as the reference model sees it. -/
def Call.op : Call → ModelOp
  | .insert k v _ => ModelOp.insert k v
  | .remove k => ModelOp.remove k

/-- Reference `insert`: `(key, value)` goes immediately before the first entry
whose key is greater or equal, and to the end if there is none. -/
def modelInsert (key value : Int) : List (Int × Int) → List (Int × Int)
  | [] => [(key, value)]
  | e :: es => if e.1 ≥ key then (key, value) :: e :: es else e :: modelInsert key value es

/-- Reference `remove`: the first entry with the key is erased, if there is one. -/
def modelRemove (key : Int) : List (Int × Int) → List (Int × Int)
  | [] => []
  | e :: es => if e.1 = key then es else e :: modelRemove key es

/-- Reference `search`: the value of the first entry with the key, `-1` if there
is none. -/
def modelSearch (key : Int) : List (Int × Int) → Int
  | [] => -1
  | e :: es => if e.1 = key then e.2 else modelSearch key es

/-- One operation on the reference list. -/
def ModelOp.run : ModelOp → List (Int × Int) → List (Int × Int)
  | .insert k v, es => modelInsert k v es
  | .remove k, es => modelRemove k es

/-- A sequence of operations on the reference list, first to last. -/
def runModel : List ModelOp → List (Int × Int) → List (Int × Int)
  | [], es => es
  | o :: os, es => runModel os (o.run es)

/-! ## The level of the list -/

/-- The link of the header at the highest level in use is set, when that level
is above 1. -/
def TopTight (s : SkipList) : Prop :=
  1 < s.level → readFwd s.heap header (s.level - 1) ≠ some none

/-- All links of the header from level `t` on are null. -/
def EmptyFrom (s : SkipList) (t : Nat) : Prop :=
  ∀ i, t ≤ i → i < MAX_LEVEL → readFwd s.heap header i = some none

/-- Whether the call is an `insert`. -/
def Call.isInsert : Call → Bool
  | .insert _ _ _ => true
  | .remove _ => false

/-- The list after `insert(1, 10)` and `remove(1)`. -/
def drainedState : SkipList :=
  (runCalls [Call.insert 1 10 (heads 2), Call.remove 1] SkipList.empty).getD SkipList.empty

/-! ## The descents with a count of their steps -/

/-- The inner loop `advance`, returning with the node the number of times the
assignment `current = current->forward[i]` ran. -/
def advanceCount (heap : List Node) (key : Int) (i : Nat) : Nat → Nat → Option (Nat × Nat)
  | 0, _ => none
  | fuel + 1, current =>
    (readFwd heap current i).bind fun next =>
      match next with
      | none => some (current, 0)
      | some q =>
        (deref heap q).bind fun n =>
          if n.key < key then
            (advanceCount heap key i fuel q).map fun r => (r.1, r.2 + 1)
          else some (current, 0)

/-- The descent `descend` of `insert` and `remove`, returning in addition the
number of link traversals plus the number of levels stepped through. -/
def descendCount (heap : List Node) (key : Int) (fuel : Nat) :
    Nat → Nat → List (Option Nat) → Option (Nat × List (Option Nat) × Nat)
  | 0, current, update => some (current, update, 0)
  | i + 1, current, update =>
    (advanceCount heap key i fuel current).bind fun r =>
      if i < update.length then
        (descendCount heap key fuel i r.1 (update.set i (some r.1))).map
          fun d => (d.1, d.2.1, d.2.2 + r.2 + 1)
      else none

/-- The descent `descendSearch` of `search`, returning in addition the number of
link traversals plus the number of levels stepped through. -/
def descendSearchCount (heap : List Node) (key : Int) (fuel : Nat) :
    Nat → Nat → Option (Nat × Nat)
  | 0, current => some (current, 0)
  | i + 1, current =>
    (advanceCount heap key i fuel current).bind fun r =>
      (descendSearchCount heap key fuel i r.1).map fun d => (d.1, d.2 + r.2 + 1)

/-- What a call `remove(key)` hands back to its caller.  The method is declared
`void remove(int key)`: the caller learns that the call returned, and nothing
else. -/
def removeResult (key : Int) (s : SkipList) : Option Unit :=
  (remove key s).map fun _ => ()

/-- The list after `insert(5, 1)`, `insert(3, 7)` and `insert(5, 2)`. -/
def mixedState : SkipList :=
  (runCalls (insertCalls [(5, 1, heads 0), (3, 7, heads 2), (5, 2, heads 1)])
    SkipList.empty).getD SkipList.empty

/-! ## The store -/

theorem deref_eq_some_of_lvl {heap : List Node} {p i : Nat} (h : i < lvl heap p) :
    ∃ n, heap[p]? = some n ∧ lvl heap p = n.forward.length := by
  unfold lvl at h ⊢
  cases hn : heap[p]? with
  | none => simp [hn] at h
  | some n => exact ⟨n, rfl, rfl⟩

theorem lt_length_of_lvl {heap : List Node} {p i : Nat} (h : i < lvl heap p) :
    p < heap.length := by
  obtain ⟨n, hn, _⟩ := deref_eq_some_of_lvl h
  exact (List.getElem?_eq_some_iff.1 hn).1

theorem readFwd_isSome_iff {heap : List Node} {p i : Nat} :
    (∃ x, readFwd heap p i = some x) ↔ i < lvl heap p := by
  unfold readFwd deref lvl
  cases hn : heap[p]? with
  | none => simp
  | some n =>
    simp only [Option.some_bind]
    constructor
    · rintro ⟨x, hx⟩
      exact (List.getElem?_eq_some_iff.1 hx).1
    · intro h
      exact ⟨n.forward[i], List.getElem?_eq_getElem h⟩

theorem SameNodes.refl (h : List Node) : SameNodes h h := ⟨rfl, fun _ => ⟨rfl, rfl⟩⟩

theorem SameNodes.trans {h1 h2 h3 : List Node} (a : SameNodes h1 h2) (b : SameNodes h2 h3) :
    SameNodes h1 h3 :=
  ⟨b.1.trans a.1, fun p => ⟨(b.2 p).1.trans (a.2 p).1, (b.2 p).2.trans (a.2 p).2⟩⟩

theorem SameNodes.keyAt {h1 h2 : List Node} (a : SameNodes h1 h2) (p : Nat) :
    keyAt h2 p = keyAt h1 p := by
  unfold SkipList.keyAt; rw [(a.2 p).1]

theorem writeFwd_spec (heap : List Node) (p i : Nat) (q : Option Nat) (h : i < lvl heap p) :
    ∃ h2, writeFwd heap p i q = some h2 ∧ SameNodes heap h2 ∧
      ∀ r j, readFwd h2 r j = if r = p ∧ j = i then some q else readFwd heap r j := by
  obtain ⟨n, hn, hl⟩ := deref_eq_some_of_lvl h
  have hi : i < n.forward.length := hl ▸ h
  have hp : p < heap.length := lt_length_of_lvl h
  refine ⟨heap.set p { n with forward := n.forward.set i q }, ?_, ⟨?_, ?_⟩, ?_⟩
  · simp [writeFwd, deref, hn, hi]
  · simp
  · intro r
    unfold entryAt lvl
    by_cases hr : p = r
    · subst hr
      simp [List.getElem?_set, hp, hn]
    · simp [List.getElem?_set, hr]
  · intro r j
    unfold readFwd deref
    by_cases hr : p = r
    · subst hr
      by_cases hj : i = j
      · subst hj
        simp [List.getElem?_set, hp, hi]
      · have hj2 : ¬ j = i := fun e => hj e.symm
        simp [List.getElem?_set, hp, hn, hj, hj2]
    · have hr2 : ¬ r = p := fun e => hr e.symm
      simp [List.getElem?_set, hr, hr2]

/-! ## Chains of links -/

theorem Linked.read {heap : List Node} {i c : Nat} {l : List Nat} (h : Linked heap i c l) :
    readFwd heap c i = some l.head? := by
  cases l with
  | nil => exact h
  | cons q l => exact h.1

theorem Linked.lvl_lt {heap : List Node} {i : Nat} :
    ∀ {l : List Nat} {c : Nat}, Linked heap i c l → ∀ p ∈ c :: l, i < lvl heap p
  | [], c, h, p, hp => by
    have hp2 : p = c := by simpa using hp
    subst hp2
    exact readFwd_isSome_iff.1 ⟨_, h⟩
  | q :: l, c, h, p, hp => by
    rcases List.mem_cons.1 hp with e | hp2
    · subst e
      exact readFwd_isSome_iff.1 ⟨_, h.1⟩
    · exact Linked.lvl_lt h.2 p hp2

theorem Linked.frame {heap h2 : List Node} {i : Nat} :
    ∀ {l : List Nat} {c : Nat}, Linked heap i c l →
      (∀ p ∈ c :: l, readFwd h2 p i = readFwd heap p i) → Linked h2 i c l
  | [], c, h, hf => by
    show readFwd h2 c i = some none
    rw [hf c (by simp)]; exact h
  | q :: l, c, h, hf => by
    refine ⟨?_, Linked.frame h.2 fun p hp => hf p (List.mem_cons_of_mem _ hp)⟩
    rw [hf c (by simp)]; exact h.1

theorem Linked.suffix {heap : List Node} {i : Nat} :
    ∀ (a : List Nat) {c d : Nat} {l b : List Nat}, Linked heap i c l →
      c :: l = a ++ d :: b → Linked heap i d b
  | [], c, d, l, b, h, e => by
    simp only [List.nil_append, List.cons.injEq] at e
    obtain ⟨e1, e2⟩ := e
    subst e1; subst e2; exact h
  | x :: a, c, d, l, b, h, e => by
    simp only [List.cons_append, List.cons.injEq] at e
    obtain ⟨e1, e2⟩ := e
    subst e1
    cases l with
    | nil => cases a <;> simp at e2
    | cons q l => exact Linked.suffix a h.2 e2

theorem Linked.unique {heap : List Node} {i : Nat} :
    ∀ {l1 l2 : List Nat} {c : Nat}, Linked heap i c l1 → Linked heap i c l2 → l1 = l2
  | [], [], _, _, _ => rfl
  | [], q :: l2, c, h1, h2 => by
    have := h1.symm.trans h2.1
    simp at this
  | q :: l1, [], c, h1, h2 => by
    have := h1.1.symm.trans h2
    simp at this
  | q1 :: l1, q2 :: l2, c, h1, h2 => by
    have e := h1.1.symm.trans h2.1
    simp only [Option.some.injEq] at e
    subst e
    rw [Linked.unique h1.2 h2.2]

theorem getLastD_append_cons {α : Type} (a : List α) (c d : α) (b : List α) :
    (a ++ c :: b).getLastD d = b.getLastD c := by
  induction a generalizing d with
  | nil => rw [List.nil_append, List.getLastD_cons]
  | cons x a ih => rw [List.cons_append, List.getLastD_cons]; exact ih x

theorem getLastD_mem {α : Type} (a : List α) (d : α) : a.getLastD d ∈ d :: a := by
  induction a generalizing d with
  | nil => simp
  | cons x a ih =>
    simp only [List.getLastD_cons]
    exact List.mem_cons_of_mem _ (ih x)

/-- Linking the node `m` in behind the last node of `a`. -/
theorem Linked.insert {heap h2 : List Node} {i m : Nat} {b : List Nat} :
    ∀ {a : List Nat} {c : Nat}, Linked heap i c (a ++ b) →
      (c :: (a ++ b)).Nodup → m ∉ c :: (a ++ b) →
      (∀ p, p ≠ m → p ≠ a.getLastD c → readFwd h2 p i = readFwd heap p i) →
      readFwd h2 (a.getLastD c) i = some (some m) →
      readFwd h2 m i = readFwd heap (a.getLastD c) i →
      Linked h2 i c (a ++ m :: b)
  | [], c, h, nd, hm, hf, hc, hmr => by
    simp only [List.getLastD_nil] at hf hc hmr
    simp only [List.nil_append] at h nd hm ⊢
    refine ⟨hc, ?_⟩
    cases b with
    | nil => exact hmr.trans h
    | cons q b =>
      refine ⟨hmr.trans h.1, Linked.frame h.2 fun p hp => hf p ?_ ?_⟩
      · rintro rfl; exact hm (List.mem_cons_of_mem _ hp)
      · rintro rfl; exact (List.nodup_cons.1 nd).1 hp
  | x :: a, c, h, nd, hm, hf, hc, hmr => by
    simp only [List.getLastD_cons] at hf hc hmr
    simp only [List.cons_append] at h nd hm ⊢
    have hcm : c ≠ m := fun e => hm (by simp [e])
    have hcl : c ≠ a.getLastD x := by
      intro e
      have h1 : a.getLastD x ∈ x :: a := getLastD_mem a x
      have h2 : c ∈ x :: (a ++ b) := by
        rw [e]
        rcases List.mem_cons.1 h1 with h3 | h3
        · rw [h3]; simp
        · exact List.mem_cons_of_mem _ (List.mem_append_left _ h3)
      exact (List.nodup_cons.1 nd).1 h2
    refine ⟨(hf c hcm hcl).trans h.1, ?_⟩
    exact Linked.insert h.2 (List.nodup_cons.1 nd).2
      (fun hx => hm (List.mem_cons_of_mem _ hx)) hf hc hmr

/-- Taking the node `d` that follows the last node of `a` out of the chain. -/
theorem Linked.delete {heap h2 : List Node} {i d : Nat} {b : List Nat} :
    ∀ {a : List Nat} {c : Nat}, Linked heap i c (a ++ d :: b) →
      (c :: (a ++ d :: b)).Nodup →
      (∀ p, p ≠ a.getLastD c → readFwd h2 p i = readFwd heap p i) →
      readFwd h2 (a.getLastD c) i = readFwd heap d i →
      Linked h2 i c (a ++ b)
  | [], c, h, nd, hf, hc => by
    simp only [List.getLastD_nil] at hf hc
    simp only [List.nil_append] at h nd ⊢
    have hcb : c ∉ b := fun hx => (List.nodup_cons.1 nd).1 (List.mem_cons_of_mem _ hx)
    cases b with
    | nil => exact hc.trans h.2
    | cons q b =>
      refine ⟨hc.trans h.2.1, Linked.frame h.2.2 fun p hp => hf p ?_⟩
      rintro rfl; exact hcb hp
  | x :: a, c, h, nd, hf, hc => by
    simp only [List.getLastD_cons] at hf hc
    simp only [List.cons_append] at h nd ⊢
    have hcl : c ≠ a.getLastD x := by
      intro e
      have h1 : a.getLastD x ∈ x :: a := getLastD_mem a x
      have h2 : c ∈ x :: (a ++ d :: b) := by
        rw [e]
        rcases List.mem_cons.1 h1 with h3 | h3
        · rw [h3]; simp
        · exact List.mem_cons_of_mem _ (List.mem_append_left _ h3)
      exact (List.nodup_cons.1 nd).1 h2
    exact ⟨(hf c hcl).trans h.1, Linked.delete h.2 (List.nodup_cons.1 nd).2 hf hc⟩

/-! ## The descent -/

theorem keyAt_eq {heap : List Node} {p : Nat} {n : Node} (h : heap[p]? = some n) :
    keyAt heap p = n.key := by
  simp [keyAt, entryAt, h]

theorem valueAt_eq {heap : List Node} {p : Nat} {n : Node} (h : heap[p]? = some n) :
    valueAt heap p = n.value := by
  simp [valueAt, entryAt, h]

theorem advance_spec {heap : List Node} {key : Int} {i : Nat} {b : List Nat} :
    ∀ (a : List Nat) (c fuel : Nat), Linked heap i c (a ++ b) →
      (∀ p ∈ a, keyAt heap p < key) → (∀ q ∈ b, ¬ keyAt heap q < key) →
      a.length < fuel → advance heap key i fuel c = some (a.getLastD c)
  | _, _, 0, _, _, _, hf => by omega
  | [], c, fuel + 1, h, _, hb, _ => by
    simp only [List.nil_append] at h
    simp only [advance, h.read, Option.some_bind, List.getLastD_nil]
    cases b with
    | nil => rfl
    | cons q b =>
      obtain ⟨n, hn, _⟩ := deref_eq_some_of_lvl (Linked.lvl_lt h q (by simp))
      have hk := hb q (by simp)
      rw [keyAt_eq hn] at hk
      simp [deref, hn, hk]
  | x :: a, c, fuel + 1, h, ha, hb, hf => by
    simp only [List.cons_append] at h
    obtain ⟨n, hn, _⟩ := deref_eq_some_of_lvl (Linked.lvl_lt h x (by simp))
    have hk := ha x (by simp)
    rw [keyAt_eq hn] at hk
    have ih := advance_spec a x fuel h.2 (fun p hp => ha p (List.mem_cons_of_mem _ hp)) hb
      (by simpa using hf)
    simp only [advance, h.1, Option.some_bind, deref, hn, hk, if_true, List.getLastD_cons]
    exact ih

theorem nodup_length_le (n : Nat) (l : List Nat) (nd : l.Nodup) (hl : ∀ p ∈ l, p < n) :
    l.length ≤ n := by
  have h1 : l.toFinset ⊆ Finset.range n := by
    intro p hp
    exact Finset.mem_range.2 (hl p (List.mem_toFinset.1 hp))
  have h2 := Finset.card_le_card h1
  rwa [List.toFinset_card_of_nodup nd, Finset.card_range] at h2

theorem below_append_notBelow (heap : List Node) (key : Int) (xs : List Nat) :
    below heap key xs ++ notBelow heap key xs = xs :=
  List.takeWhile_append_dropWhile _ xs

theorem atLevel_append (heap : List Node) (i : Nat) (a b : List Nat) :
    atLevel heap i (a ++ b) = atLevel heap i a ++ atLevel heap i b :=
  List.filter_append _ _

theorem mem_atLevel {heap : List Node} {i p : Nat} {xs : List Nat} :
    p ∈ atLevel heap i xs ↔ p ∈ xs ∧ i < lvl heap p := by
  simp [atLevel]

theorem below_lt {heap : List Node} {key : Int} {xs : List Nat} {p : Nat}
    (h : p ∈ below heap key xs) : keyAt heap p < key := by
  have := List.mem_takeWhile_imp h
  simpa using this

theorem notBelow_head {heap : List Node} {key : Int} {xs : List Nat} {q : Nat} {l : List Nat}
    (h : notBelow heap key xs = q :: l) : ¬ keyAt heap q < key := by
  have := List.head_dropWhile_not (fun p => decide (keyAt heap p < key)) xs
    (by unfold notBelow at h; rw [h]; simp)
  unfold notBelow at h
  simp only [h, List.head_cons] at this
  simpa using this

namespace Inv

variable {s : SkipList} {xs : List Nat}

theorem not_header (inv : Inv s xs) : header ∉ xs := (List.nodup_cons.1 inv.nodup).1

theorem lt_length (inv : Inv s xs) {p : Nat} (hp : p ∈ xs) : p < s.heap.length :=
  lt_length_of_lvl (inv.lvl_pos p hp)

theorem length_lt (inv : Inv s xs) : xs.length < s.heap.length := by
  have h := nodup_length_le s.heap.length (header :: xs) inv.nodup (by
    intro p hp
    rcases List.mem_cons.1 hp with e | hp2
    · subst e
      exact lt_length_of_lvl (i := 0) (by rw [inv.hdr]; decide)
    · exact inv.lt_length hp2)
  simpa using h

theorem atLevel_zero (inv : Inv s xs) : atLevel s.heap 0 xs = xs := by
  unfold atLevel
  rw [List.filter_eq_self]
  intro p hp
  have := inv.lvl_pos p hp
  simp; omega

theorem notBelow_ge (inv : Inv s xs) (key : Int) {q : Nat} (hq : q ∈ notBelow s.heap key xs) :
    ¬ keyAt s.heap q < key := by
  cases hd : notBelow s.heap key xs with
  | nil => rw [hd] at hq; simp at hq
  | cons r l =>
    have hr := notBelow_head hd
    rw [hd] at hq
    rcases List.mem_cons.1 hq with e | hq2
    · subst e; exact hr
    · have hs : (r :: l).Pairwise fun p q => keyAt s.heap p ≤ keyAt s.heap q := by
        rw [← hd]
        exact inv.sorted.sublist (List.dropWhile_sublist _)
      have := (List.pairwise_cons.1 hs).1 q hq2
      omega

theorem linked_split (inv : Inv s xs) (key : Int) {i : Nat} (hi : i < MAX_LEVEL) :
    Linked s.heap i header
      (atLevel s.heap i (below s.heap key xs) ++ atLevel s.heap i (notBelow s.heap key xs)) := by
  rw [← atLevel_append, below_append_notBelow]
  exact inv.linked i hi

theorem predAt_mem (heap : List Node) (pre : List Nat) (i : Nat) :
    predAt heap pre i ∈ header :: atLevel heap i pre :=
  getLastD_mem _ _

/-- From any node of the level-`i` chain that lies before the target, the
inner loop walks to the last such node. -/
theorem advance_from (inv : Inv s xs) (key : Int) {i c : Nat} (hi : i < MAX_LEVEL)
    (hc : c ∈ header :: atLevel s.heap i (below s.heap key xs)) :
    advance s.heap key i s.heap.length c = some (predAt s.heap (below s.heap key xs) i) := by
  obtain ⟨a1, a2, e⟩ := List.append_of_mem hc
  have hl := inv.linked_split key hi
  have hsuf : Linked s.heap i c (a2 ++ atLevel s.heap i (notBelow s.heap key xs)) := by
    refine Linked.suffix a1 hl ?_
    rw [← List.cons_append, e]; simp
  have ha2 : ∀ p ∈ a2, p ∈ below s.heap key xs := by
    intro p hp
    have h1 : p ∈ header :: atLevel s.heap i (below s.heap key xs) := by
      rw [e]; simp [hp]
    rcases List.mem_cons.1 h1 with e1 | h2
    · exfalso
      -- the header comes first and only once
      have nd : (header :: atLevel s.heap i (below s.heap key xs)).Nodup := by
        refine inv.nodup.sublist (List.Sublist.cons₂ _ ?_)
        exact (List.filter_sublist _).trans (List.takeWhile_sublist _)
      rw [e] at nd
      cases a1 with
      | nil =>
        simp only [List.nil_append, List.cons.injEq] at e
        rw [← e.1, ← e1] at nd
        exact (List.nodup_cons.1 nd).1 hp
      | cons y a1 =>
        simp only [List.cons_append, List.cons.injEq] at e
        rw [← e.1, ← e1] at nd
        simp only [List.cons_append] at nd
        exact (List.nodup_cons.1 nd).1 (by simp [hp])
    · exact (mem_atLevel.1 h2).1
  have hlen : a2.length < s.heap.length := by
    have h1 : a2.length + 1 ≤ (header :: atLevel s.heap i (below s.heap key xs)).length := by
      rw [e]; simp only [List.length_append, List.length_cons]; omega
    have h2 : (atLevel s.heap i (below s.heap key xs)).length ≤ xs.length :=
      ((List.filter_sublist _).trans (List.takeWhile_sublist _)).length_le
    have h3 := inv.length_lt
    simp only [List.length_cons] at h1
    omega
  rw [advance_spec a2 c s.heap.length hsuf (fun p hp => below_lt (ha2 p hp))
    (fun q hq => inv.notBelow_ge key (mem_atLevel.1 hq).1) hlen]
  congr 1
  unfold predAt
  rw [← getLastD_append_cons a1 c header a2, ← e]
  rw [List.getLastD_cons]

end Inv

namespace Inv

variable {s : SkipList} {xs : List Nat}

theorem predAt_top (inv : Inv s xs) (key : Int) {i : Nat} (hi : s.level ≤ i) :
    predAt s.heap (below s.heap key xs) i = header := by
  have h : atLevel s.heap i (below s.heap key xs) = [] := by
    unfold atLevel
    rw [List.filter_eq_nil_iff]
    intro p hp
    have := inv.lvl_le p ((List.takeWhile_sublist _).subset hp)
    simp; omega
  unfold predAt
  rw [h]; rfl

theorem predAt_succ_mem (heap : List Node) (pre : List Nat) (i : Nat) :
    predAt heap pre (i + 1) ∈ header :: atLevel heap i pre := by
  rcases List.mem_cons.1 (predAt_mem heap pre (i + 1)) with e | h
  · rw [e]; simp
  · refine List.mem_cons_of_mem _ (mem_atLevel.2 ?_)
    have := mem_atLevel.1 h
    exact ⟨this.1, by omega⟩

theorem descend_spec (inv : Inv s xs) (key : Int) :
    ∀ (n : Nat) (update : List (Option Nat)), n ≤ MAX_LEVEL → update.length = MAX_LEVEL →
      ∃ u, descend s.heap key s.heap.length n (predAt s.heap (below s.heap key xs) n) update
          = some (predAt s.heap (below s.heap key xs) 0, u) ∧
        u.length = MAX_LEVEL ∧
        (∀ j, j < n → u[j]? = some (some (predAt s.heap (below s.heap key xs) j))) ∧
        (∀ j, n ≤ j → u[j]? = update[j]?)
  | 0, update, _, hl => ⟨update, rfl, hl, fun j hj => by omega, fun _ _ => rfl⟩
  | i + 1, update, hn, hl => by
    have hi : i < MAX_LEVEL := by omega
    have hadv := inv.advance_from key hi (predAt_succ_mem s.heap (below s.heap key xs) i)
    obtain ⟨u, hu, hlen, hlo, hhi⟩ := descend_spec inv key i
      (update.set i (some (predAt s.heap (below s.heap key xs) i))) (by omega)
      (by simp [hl])
    refine ⟨u, ?_, hlen, ?_, ?_⟩
    · simp only [descend, hadv, Option.some_bind, hl, hi, if_true]
      exact hu
    · intro j hj
      by_cases hji : j < i
      · exact hlo j hji
      · have e : j = i := by omega
        subst e
        rw [hhi j (le_refl _)]
        simp [List.getElem?_set, hl, hi]
    · intro j hj
      rw [hhi j (by omega)]
      have : ¬ i = j := by omega
      simp [List.getElem?_set, this]

theorem descendSearch_spec (inv : Inv s xs) (key : Int) :
    ∀ (n : Nat), n ≤ MAX_LEVEL →
      descendSearch s.heap key s.heap.length n (predAt s.heap (below s.heap key xs) n)
        = some (predAt s.heap (below s.heap key xs) 0)
  | 0, _ => rfl
  | i + 1, hn => by
    have hi : i < MAX_LEVEL := by omega
    have hadv := inv.advance_from key hi (predAt_succ_mem s.heap (below s.heap key xs) i)
    simp only [descendSearch, hadv, Option.some_bind]
    exact descendSearch_spec inv key i (by omega)

/-- The link of level `i` that leaves the predecessor `predAt .. i`. -/
theorem linked_pred (inv : Inv s xs) (key : Int) {i : Nat} (hi : i < MAX_LEVEL) :
    Linked s.heap i (predAt s.heap (below s.heap key xs) i)
      (atLevel s.heap i (notBelow s.heap key xs)) := by
  obtain ⟨a1, a2, e⟩ := List.append_of_mem (predAt_mem s.heap (below s.heap key xs) i)
  have hlast : a2 = [] := by
    have h1 := getLastD_append_cons a1 (predAt s.heap (below s.heap key xs) i) header a2
    rw [← e, List.getLastD_cons] at h1
    -- the last node occurs once
    have nd : (header :: atLevel s.heap i (below s.heap key xs)).Nodup := by
      refine inv.nodup.sublist (List.Sublist.cons₂ _ ?_)
      exact (List.filter_sublist _).trans (List.takeWhile_sublist _)
    rw [e] at nd
    have nd2 := (List.nodup_append.1 nd).2.1
    have h2 : a2.getLastD (predAt s.heap (below s.heap key xs) i) ∉ a2 := by
      rw [← h1]
      exact (List.nodup_cons.1 nd2).1
    cases a2 with
    | nil => rfl
    | cons y a2 =>
      exfalso
      apply h2
      rw [List.getLastD_cons]
      have := getLastD_mem a2 y
      exact this
  subst hlast
  have := Linked.suffix a1 (inv.linked_split key hi) (b := atLevel s.heap i (notBelow s.heap key xs))
    (d := predAt s.heap (below s.heap key xs) i) (by rw [← List.cons_append, e]; simp)
  exact this

end Inv

theorem SameNodes.lvl {h1 h2 : List Node} (a : SameNodes h1 h2) (p : Nat) :
    lvl h2 p = lvl h1 p := (a.2 p).2

theorem SameNodes.valueAt {h1 h2 : List Node} (a : SameNodes h1 h2) (p : Nat) :
    valueAt h2 p = valueAt h1 p := by
  unfold SkipList.valueAt; rw [(a.2 p).1]

/-! ## The loops of `insert` -/

theorem fillHeader_spec :
    ∀ (n i : Nat) (update : List (Option Nat)), i + n ≤ update.length →
      ∃ u, fillHeader n i update = some u ∧ u.length = update.length ∧
        ∀ j, u[j]? = if i ≤ j ∧ j < i + n then some (some header) else update[j]?
  | 0, i, update, _ => ⟨update, rfl, rfl, fun j => by
      have : ¬ (i ≤ j ∧ j < i + 0) := by omega
      rw [if_neg this]⟩
  | n + 1, i, update, h => by
    obtain ⟨u, hu, hlen, hget⟩ := fillHeader_spec n (i + 1) (update.set i (some header))
      (by simp; omega)
    have hi : i < update.length := by omega
    refine ⟨u, ?_, by simpa using hlen, ?_⟩
    · simp only [fillHeader, hi, if_true]
      exact hu
    · intro j
      rw [hget j]
      by_cases h1 : i + 1 ≤ j ∧ j < i + 1 + n
      · have h2 : i ≤ j ∧ j < i + (n + 1) := by omega
        simp [h1, h2]
      · by_cases h3 : j = i
        · subst h3
          simp [h1, hi, List.getElem?_set]
        · have h2 : ¬ (i ≤ j ∧ j < i + (n + 1)) := by omega
          have h4 : ¬ i = j := fun e => h3 e.symm
          simp [h1, h2, h4, List.getElem?_set]

theorem splice_spec (m : Nat) (update : List (Option Nat)) (u : Nat → Nat) :
    ∀ (n i : Nat) (heap : List Node),
      (∀ j, i ≤ j → j < i + n →
        update[j]? = some (some (u j)) ∧ j < lvl heap (u j) ∧ u j ≠ m) →
      i + n ≤ lvl heap m →
      ∃ h2, splice m update n i heap = some h2 ∧ SameNodes heap h2 ∧
        ∀ p j, readFwd h2 p j =
          if i ≤ j ∧ j < i + n then
            (if p = u j then some (some m)
             else if p = m then readFwd heap (u j) j else readFwd heap p j)
          else readFwd heap p j
  | 0, i, heap, _, _ => ⟨heap, rfl, SameNodes.refl heap, fun p j => by
      have : ¬ (i ≤ j ∧ j < i + 0) := by omega
      rw [if_neg this]⟩
  | n + 1, i, heap, hu, hm => by
    obtain ⟨hup, hlv, hne⟩ := hu i (le_refl _) (by omega)
    obtain ⟨next, hnext⟩ := readFwd_isSome_iff.2 hlv
    obtain ⟨h1, hw1, sn1, rd1⟩ := writeFwd_spec heap m i next (by omega)
    obtain ⟨h1b, hw2, sn2, rd2⟩ := writeFwd_spec h1 (u i) i (some m)
      (by rw [sn1.lvl]; exact hlv)
    have sn := sn1.trans sn2
    obtain ⟨h2, hs, sn3, rd3⟩ := splice_spec m update u n (i + 1) h1b
      (fun j hj1 hj2 => by
        obtain ⟨a, b, c⟩ := hu j (by omega) (by omega)
        exact ⟨a, by rw [sn.lvl]; exact b, c⟩)
      (by rw [sn.lvl]; omega)
    refine ⟨h2, ?_, sn.trans sn3, ?_⟩
    · simp only [splice, hup, Option.some_bind, hnext, hw1, hw2]
      exact hs
    · intro p j
      rw [rd3 p j]
      by_cases h3 : j = i
      · subst h3
        have c1 : ¬ (j + 1 ≤ j ∧ j < j + 1 + n) := by omega
        have c2 : j ≤ j ∧ j < j + (n + 1) := by omega
        simp only [c1, c2, if_false, if_true, and_self]
        rw [rd2 p j, rd1 p j]
        by_cases hp : p = u j
        · simp [hp]
        · by_cases hpm : p = m
          · simp [hp, hpm, hnext]
          · simp [hp, hpm]
      · have e1 : ∀ r, readFwd h1b r j = readFwd heap r j := by
          intro r
          rw [rd2 r j, rd1 r j]
          simp [h3]
        by_cases h1 : i + 1 ≤ j ∧ j < i + 1 + n
        · have h2 : i ≤ j ∧ j < i + (n + 1) := by omega
          simp only [h1, h2, and_self, if_true, e1]
        · have h2 : ¬ (i ≤ j ∧ j < i + (n + 1)) := by omega
          simp only [h1, h2, if_false, e1]

/-! ## The level generator -/

theorem randomLevelLoop_bounds (flips : Nat → Bool) :
    ∀ (d j newLevel : Nat), MAX_LEVEL - newLevel ≤ d → newLevel ≤ MAX_LEVEL →
      newLevel ≤ randomLevelLoop flips j newLevel ∧
        randomLevelLoop flips j newLevel ≤ MAX_LEVEL
  | 0, j, newLevel, hd, hle => by
    have e : ¬ newLevel < MAX_LEVEL := by omega
    rw [randomLevelLoop]
    simp [e, hle]
  | d + 1, j, newLevel, hd, hle => by
    rw [randomLevelLoop]
    by_cases c : (flips j && decide (newLevel < MAX_LEVEL)) = true
    · rw [if_pos c]
      have hlt : newLevel < MAX_LEVEL := by
        simp only [Bool.and_eq_true, decide_eq_true_eq] at c
        exact c.2
      have ih := randomLevelLoop_bounds flips d (j + 1) (newLevel + 1) (by omega) (by omega)
      exact ⟨by omega, ih.2⟩
    · rw [if_neg c]
      exact ⟨le_refl _, hle⟩

theorem randomLevelLoop_closed (flips : Nat → Bool) :
    ∀ (n j newLevel : Nat), (∀ i, i < n → flips (j + i) = true) →
      (flips (j + n) = false ∨ MAX_LEVEL ≤ newLevel + n) → newLevel ≤ MAX_LEVEL →
      randomLevelLoop flips j newLevel = min MAX_LEVEL (newLevel + n)
  | 0, j, newLevel, _, hstop, hle => by
    rw [randomLevelLoop]
    have c : ¬ (flips j && decide (newLevel < MAX_LEVEL)) = true := by
      simp only [Bool.and_eq_true, decide_eq_true_eq, not_and]
      intro hf
      rcases hstop with h | h
      · simp [hf] at h
      · omega
    rw [if_neg c]
    simp [hle]
  | n + 1, j, newLevel, hall, hstop, hle => by
    rw [randomLevelLoop]
    by_cases hlt : newLevel < MAX_LEVEL
    · have c : (flips j && decide (newLevel < MAX_LEVEL)) = true := by
        simp only [Bool.and_eq_true, decide_eq_true_eq]
        exact ⟨hall 0 (by omega), hlt⟩
      rw [if_pos c]
      rw [randomLevelLoop_closed flips n (j + 1) (newLevel + 1)
        (fun i hi => by have := hall (i + 1) (by omega); rwa [← Nat.add_assoc, Nat.add_right_comm] at this)
        (by
          rcases hstop with h | h
          · left; rwa [Nat.add_right_comm, Nat.add_assoc]
          · right; omega)
        (by omega)]
      congr 1; omega
    · have c : ¬ (flips j && decide (newLevel < MAX_LEVEL)) = true := by
        simp [hlt]
      rw [if_neg c]
      have : MAX_LEVEL ≤ newLevel + (n + 1) := by omega
      omega

theorem randomLevel_pos (flips : Nat → Bool) : 1 ≤ randomLevel flips :=
  (randomLevelLoop_bounds flips MAX_LEVEL 0 1 (by omega) (by decide)).1

theorem randomLevel_le (flips : Nat → Bool) : randomLevel flips ≤ MAX_LEVEL :=
  (randomLevelLoop_bounds flips MAX_LEVEL 0 1 (by omega) (by decide)).2

/-! ## Allocation of the new node -/

theorem getElem?_snoc_ne (heap : List Node) (n : Node) {p : Nat} (hp : p ≠ heap.length) :
    (heap ++ [n])[p]? = heap[p]? := by
  rcases Nat.lt_or_gt_of_ne hp with h | h
  · exact List.getElem?_append_left h
  · rw [List.getElem?_eq_none (by simp; omega), List.getElem?_eq_none (by omega)]

theorem getElem?_snoc_new (heap : List Node) (n : Node) :
    (heap ++ [n])[heap.length]? = some n := by
  simp

theorem entryAt_snoc_ne (heap : List Node) (n : Node) {p : Nat} (hp : p ≠ heap.length) :
    entryAt (heap ++ [n]) p = entryAt heap p := by
  unfold entryAt; rw [getElem?_snoc_ne heap n hp]

theorem lvl_snoc_ne (heap : List Node) (n : Node) {p : Nat} (hp : p ≠ heap.length) :
    lvl (heap ++ [n]) p = lvl heap p := by
  unfold lvl; rw [getElem?_snoc_ne heap n hp]

theorem readFwd_snoc_ne (heap : List Node) (n : Node) {p : Nat} (hp : p ≠ heap.length)
    (j : Nat) : readFwd (heap ++ [n]) p j = readFwd heap p j := by
  unfold readFwd deref; rw [getElem?_snoc_ne heap n hp]

theorem entryAt_snoc_new (heap : List Node) (n : Node) :
    entryAt (heap ++ [n]) heap.length = (n.key, n.value) := by
  unfold entryAt; rw [getElem?_snoc_new]

theorem lvl_snoc_new (heap : List Node) (n : Node) :
    lvl (heap ++ [n]) heap.length = n.forward.length := by
  unfold lvl; rw [getElem?_snoc_new]

namespace Inv

variable {s : SkipList} {xs : List Nat}

theorem predAt_lvl (inv : Inv s xs) (key : Int) {i : Nat} (hi : i < MAX_LEVEL) :
    i < lvl s.heap (predAt s.heap (below s.heap key xs) i) := by
  rcases List.mem_cons.1 (predAt_mem s.heap (below s.heap key xs) i) with e | h
  · rw [e, inv.hdr]; exact hi
  · exact (mem_atLevel.1 h).2

theorem predAt_lt (inv : Inv s xs) (key : Int) {i : Nat} (hi : i < MAX_LEVEL) :
    predAt s.heap (below s.heap key xs) i < s.heap.length :=
  lt_length_of_lvl (inv.predAt_lvl key hi)

/-- The predecessor array after the descent and the loop that fills in the
header for the new levels. -/
theorem update_spec (inv : Inv s xs) (key : Int) (newLevel : Nat) (hL : newLevel ≤ MAX_LEVEL) :
    ∃ u0 u1,
      descend s.heap key s.heap.length s.level header (List.replicate MAX_LEVEL none)
        = some (predAt s.heap (below s.heap key xs) 0, u0) ∧
      (if newLevel > s.level then
          (fillHeader (newLevel - s.level) s.level u0).map fun u => (u, newLevel)
        else some (u0, s.level)) = some (u1, max s.level newLevel) ∧
      (∀ j, j < s.level → u0[j]? = some (some (predAt s.heap (below s.heap key xs) j))) ∧
      ∀ j, j < newLevel → u1[j]? = some (some (predAt s.heap (below s.heap key xs) j)) := by
  obtain ⟨u0, hdesc, hlen0, hlo0, _⟩ := inv.descend_spec key s.level
    (List.replicate MAX_LEVEL none) inv.level_le (by simp)
  rw [inv.predAt_top key (le_refl _)] at hdesc
  by_cases c : newLevel > s.level
  · obtain ⟨u1, hf, _, hget⟩ := fillHeader_spec (newLevel - s.level) s.level u0
      (by rw [hlen0]; omega)
    refine ⟨u0, u1, hdesc, ?_, hlo0, ?_⟩
    · rw [if_pos c, hf]
      simp only [Option.map_some']
      rw [max_eq_right (by omega)]
    · intro j hj
      rw [hget j]
      by_cases hjl : j < s.level
      · have : ¬ (s.level ≤ j ∧ j < s.level + (newLevel - s.level)) := by omega
        rw [if_neg this]
        exact hlo0 j hjl
      · have : s.level ≤ j ∧ j < s.level + (newLevel - s.level) := by omega
        rw [if_pos this, inv.predAt_top key (by omega)]
  · refine ⟨u0, u0, hdesc, ?_, hlo0, ?_⟩
    · rw [if_neg c, max_eq_left (by omega)]
    · intro j hj
      exact hlo0 j (by omega)

/-- What `insert` computes: the level, and the links of the new store in terms
of the links of the old one. -/
theorem insert_eq (inv : Inv s xs) (key value : Int) (flips : Nat → Bool) :
    ∃ h2, SkipList.insert key value flips s
        = some ⟨max s.level (randomLevel flips), h2⟩ ∧
      SameNodes (s.heap ++ [Node.new key value (randomLevel flips)]) h2 ∧
      ∀ p j, readFwd h2 p j =
        if j < randomLevel flips then
          (if p = predAt s.heap (below s.heap key xs) j then some (some s.heap.length)
           else if p = s.heap.length then
             readFwd s.heap (predAt s.heap (below s.heap key xs) j) j
           else readFwd s.heap p j)
        else if p = s.heap.length then none else readFwd s.heap p j := by
  have hL := randomLevel_le flips
  obtain ⟨u0, u1, hdesc, hfill, _, hu1⟩ := inv.update_spec key (randomLevel flips) hL
  have hne : ∀ j, j < randomLevel flips →
      predAt s.heap (below s.heap key xs) j ≠ s.heap.length := fun j hj =>
    Nat.ne_of_lt (inv.predAt_lt key (by omega))
  obtain ⟨h2, hs, sn, rd⟩ := splice_spec s.heap.length u1
    (predAt s.heap (below s.heap key xs)) (randomLevel flips) 0
    (s.heap ++ [Node.new key value (randomLevel flips)])
    (fun j _ hj => by
      have hj2 : j < randomLevel flips := by omega
      refine ⟨hu1 j hj2, ?_, hne j hj2⟩
      rw [lvl_snoc_ne _ _ (hne j hj2)]
      exact inv.predAt_lvl key (by omega))
    (by rw [lvl_snoc_new]; simp [Node.new])
  refine ⟨h2, ?_, sn, ?_⟩
  · unfold SkipList.insert
    simp only [hdesc, Option.some_bind, hfill, hs, Option.map_some']
  · intro p j
    rw [rd p j]
    by_cases hj : j < randomLevel flips
    · have c : 0 ≤ j ∧ j < 0 + randomLevel flips := by omega
      rw [if_pos c, if_pos hj, readFwd_snoc_ne _ _ (hne j hj)]
      by_cases hp1 : p = predAt s.heap (below s.heap key xs) j
      · rw [if_pos hp1, if_pos hp1]
      · rw [if_neg hp1, if_neg hp1]
        by_cases hp2 : p = s.heap.length
        · rw [if_pos hp2, if_pos hp2]
        · rw [if_neg hp2, if_neg hp2, readFwd_snoc_ne _ _ hp2]
    · have c : ¬ (0 ≤ j ∧ j < 0 + randomLevel flips) := by omega
      rw [if_neg c, if_neg hj]
      by_cases hp2 : p = s.heap.length
      · rw [if_pos hp2, hp2]
        unfold readFwd deref
        rw [getElem?_snoc_new]
        simp only [Option.some_bind, Node.new]
        exact List.getElem?_eq_none (by simp; omega)
      · rw [if_neg hp2, readFwd_snoc_ne _ _ hp2]

end Inv

namespace Inv

variable {s : SkipList} {xs : List Nat}

theorem below_subset (heap : List Node) (key : Int) (xs : List Nat) :
    ∀ p ∈ below heap key xs, p ∈ xs := fun _ hp => (List.takeWhile_sublist _).subset hp

theorem notBelow_subset (heap : List Node) (key : Int) (xs : List Nat) :
    ∀ p ∈ notBelow heap key xs, p ∈ xs := fun _ hp => (List.dropWhile_sublist _).subset hp

theorem atLevel_congr {g h2 : List Node} {i : Nat} {l : List Nat}
    (h : ∀ p ∈ l, lvl h2 p = lvl g p) : atLevel h2 i l = atLevel g i l := by
  unfold atLevel
  apply List.filter_congr
  intro p hp
  rw [h p hp]

theorem nodup_atLevel_split (inv : Inv s xs) (key : Int) (i : Nat) :
    (header :: (atLevel s.heap i (below s.heap key xs) ++
      atLevel s.heap i (notBelow s.heap key xs))).Nodup := by
  rw [← atLevel_append, below_append_notBelow]
  exact inv.nodup.sublist (List.Sublist.cons₂ _ (List.filter_sublist _))

/-- The invariant after `insert`: the new node stands between the nodes with a
smaller key and the others. -/
theorem insert_inv (inv : Inv s xs) (key value : Int) (newLevel : Nat) {h2 : List Node}
    (hL1 : 1 ≤ newLevel) (hL2 : newLevel ≤ MAX_LEVEL)
    (sn : SameNodes (s.heap ++ [Node.new key value newLevel]) h2)
    (rd : ∀ p j, readFwd h2 p j =
        if j < newLevel then
          (if p = predAt s.heap (below s.heap key xs) j then some (some s.heap.length)
           else if p = s.heap.length then
             readFwd s.heap (predAt s.heap (below s.heap key xs) j) j
           else readFwd s.heap p j)
        else if p = s.heap.length then none else readFwd s.heap p j) :
    Inv ⟨max s.level newLevel, h2⟩
      (below s.heap key xs ++ s.heap.length :: notBelow s.heap key xs) := by
  have hm : ∀ p ∈ header :: xs, p ≠ s.heap.length := by
    intro p hp
    rcases List.mem_cons.1 hp with e | hp2
    · subst e
      exact Nat.ne_of_lt (lt_length_of_lvl (i := 0) (by rw [inv.hdr]; decide))
    · exact Nat.ne_of_lt (inv.lt_length hp2)
  have hlv : ∀ p, p ≠ s.heap.length → lvl h2 p = lvl s.heap p := fun p hp => by
    rw [sn.lvl, lvl_snoc_ne _ _ hp]
  have hlvm : lvl h2 s.heap.length = newLevel := by
    rw [sn.lvl, lvl_snoc_new]; simp [Node.new]
  have hk : ∀ p, p ≠ s.heap.length → keyAt h2 p = keyAt s.heap p := fun p hp => by
    rw [sn.keyAt]; unfold keyAt; rw [entryAt_snoc_ne _ _ hp]
  have hkm : keyAt h2 s.heap.length = key := by
    rw [sn.keyAt]; unfold keyAt; rw [entryAt_snoc_new]; rfl
  have hxs : ∀ p ∈ xs, p ≠ s.heap.length := fun p hp => hm p (List.mem_cons_of_mem _ hp)
  have hpre := below_subset s.heap key xs
  have hpost := notBelow_subset s.heap key xs
  have hmem : ∀ p, p ∈ below s.heap key xs ++ s.heap.length :: notBelow s.heap key xs →
      p = s.heap.length ∨ p ∈ xs := by
    intro p hp
    rcases List.mem_append.1 hp with h | h
    · exact Or.inr (hpre p h)
    · rcases List.mem_cons.1 h with h | h
      · exact Or.inl h
      · exact Or.inr (hpost p h)
  refine ⟨?_, ?_, ?_, ?_, ?_, ?_, ?_⟩
  · show lvl h2 header = MAX_LEVEL
    rw [hlv _ (hm _ (by simp))]; exact inv.hdr
  · show max s.level newLevel ≤ MAX_LEVEL
    exact max_le inv.level_le hL2
  · rw [← List.cons_append, List.nodup_middle, List.cons_append, below_append_notBelow]
    exact List.nodup_cons.2 ⟨fun h => hm _ h rfl, inv.nodup⟩
  · intro p hp
    show 1 ≤ lvl h2 p
    rcases hmem p hp with e | h
    · rw [e, hlvm]; exact hL1
    · rw [hlv p (hxs p h)]; exact inv.lvl_pos p h
  · intro p hp
    show lvl h2 p ≤ max s.level newLevel
    rcases hmem p hp with e | h
    · rw [e, hlvm]; exact le_max_right _ _
    · rw [hlv p (hxs p h)]; exact le_trans (inv.lvl_le p h) (le_max_left _ _)
  · show List.Pairwise (fun p q => keyAt h2 p ≤ keyAt h2 q) _
    have hsorted : xs.Pairwise fun p q => keyAt h2 p ≤ keyAt h2 q := by
      refine inv.sorted.imp_of_mem ?_
      intro a b ha hb hab
      rwa [hk a (hxs a ha), hk b (hxs b hb)]
    rw [List.pairwise_append]
    refine ⟨hsorted.sublist (List.takeWhile_sublist _), ?_, ?_⟩
    · rw [List.pairwise_cons]
      refine ⟨?_, hsorted.sublist (List.dropWhile_sublist _)⟩
      intro q hq
      rw [hkm, hk q (hxs q (hpost q hq))]
      have := inv.notBelow_ge key hq
      omega
    · intro a ha b hb
      have h1 : keyAt s.heap a < key := below_lt ha
      rw [hk a (hxs a (hpre a ha))]
      rcases List.mem_cons.1 hb with e | hb2
      · rw [e, hkm]; omega
      · rw [hk b (hxs b (hpost b hb2))]
        have := inv.notBelow_ge key hb2
        omega
  · intro i hi
    show Linked h2 i header (atLevel h2 i _)
    have e1 : atLevel h2 i (below s.heap key xs) = atLevel s.heap i (below s.heap key xs) :=
      atLevel_congr fun p hp => hlv p (hxs p (hpre p hp))
    have e2 : atLevel h2 i (notBelow s.heap key xs)
        = atLevel s.heap i (notBelow s.heap key xs) :=
      atLevel_congr fun p hp => hlv p (hxs p (hpost p hp))
    have hsplit := inv.linked_split key hi
    have nd := inv.nodup_atLevel_split key i
    have hnot : s.heap.length ∉ header :: (atLevel s.heap i (below s.heap key xs) ++
        atLevel s.heap i (notBelow s.heap key xs)) := by
      intro h
      rw [← atLevel_append, below_append_notBelow] at h
      rcases List.mem_cons.1 h with e | h3
      · exact hm header (by simp) e.symm
      · exact hxs _ (mem_atLevel.1 h3).1 rfl
    by_cases hiL : i < newLevel
    · have e3 : atLevel h2 i (below s.heap key xs ++ s.heap.length :: notBelow s.heap key xs)
          = atLevel s.heap i (below s.heap key xs) ++
            s.heap.length :: atLevel s.heap i (notBelow s.heap key xs) := by
        rw [atLevel_append, e1]
        congr 1
        unfold atLevel at e2 ⊢
        rw [List.filter_cons_of_pos (by simp [hlvm, hiL]), e2]
      rw [e3]
      refine Linked.insert hsplit nd hnot ?_ ?_ ?_
      · intro p hp1 hp2
        have hp3 : ¬ p = predAt s.heap (below s.heap key xs) i := hp2
        rw [rd p i, if_pos hiL, if_neg hp3, if_neg hp1]
      · rw [rd _ i, if_pos hiL]
        exact if_pos rfl
      · have hne : s.heap.length ≠ predAt s.heap (below s.heap key xs) i :=
          (Nat.ne_of_lt (inv.predAt_lt key hi)).symm
        rw [rd _ i, if_pos hiL, if_neg hne, if_pos rfl]
        rfl
    · have e3 : atLevel h2 i (below s.heap key xs ++ s.heap.length :: notBelow s.heap key xs)
          = atLevel s.heap i (below s.heap key xs) ++
            atLevel s.heap i (notBelow s.heap key xs) := by
        rw [atLevel_append, e1]
        congr 1
        unfold atLevel at e2 ⊢
        rw [List.filter_cons_of_neg (by simp [hlvm]; omega), e2]
      rw [e3]
      refine Linked.frame hsplit ?_
      intro p hp
      have hpm : p ≠ s.heap.length := fun e => hnot (e ▸ hp)
      rw [rd p i, if_neg hiL, if_neg hpm]

end Inv

/-! ## The loops of `remove` -/

theorem unlink_spec (d : Nat) (update : List (Option Nat)) (u : Nat → Nat) (ld : Nat) :
    ∀ (n i : Nat) (heap : List Node), lvl heap d = ld →
      (∀ j, i ≤ j → j < i + n → update[j]? = some (some (u j)) ∧ j < lvl heap (u j)) →
      (∀ j, i ≤ j → j < i + n → j < ld → readFwd heap (u j) j = some (some d)) →
      (∀ j, i ≤ j → j < i + n → ld ≤ j → readFwd heap (u j) j ≠ some (some d)) →
      ∃ h2, unlink d update n i heap = some h2 ∧ SameNodes heap h2 ∧
        ∀ p j, readFwd h2 p j =
          if i ≤ j ∧ j < i + n ∧ j < ld ∧ p = u j then readFwd heap d j
          else readFwd heap p j
  | 0, i, heap, _, _, _, _ => ⟨heap, rfl, SameNodes.refl heap, fun p j => by
      have : ¬ (i ≤ j ∧ j < i + 0 ∧ j < ld ∧ p = u j) := by omega
      rw [if_neg this]⟩
  | n + 1, i, heap, hld, hu, hin, hout => by
    obtain ⟨hup, hlv⟩ := hu i (le_refl _) (by omega)
    obtain ⟨next, hnext⟩ := readFwd_isSome_iff.2 hlv
    by_cases hi : i < ld
    · have hnd := hin i (le_refl _) (by omega) hi
      obtain ⟨after, hafter⟩ := readFwd_isSome_iff.2 (show i < lvl heap d by omega)
      obtain ⟨h1, hw, sn1, rd1⟩ := writeFwd_spec heap (u i) i after hlv
      have e1 : ∀ r j, i + 1 ≤ j → readFwd h1 r j = readFwd heap r j := by
        intro r j hj
        rw [rd1 r j]
        have : ¬ (r = u i ∧ j = i) := by omega
        rw [if_neg this]
      obtain ⟨h2, hs, sn2, rd2⟩ := unlink_spec d update u ld n (i + 1) h1
        (by rw [sn1.lvl]; exact hld)
        (fun j hj1 hj2 => by
          obtain ⟨a, b⟩ := hu j (by omega) (by omega)
          exact ⟨a, by rw [sn1.lvl]; exact b⟩)
        (fun j hj1 hj2 hj3 => by rw [e1 _ j hj1]; exact hin j (by omega) (by omega) hj3)
        (fun j hj1 hj2 hj3 => by rw [e1 _ j hj1]; exact hout j (by omega) (by omega) hj3)
      refine ⟨h2, ?_, sn1.trans sn2, ?_⟩
      · simp only [unlink, hup, Option.some_bind, hnd, ne_eq, not_true_eq_false, if_false,
          hafter, hw]
        exact hs
      · intro p j
        rw [rd2 p j]
        by_cases hj : j = i
        · subst hj
          have c1 : ¬ (j + 1 ≤ j ∧ j < j + 1 + n ∧ j < ld ∧ p = u j) := by omega
          rw [if_neg c1, rd1 p j]
          by_cases hp : p = u j
          · have c2 : j ≤ j ∧ j < j + (n + 1) ∧ j < ld ∧ p = u j := ⟨le_refl _, by omega, hi, hp⟩
            rw [if_pos c2, if_pos ⟨hp, rfl⟩, hafter]
          · have c2 : ¬ (j ≤ j ∧ j < j + (n + 1) ∧ j < ld ∧ p = u j) := fun h => hp h.2.2.2
            have c3 : ¬ (p = u j ∧ j = j) := fun h => hp h.1
            rw [if_neg c2, if_neg c3]
        · by_cases c1 : i + 1 ≤ j ∧ j < i + 1 + n ∧ j < ld ∧ p = u j
          · have c2 : i ≤ j ∧ j < i + (n + 1) ∧ j < ld ∧ p = u j :=
              ⟨by omega, by omega, c1.2.2.1, c1.2.2.2⟩
            rw [if_pos c1, if_pos c2, e1 d j c1.1]
          · have c2 : ¬ (i ≤ j ∧ j < i + (n + 1) ∧ j < ld ∧ p = u j) := by
              intro h
              exact c1 ⟨by omega, by omega, h.2.2.1, h.2.2.2⟩
            rw [if_neg c1, if_neg c2, rd1 p j]
            have c3 : ¬ (p = u i ∧ j = i) := fun h => hj h.2
            rw [if_neg c3]
    · have hnd := hout i (le_refl _) (by omega) (by omega)
      rw [hnext] at hnd
      have hnd2 : next ≠ some d := fun e => hnd (by rw [e])
      refine ⟨heap, ?_, SameNodes.refl heap, ?_⟩
      · simp only [unlink, hup, Option.some_bind, hnext, ne_eq, hnd2, not_false_eq_true,
          if_true]
      · intro p j
        have c : ¬ (i ≤ j ∧ j < i + (n + 1) ∧ j < ld ∧ p = u j) := by omega
        rw [if_neg c]

theorem shrink_spec (heap : List Node) (hdr : lvl heap header = MAX_LEVEL) :
    ∀ (l : Nat), l ≤ MAX_LEVEL →
      ∃ l2, shrink heap l = some l2 ∧ l2 ≤ l ∧ (1 ≤ l → 1 ≤ l2) ∧
        (∀ j, l2 ≤ j → j < l → readFwd heap header j = some none) ∧
        (1 < l2 → readFwd heap header (l2 - 1) ≠ some none)
  | 0, _ => ⟨0, rfl, le_refl _, fun h => h, fun j h1 h2 => by omega, fun h => by omega⟩
  | l + 1, hl => by
    by_cases c : 1 < l + 1
    · obtain ⟨top, htop⟩ := readFwd_isSome_iff.2 (show l < lvl heap header by rw [hdr]; omega)
      by_cases ht : top = none
      · obtain ⟨l2, hs, hle, hpos, hnull, hlast⟩ := shrink_spec heap hdr l (by omega)
        refine ⟨l2, ?_, by omega, fun _ => hpos (by omega), ?_, hlast⟩
        · simp only [shrink, c, if_true, htop, Option.some_bind, ht]
          exact hs
        · intro j h1 h2
          by_cases hj : j = l
          · rw [hj, htop, ht]
          · exact hnull j h1 (by omega)
      · refine ⟨l + 1, ?_, le_refl _, fun h => h, fun j h1 h2 => by omega, ?_⟩
        · simp only [shrink, c, if_true, htop, Option.some_bind, ht, if_false]
        · intro _
          simp only [Nat.add_sub_cancel, htop]
          intro e
          exact ht (Option.some.inj e)
    · refine ⟨l + 1, ?_, le_refl _, fun h => h, fun j h1 h2 => by omega, fun h => absurd h c⟩
      simp only [shrink, c, if_false]

namespace Inv

variable {s : SkipList} {xs : List Nat}

theorem atLevel_zero_of_subset (inv : Inv s xs) {l : List Nat} (h : ∀ p ∈ l, p ∈ xs) :
    atLevel s.heap 0 l = l := by
  unfold atLevel
  rw [List.filter_eq_self]
  intro p hp
  have := inv.lvl_pos p (h p hp)
  simp; omega

/-- The link that the three methods read after the descent. -/
theorem read_pred_zero (inv : Inv s xs) (key : Int) :
    readFwd s.heap (predAt s.heap (below s.heap key xs) 0) 0
      = some (notBelow s.heap key xs).head? := by
  have h := inv.linked_pred key (i := 0) (by decide)
  rw [inv.atLevel_zero_of_subset (notBelow_subset s.heap key xs)] at h
  exact h.read

theorem deref_of_mem (inv : Inv s xs) {p : Nat} (hp : p ∈ xs) :
    ∃ n, deref s.heap p = some n ∧ keyAt s.heap p = n.key ∧ valueAt s.heap p = n.value := by
  obtain ⟨n, hn, _⟩ := deref_eq_some_of_lvl (inv.lvl_pos p hp)
  exact ⟨n, hn, keyAt_eq hn, valueAt_eq hn⟩

/-- No node with the key follows the descent: `remove` changes nothing. -/
theorem remove_absent (inv : Inv s xs) (key : Int)
    (h : ∀ d, (notBelow s.heap key xs).head? = some d → keyAt s.heap d ≠ key) :
    SkipList.remove key s = some s := by
  obtain ⟨u0, _, hdesc, _, _, _⟩ := inv.update_spec key 0 (by omega)
  unfold SkipList.remove
  simp only [hdesc, Option.some_bind, inv.read_pred_zero key]
  cases hd : (notBelow s.heap key xs).head? with
  | none => rfl
  | some d =>
    have hmem : d ∈ xs := notBelow_subset s.heap key xs d (List.mem_of_mem_head? hd)
    obtain ⟨n, hn, hk, _⟩ := inv.deref_of_mem hmem
    have := h d hd
    rw [hk] at this
    simp only [hn, Option.some_bind, this, if_false]

/-- What `remove` computes when the node `d` that follows the descent has the key. -/
theorem remove_eq (inv : Inv s xs) (key : Int) {d : Nat} {tl : List Nat}
    (hpost : notBelow s.heap key xs = d :: tl) (hkey : keyAt s.heap d = key) :
    ∃ h2 l2, SkipList.remove key s = some ⟨l2, h2⟩ ∧ SameNodes s.heap h2 ∧
      (∀ p j, readFwd h2 p j =
        if j < lvl s.heap d ∧ p = predAt s.heap (below s.heap key xs) j then readFwd s.heap d j
        else readFwd s.heap p j) ∧
      l2 ≤ s.level ∧ (1 ≤ s.level → 1 ≤ l2) ∧
      (∀ j, l2 ≤ j → j < s.level → readFwd h2 header j = some none) ∧
      (1 < l2 → readFwd h2 header (l2 - 1) ≠ some none) := by
  obtain ⟨u0, _, hdesc, _, hu0, _⟩ := inv.update_spec key 0 (by omega)
  have hd : (notBelow s.heap key xs).head? = some d := by rw [hpost]; rfl
  have hmem : d ∈ xs := notBelow_subset s.heap key xs d (List.mem_of_mem_head? hd)
  obtain ⟨n, hn, hk, _⟩ := inv.deref_of_mem hmem
  have hdl := inv.lvl_le d hmem
  have hnd : (d :: tl).Nodup := by
    rw [← hpost]
    exact (List.nodup_cons.1 inv.nodup).2.sublist (List.dropWhile_sublist _)
  obtain ⟨h2, hun, sn, rd⟩ := unlink_spec d u0 (predAt s.heap (below s.heap key xs))
    (lvl s.heap d) s.level 0 s.heap rfl
    (fun j _ hj => ⟨hu0 j (by omega), inv.predAt_lvl key (by have := inv.level_le; omega)⟩)
    (fun j _ hj hjd => by
      have hl := inv.linked_pred key (i := j) (by have := inv.level_le; omega)
      rw [hpost] at hl
      unfold atLevel at hl
      rw [List.filter_cons_of_pos (by simpa using hjd)] at hl
      exact hl.1)
    (fun j _ hj hjd => by
      have hl := inv.linked_pred key (i := j) (by have := inv.level_le; omega)
      rw [hpost] at hl
      unfold atLevel at hl
      rw [List.filter_cons_of_neg (by simp; omega)] at hl
      rw [hl.read]
      intro e
      have e2 := Option.some.inj e
      have hmem2 := List.mem_of_mem_head? e2
      exact (List.nodup_cons.1 hnd).1 ((List.filter_sublist _).subset hmem2))
  obtain ⟨l2, hsh, hle, hpos, hnull, hlast⟩ := shrink_spec h2
    (by rw [sn.lvl]; exact inv.hdr) s.level inv.level_le
  refine ⟨h2, l2, ?_, sn, ?_, hle, hpos, hnull, hlast⟩
  · unfold SkipList.remove
    rw [hk] at hkey
    simp only [hdesc, Option.some_bind, inv.read_pred_zero key, hd, hn, hkey, if_true, hun,
      hsh, Option.map_some']
  · intro p j
    rw [rd p j]
    by_cases c : j < lvl s.heap d ∧ p = predAt s.heap (below s.heap key xs) j
    · have c2 : 0 ≤ j ∧ j < 0 + s.level ∧ j < lvl s.heap d ∧
          p = predAt s.heap (below s.heap key xs) j := ⟨by omega, by omega, c.1, c.2⟩
      rw [if_pos c, if_pos c2]
    · have c2 : ¬ (0 ≤ j ∧ j < 0 + s.level ∧ j < lvl s.heap d ∧
          p = predAt s.heap (below s.heap key xs) j) := fun h => c ⟨h.2.2.1, h.2.2.2⟩
      rw [if_neg c, if_neg c2]

end Inv

namespace Inv

variable {s : SkipList} {xs : List Nat}

/-- The invariant after `remove` has unlinked the node `d`. -/
theorem remove_inv (inv : Inv s xs) (key : Int) {d : Nat} {tl : List Nat} {h2 : List Node}
    {l2 : Nat} (hpost : notBelow s.heap key xs = d :: tl)
    (sn : SameNodes s.heap h2)
    (rd : ∀ p j, readFwd h2 p j =
        if j < lvl s.heap d ∧ p = predAt s.heap (below s.heap key xs) j then readFwd s.heap d j
        else readFwd s.heap p j)
    (hle : l2 ≤ s.level)
    (hnull : ∀ j, l2 ≤ j → j < s.level → readFwd h2 header j = some none) :
    Inv ⟨l2, h2⟩ (below s.heap key xs ++ tl) := by
  have hxs : xs = below s.heap key xs ++ d :: tl := by
    rw [← hpost, below_append_notBelow]
  have hsub : (below s.heap key xs ++ tl).Sublist xs := by
    conv => rhs; rw [hxs]
    exact List.Sublist.append_left (List.sublist_cons_self d tl) _
  have hnd : (header :: xs).Nodup := inv.nodup
  have hlinked : ∀ i, i < MAX_LEVEL →
      Linked h2 i header (atLevel h2 i (below s.heap key xs ++ tl)) := by
    intro i hi
    rw [atLevel_congr (g := s.heap) (fun p _ => sn.lvl p), atLevel_append]
    have hsplit := inv.linked_split key hi
    have nd := inv.nodup_atLevel_split key i
    rw [hpost] at hsplit nd
    unfold atLevel at hsplit nd ⊢
    by_cases hid : i < lvl s.heap d
    · rw [List.filter_cons_of_pos (by simpa using hid)] at hsplit nd
      refine Linked.delete hsplit nd ?_ ?_
      · intro p hp
        have c : ¬ (i < lvl s.heap d ∧ p = predAt s.heap (below s.heap key xs) i) :=
          fun h => hp h.2
        rw [rd p i, if_neg c]
      · have c : i < lvl s.heap d ∧ predAt s.heap (below s.heap key xs) i
            = predAt s.heap (below s.heap key xs) i := ⟨hid, rfl⟩
        exact (rd _ i).trans (if_pos c)
    · rw [List.filter_cons_of_neg (by simpa using hid)] at hsplit nd
      refine Linked.frame hsplit ?_
      intro p _
      have c : ¬ (i < lvl s.heap d ∧ p = predAt s.heap (below s.heap key xs) i) :=
        fun h => hid h.1
      rw [rd p i, if_neg c]
  refine ⟨?_, ?_, ?_, ?_, ?_, ?_, hlinked⟩
  · show lvl h2 header = MAX_LEVEL
    rw [sn.lvl]; exact inv.hdr
  · exact le_trans hle inv.level_le
  · exact hnd.sublist (List.Sublist.cons₂ _ hsub)
  · intro p hp
    show 1 ≤ lvl h2 p
    rw [sn.lvl]; exact inv.lvl_pos p (hsub.subset hp)
  · intro p hp
    show lvl h2 p ≤ l2
    by_contra hcon
    have h1 : l2 < lvl h2 p := by omega
    have h3 : lvl h2 p ≤ s.level := by rw [sn.lvl]; exact inv.lvl_le p (hsub.subset hp)
    have h4 := hlinked l2 (by have := inv.level_le; omega)
    have h5 : p ∈ atLevel h2 l2 (below s.heap key xs ++ tl) := mem_atLevel.2 ⟨hp, h1⟩
    have h6 := hnull l2 (le_refl _) (by omega)
    rw [h4.read] at h6
    have h7 := Option.some.inj h6
    rw [List.head?_eq_none_iff] at h7
    rw [h7] at h5
    simp at h5
  · show List.Pairwise (fun p q => keyAt h2 p ≤ keyAt h2 q) _
    refine (inv.sorted.sublist hsub).imp ?_
    intro a b hab
    rwa [sn.keyAt, sn.keyAt]

/-- The result of `search`, read off the list of the invariant. -/
theorem search_spec (inv : Inv s xs) (key : Int) :
    SkipList.search key s = some
      (match (notBelow s.heap key xs).head? with
        | none => -1
        | some c => if keyAt s.heap c = key then valueAt s.heap c else -1) := by
  have hdesc := inv.descendSearch_spec key s.level inv.level_le
  rw [inv.predAt_top key (le_refl _)] at hdesc
  unfold SkipList.search
  simp only [hdesc, Option.some_bind, inv.read_pred_zero key]
  cases hd : (notBelow s.heap key xs).head? with
  | none => rfl
  | some d =>
    have hmem : d ∈ xs := notBelow_subset s.heap key xs d (List.mem_of_mem_head? hd)
    obtain ⟨n, hn, hk, hv⟩ := inv.deref_of_mem hmem
    simp only [hn, Option.some_bind, hk, hv]
    split_ifs <;> rfl

end Inv

theorem empty_inv : Inv SkipList.empty [] := by
  refine ⟨by decide, by decide, by simp, by simp, by simp, List.Pairwise.nil, ?_⟩
  intro i hi
  show readFwd SkipList.empty.heap header i = some none
  simp only [readFwd, deref, SkipList.empty, header, Node.new, List.getElem?_cons_zero,
    Option.some_bind]
  rw [List.getElem?_replicate]
  simp [hi]

/-! ## The invariant and the observations -/

theorem chainFrom_of_linked {heap : List Node} {i : Nat} :
    ∀ {l : List Nat} {c : Nat} (fuel : Nat), Linked heap i c l → l.length ≤ fuel →
      chainFrom heap i fuel ((readFwd heap c i).getD none) = l
  | [], c, fuel, h, _ => by
    have e : readFwd heap c i = some none := h
    rw [e]
    cases fuel <;> rfl
  | q :: l, c, 0, _, hf => by simp at hf
  | q :: l, c, fuel + 1, h, hf => by
    rw [h.1]
    show q :: chainFrom heap i fuel ((readFwd heap q i).getD none) = q :: l
    rw [chainFrom_of_linked fuel h.2 (by simpa using hf)]

theorem chainFrom_none (heap : List Node) (i fuel : Nat) : chainFrom heap i fuel none = [] := by
  cases fuel <;> rfl

namespace Inv

variable {s : SkipList} {xs : List Nat}

theorem levelChain_eq (inv : Inv s xs) {i : Nat} (hi : i < MAX_LEVEL) :
    levelChain s i = atLevel s.heap i xs := by
  unfold levelChain
  refine chainFrom_of_linked _ (inv.linked i hi) ?_
  have h1 : (atLevel s.heap i xs).length ≤ xs.length := (List.filter_sublist _).length_le
  have h2 := inv.length_lt
  omega

theorem levelChain_top (inv : Inv s xs) {i : Nat} (hi : MAX_LEVEL ≤ i) :
    levelChain s i = [] := by
  unfold levelChain
  have h : readFwd s.heap header i = none := by
    cases hr : readFwd s.heap header i with
    | none => rfl
    | some x =>
      have := readFwd_isSome_iff.1 ⟨x, hr⟩
      rw [inv.hdr] at this
      omega
  rw [h]
  exact chainFrom_none _ _ _

theorem atLevel_top (inv : Inv s xs) {i : Nat} (hi : MAX_LEVEL ≤ i) :
    atLevel s.heap i xs = [] := by
  unfold atLevel
  rw [List.filter_eq_nil_iff]
  intro p hp
  have h1 := inv.lvl_le p hp
  have h2 := inv.level_le
  simp; omega

/-- At every level the chain holds the nodes of the list that have the level. -/
theorem levelChain_all (inv : Inv s xs) (i : Nat) : levelChain s i = atLevel s.heap i xs := by
  by_cases hi : i < MAX_LEVEL
  · exact inv.levelChain_eq hi
  · rw [inv.levelChain_top (by omega), inv.atLevel_top (by omega)]

theorem chain_zero (inv : Inv s xs) : levelChain s 0 = xs := by
  rw [inv.levelChain_eq (by decide), inv.atLevel_zero]

theorem entries_eq (inv : Inv s xs) : entries s = xs.map (entryAt s.heap) := by
  unfold entries; rw [inv.chain_zero]

theorem keys_eq (inv : Inv s xs) : keys s = xs.map (keyAt s.heap) := by
  unfold keys; rw [inv.entries_eq, List.map_map]; rfl

theorem list_unique (inv : Inv s xs) {ys : List Nat} (inv2 : Inv s ys) : xs = ys := by
  rw [← inv.chain_zero, inv2.chain_zero]

end Inv

/-- Every reachable state satisfies the invariant, and the operations are
defined on it. -/
theorem Reachable.inv {s : SkipList} (h : Reachable s) : Inv s (levelChain s 0) := by
  suffices hx : ∃ xs, Inv s xs by
    obtain ⟨xs, inv⟩ := hx
    rw [inv.chain_zero]; exact inv
  induction h with
  | empty => exact ⟨[], empty_inv⟩
  | @insert s0 t0 k v flips _ hstep ih =>
    obtain ⟨xs, inv⟩ := ih
    obtain ⟨h2, he, sn, rd⟩ := inv.insert_eq k v flips
    rw [he] at hstep
    cases hstep
    exact ⟨_, inv.insert_inv k v (randomLevel flips) (randomLevel_pos flips)
      (randomLevel_le flips) sn rd⟩
  | @remove s0 t0 k _ hstep ih =>
    obtain ⟨xs, inv⟩ := ih
    cases hpost : notBelow s0.heap k xs with
    | nil =>
      rw [inv.remove_absent k (by simp [hpost])] at hstep
      cases hstep
      exact ⟨xs, inv⟩
    | cons d tl =>
      by_cases hk : keyAt s0.heap d = k
      · obtain ⟨h2, l2, he, sn, rd, hle, _, hnull, _⟩ := inv.remove_eq k hpost hk
        rw [he] at hstep
        cases hstep
        exact ⟨_, inv.remove_inv k hpost sn rd hle hnull⟩
      · rw [inv.remove_absent k (by
          intro d2 hd2
          rw [hpost] at hd2
          cases hd2
          exact hk)] at hstep
        cases hstep
        exact ⟨xs, inv⟩

namespace Inv

variable {s : SkipList} {xs : List Nat}

/-- When the node that follows the descent does not have the key, no node has. -/
theorem absent_of_head (inv : Inv s xs) (key : Int)
    (h : ∀ d, (notBelow s.heap key xs).head? = some d → keyAt s.heap d ≠ key) :
    ∀ p ∈ xs, keyAt s.heap p ≠ key := by
  intro p hp
  rw [← below_append_notBelow s.heap key xs] at hp
  rcases List.mem_append.1 hp with h1 | h1
  · have := below_lt h1
    omega
  · cases hpost : notBelow s.heap key xs with
    | nil => rw [hpost] at h1; simp at h1
    | cons d tl =>
      have hd := h d (by rw [hpost]; rfl)
      have hge := inv.notBelow_ge key (q := d) (by rw [hpost]; simp)
      have hs : (d :: tl).Pairwise fun p q => keyAt s.heap p ≤ keyAt s.heap q := by
        rw [← hpost]
        exact inv.sorted.sublist (List.dropWhile_sublist _)
      rw [hpost] at h1
      rcases List.mem_cons.1 h1 with e | h2
      · rw [e]; exact hd
      · have := (List.pairwise_cons.1 hs).1 p h2
        omega

theorem find_present (_ : Inv s xs) (key : Int) {d : Nat} {tl : List Nat}
    (hpost : notBelow s.heap key xs = d :: tl) (hkey : keyAt s.heap d = key) :
    xs.find? (fun p => decide (keyAt s.heap p = key)) = some d ∧
      xs.eraseP (fun p => decide (keyAt s.heap p = key)) = below s.heap key xs ++ tl := by
  have hpre : ∀ p ∈ below s.heap key xs, ¬ (decide (keyAt s.heap p = key) = true) := by
    intro p hp
    have := below_lt hp
    simp; omega
  have hxs : xs = below s.heap key xs ++ d :: tl := by
    rw [← hpost, below_append_notBelow]
  constructor
  · conv => lhs; rw [hxs]
    rw [List.find?_append, List.find?_eq_none.2 hpre]
    simp [hkey]
  · conv => lhs; rw [hxs]
    rw [List.eraseP_append_right _ hpre, List.eraseP_cons_of_pos (by simp [hkey])]

theorem find_absent (inv : Inv s xs) (key : Int)
    (h : ∀ d, (notBelow s.heap key xs).head? = some d → keyAt s.heap d ≠ key) :
    xs.find? (fun p => decide (keyAt s.heap p = key)) = none ∧
      xs.eraseP (fun p => decide (keyAt s.heap p = key)) = xs := by
  have hno := inv.absent_of_head key h
  constructor
  · rw [List.find?_eq_none]
    intro p hp
    simp [hno p hp]
  · rw [List.eraseP_eq_self_iff]
    intro p hp
    simp [hno p hp]

/-- The step of `insert` on the list of the invariant. -/
theorem insert_step (inv : Inv s xs) (key value : Int) (flips : Nat → Bool) :
    ∃ t, SkipList.insert key value flips s = some t ∧
      Inv t (below s.heap key xs ++ s.heap.length :: notBelow s.heap key xs) ∧
      t.level = max s.level (randomLevel flips) ∧
      SameNodes (s.heap ++ [Node.new key value (randomLevel flips)]) t.heap := by
  obtain ⟨h2, he, sn, rd⟩ := inv.insert_eq key value flips
  exact ⟨_, he, inv.insert_inv key value (randomLevel flips) (randomLevel_pos flips)
    (randomLevel_le flips) sn rd, rfl, sn⟩

/-- The step of `remove` on the list of the invariant: the first node with the
key leaves the list. -/
theorem remove_step (inv : Inv s xs) (key : Int) :
    ∃ t, SkipList.remove key s = some t ∧
      Inv t (xs.eraseP fun p => decide (keyAt s.heap p = key)) ∧
      SameNodes s.heap t.heap ∧ t.level ≤ s.level ∧
      ((∀ p ∈ xs, keyAt s.heap p ≠ key) → t = s) := by
  cases hpost : notBelow s.heap key xs with
  | nil =>
    have h : ∀ d, (notBelow s.heap key xs).head? = some d → keyAt s.heap d ≠ key := by
      simp [hpost]
    refine ⟨s, inv.remove_absent key h, ?_, SameNodes.refl _, le_refl _, fun _ => rfl⟩
    rw [(inv.find_absent key h).2]; exact inv
  | cons d tl =>
    by_cases hk : keyAt s.heap d = key
    · obtain ⟨h2, l2, he, sn, rd, hle, _, hnull, _⟩ := inv.remove_eq key hpost hk
      refine ⟨_, he, ?_, sn, hle, ?_⟩
      · rw [(inv.find_present key hpost hk).2]
        exact inv.remove_inv key hpost sn rd hle hnull
      · intro hno
        exfalso
        exact hno d (notBelow_subset s.heap key xs d (by rw [hpost]; simp)) hk
    · have h : ∀ d2, (notBelow s.heap key xs).head? = some d2 → keyAt s.heap d2 ≠ key := by
        intro d2 hd2
        rw [hpost] at hd2
        cases hd2
        exact hk
      refine ⟨s, inv.remove_absent key h, ?_, SameNodes.refl _, le_refl _, fun _ => rfl⟩
      rw [(inv.find_absent key h).2]; exact inv

/-- The step of `search` on the list of the invariant. -/
theorem search_step (inv : Inv s xs) (key : Int) :
    SkipList.search key s = some
      (match xs.find? (fun p => decide (keyAt s.heap p = key)) with
        | none => -1
        | some c => valueAt s.heap c) := by
  rw [inv.search_spec key]
  cases hpost : notBelow s.heap key xs with
  | nil =>
    have h : ∀ d, (notBelow s.heap key xs).head? = some d → keyAt s.heap d ≠ key := by
      simp [hpost]
    rw [(inv.find_absent key h).1]
    rfl
  | cons d tl =>
    by_cases hk : keyAt s.heap d = key
    · rw [(inv.find_present key hpost hk).1]
      simp [hk]
    · have h : ∀ d2, (notBelow s.heap key xs).head? = some d2 → keyAt s.heap d2 ≠ key := by
        intro d2 hd2
        rw [hpost] at hd2
        cases hd2
        exact hk
      rw [(inv.find_absent key h).1]
      simp [hk]

end Inv

/-! ## The operations on reachable states, in terms of the entries -/

theorem SameNodes.entryAt {h1 h2 : List Node} (a : SameNodes h1 h2) (p : Nat) :
    entryAt h2 p = entryAt h1 p := (a.2 p).1

theorem Reachable.insert_entries {s : SkipList} (h : Reachable s) (key value : Int)
    (flips : Nat → Bool) :
    ∃ t, SkipList.insert key value flips s = some t ∧ Reachable t ∧
      entries t = insEntry key value (entries s) := by
  have inv := h.inv
  obtain ⟨t, ht, invt, _, sn⟩ := inv.insert_step key value flips
  refine ⟨t, ht, Reachable.insert key value flips h ht, ?_⟩
  have hold : ∀ p ∈ levelChain s 0, entryAt t.heap p = entryAt s.heap p := by
    intro p hp
    rw [sn.entryAt, entryAt_snoc_ne _ _ (Nat.ne_of_lt (inv.lt_length hp))]
  have hnew : entryAt t.heap s.heap.length = (key, value) := by
    rw [sn.entryAt, entryAt_snoc_new]; rfl
  rw [invt.entries_eq, inv.entries_eq]
  unfold insEntry
  rw [List.takeWhile_map, List.dropWhile_map, List.map_append, List.map_cons, hnew]
  congr 1
  · exact List.map_congr_left fun p hp => hold p (Inv.below_subset _ _ _ p hp)
  · congr 1
    exact List.map_congr_left fun p hp => hold p (Inv.notBelow_subset _ _ _ p hp)

theorem Reachable.remove_entries {s : SkipList} (h : Reachable s) (key : Int) :
    ∃ t, SkipList.remove key s = some t ∧ Reachable t ∧
      entries t = delEntry key (entries s) ∧ (key ∉ keys s → t = s) := by
  have inv := h.inv
  obtain ⟨t, ht, invt, sn, _, hsame⟩ := inv.remove_step key
  refine ⟨t, ht, Reachable.remove key h ht, ?_, ?_⟩
  · rw [invt.entries_eq, inv.entries_eq]
    unfold delEntry
    rw [List.eraseP_map]
    exact List.map_congr_left fun p _ => sn.entryAt p
  · intro hk
    apply hsame
    intro p hp e
    apply hk
    rw [inv.keys_eq]
    exact List.mem_map.2 ⟨p, hp, e⟩

theorem Reachable.search_lookup {s : SkipList} (h : Reachable s) (key : Int) :
    SkipList.search key s = some (lookup key (entries s)) := by
  have inv := h.inv
  rw [inv.search_step key, inv.entries_eq]
  unfold lookup firstWith
  rw [List.find?_map]
  cases hf : (levelChain s 0).find? (fun p => decide (keyAt s.heap p = key)) with
  | none =>
    have : List.find? ((fun e : Int × Int => decide (e.1 = key)) ∘ entryAt s.heap)
        (levelChain s 0) = none := hf
    rw [this]; rfl
  | some c =>
    have : List.find? ((fun e : Int × Int => decide (e.1 = key)) ∘ entryAt s.heap)
        (levelChain s 0) = some c := hf
    rw [this]; rfl

theorem Reachable.keys_sorted {s : SkipList} (h : Reachable s) :
    (keys s).Pairwise fun a b => a ≤ b := by
  rw [h.inv.keys_eq, List.pairwise_map]
  exact h.inv.sorted

theorem entries_empty : entries SkipList.empty = [] := by
  rw [empty_inv.entries_eq]; rfl

/-! ## Lemmas on lists of entries -/

theorem lookup_insEntry (key value : Int) (es : List (Int × Int)) :
    lookup key (insEntry key value es) = value := by
  unfold lookup firstWith insEntry
  rw [List.find?_append, List.find?_eq_none.2 (by
    intro e he
    have := List.mem_takeWhile_imp he
    simp only [decide_eq_true_eq] at this ⊢
    omega)]
  simp

theorem insEntry_perm (key value : Int) (es : List (Int × Int)) :
    (insEntry key value es).Perm ((key, value) :: es) := by
  unfold insEntry
  refine List.perm_middle.trans ?_
  rw [List.takeWhile_append_dropWhile]

theorem insEntry_split (key value : Int) (es : List (Int × Int)) :
    ∃ a b, es = a ++ b ∧ insEntry key value es = a ++ (key, value) :: b :=
  ⟨_, _, (List.takeWhile_append_dropWhile _ es).symm, rfl⟩

theorem firstWith_some {key : Int} {es : List (Int × Int)} {e : Int × Int}
    (h : firstWith key es = some e) : e ∈ es ∧ e.1 = key := by
  unfold firstWith at h
  refine ⟨List.mem_of_find?_eq_some h, ?_⟩
  have := List.find?_some h
  simpa using this

theorem firstWith_none {key : Int} {es : List (Int × Int)} :
    firstWith key es = none ↔ key ∉ es.map Prod.fst := by
  unfold firstWith
  rw [List.find?_eq_none]
  simp only [decide_eq_true_eq, List.mem_map, not_exists, not_and]

theorem lookup_absent {key : Int} {es : List (Int × Int)} (h : key ∉ es.map Prod.fst) :
    lookup key es = -1 := by
  unfold lookup
  rw [firstWith_none.2 h]

theorem lookup_mem {key : Int} {es : List (Int × Int)} (h : key ∈ es.map Prod.fst) :
    (key, lookup key es) ∈ es := by
  unfold lookup
  cases hf : firstWith key es with
  | none => exact absurd h (firstWith_none.1 hf)
  | some e =>
    obtain ⟨h1, h2⟩ := firstWith_some hf
    have : e = (key, e.2) := by rw [← h2]
    rw [this] at h1
    exact h1

theorem lookup_of_nodup {key value : Int} {es : List (Int × Int)}
    (nd : (es.map Prod.fst).Nodup) (h : (key, value) ∈ es) : lookup key es = value := by
  have h1 : (key, lookup key es) ∈ es := lookup_mem (List.mem_map.2 ⟨_, h, rfl⟩)
  have := List.inj_on_of_nodup_map nd h1 h rfl
  exact (Prod.mk.inj this).2

theorem keys_delEntry (key : Int) (es : List (Int × Int)) :
    (delEntry key es).map Prod.fst = (es.map Prod.fst).erase key := by
  unfold delEntry
  induction es with
  | nil => rfl
  | cons e es ih =>
    by_cases h : e.1 = key
    · rw [List.eraseP_cons_of_pos (by simpa using h), List.map_cons, h, List.erase_cons_head]
    · rw [List.eraseP_cons_of_neg (by simpa using h), List.map_cons, List.map_cons,
        List.erase_cons_tail (by simpa using h), ih]

theorem delEntry_sublist (key : Int) (es : List (Int × Int)) :
    (delEntry key es).Sublist es := List.eraseP_sublist es

/-! ## Runs of calls -/

theorem Reachable.runCalls {s t : SkipList} (h : Reachable s) :
    ∀ {cs : List Call}, SkipList.runCalls cs s = some t → Reachable t := by
  intro cs
  induction cs generalizing s with
  | nil => intro e; cases e; exact h
  | cons c cs ih =>
    intro e
    simp only [SkipList.runCalls] at e
    cases hc : c.run s with
    | none => rw [hc] at e; simp at e
    | some s2 =>
      rw [hc] at e
      simp only [Option.some_bind] at e
      cases c with
      | insert k v f => exact ih (Reachable.insert k v f h hc) e
      | remove k => exact ih (Reachable.remove k h hc) e

theorem mainState_reachable : Reachable mainState := by
  unfold mainState
  cases h : SkipList.runCalls (insertCalls mainInserts) SkipList.empty with
  | none => exact Reachable.empty
  | some t => exact Reachable.empty.runCalls h

/-- A run of insertions succeeds and yields, up to order, the old entries and the
inserted ones. -/
theorem Reachable.run_inserts {s : SkipList} (h : Reachable s) :
    ∀ (ps : List (Int × Int × (Nat → Bool))),
      ∃ t, SkipList.runCalls (insertCalls ps) s = some t ∧ Reachable t ∧
        (entries t).Perm ((ps.map fun p => (p.1, p.2.1)) ++ entries s) := by
  intro ps
  induction ps generalizing s with
  | nil => exact ⟨s, rfl, h, List.Perm.refl _⟩
  | cons p ps ih =>
    obtain ⟨s2, h2, r2, e2⟩ := h.insert_entries p.1 p.2.1 p.2.2
    obtain ⟨t, ht, rt, et⟩ := ih r2
    refine ⟨t, ?_, rt, ?_⟩
    · simp only [insertCalls, List.map_cons, SkipList.runCalls, Call.run, h2, Option.some_bind]
      exact ht
    · refine et.trans ?_
      rw [e2]
      simp only [List.map_cons, List.cons_append]
      exact ((insEntry_perm _ _ _).append_left _).trans List.perm_middle

theorem randomLevel_heads (n : Nat) : randomLevel (heads n) = min MAX_LEVEL (n + 1) := by
  unfold randomLevel
  rw [randomLevelLoop_closed (heads n) n 0 1 (fun i hi => by simp [heads]; omega)
    (Or.inl (by simp [heads])) (by decide)]
  congr 1; omega

/-! ## The claims -/

/-- C1, round trip: after inserting pairs with pairwise distinct keys into the
empty list, in order and with any coin flips for the level generator, `search`
returns the value of every inserted pair and `-1` for every key that was not
inserted. -/
theorem round_trip (ps : List (Int × Int × (Nat → Bool)))
    (hd : (ps.map fun p => p.1).Nodup) :
    ∃ s, runCalls (insertCalls ps) SkipList.empty = some s ∧
      (∀ p ∈ ps, search p.1 s = some p.2.1) ∧
      ∀ k, k ∉ ps.map (fun p => p.1) → search k s = some (-1) := by
  obtain ⟨s, hs, hr, hperm⟩ := Reachable.empty.run_inserts ps
  rw [entries_empty, List.append_nil] at hperm
  have hkeys : ((entries s).map Prod.fst).Perm (ps.map fun p => p.1) := by
    have := hperm.map Prod.fst
    rwa [List.map_map] at this
  refine ⟨s, hs, ?_, ?_⟩
  · intro p hp
    rw [hr.search_lookup]
    congr 1
    refine lookup_of_nodup (hkeys.nodup_iff.2 hd) ?_
    exact hperm.mem_iff.2 (List.mem_map.2 ⟨p, hp, rfl⟩)
  · intro k hk
    rw [hr.search_lookup]
    congr 1
    exact lookup_absent fun h => hk (hkeys.mem_iff.1 h)

/-- The scenario of `main`: the six insertions, then `search(3) = 30`,
`search(9) = 90` and `search(6) = -1`. -/
theorem round_trip_witness :
    (mainInserts.map fun p => p.1).Nodup ∧
    ∃ s, runCalls (insertCalls mainInserts) SkipList.empty = some s ∧
      search 3 s = some 30 ∧ search 9 s = some 90 ∧ search 6 s = some (-1) := by
  refine ⟨by decide, ?_⟩
  obtain ⟨s, hs, hin, hout⟩ := round_trip mainInserts (by decide)
  exact ⟨s, hs, hin (3, 30, heads 2) (by simp [mainInserts]),
    hin (9, 90, heads 3) (by simp [mainInserts]), hout 6 (by decide)⟩

/-- C2, deletion correctness: in a reachable state that holds exactly one entry
with key `k`, after `remove(k)` the call `search(k)` returns `-1`, and after a
following `insert(k2, v2)` the call `search(k2)` returns `v2`. -/
theorem remove_then_search (s : SkipList) (k : Int) (h : Reachable s)
    (hk : (keys s).count k = 1) :
    ∃ t, remove k s = some t ∧ search k t = some (-1) ∧
      ∀ (k2 v2 : Int) (flips : Nat → Bool),
        ∃ t2, insert k2 v2 flips t = some t2 ∧ search k2 t2 = some v2 := by
  obtain ⟨t, ht, rt, et, _⟩ := h.remove_entries k
  refine ⟨t, ht, ?_, ?_⟩
  · rw [rt.search_lookup]
    congr 1
    apply lookup_absent
    rw [et, keys_delEntry]
    have hc : ((entries s).map Prod.fst).count k = 1 := hk
    have h0 : (((entries s).map Prod.fst).erase k).count k = 0 := by
      rw [List.count_erase_self, hc]
    exact List.count_eq_zero.1 h0
  · intro k2 v2 flips
    obtain ⟨t2, ht2, rt2, et2⟩ := rt.insert_entries k2 v2 flips
    refine ⟨t2, ht2, ?_⟩
    rw [rt2.search_lookup, et2, lookup_insEntry]

set_option maxRecDepth 100000 in
/-- The scenario of `main`: after the six insertions `remove(3)` makes
`search(3)` return `-1`, and `insert(6, 60)` then makes `search(6)` return 60. -/
theorem remove_then_search_witness :
    Reachable mainState ∧ (keys mainState).count 3 = 1 ∧
    ∃ t, remove 3 mainState = some t ∧ search 3 t = some (-1) ∧
      ∃ t2, insert 6 60 (heads 1) t = some t2 ∧ search 6 t2 = some 60 := by
  have hc : (keys mainState).count 3 = 1 := by
    simp only [mainState, mainInserts, insertCalls, List.map, runCalls, Call.run,
      SkipList.insert, randomLevel_heads]
    decide
  obtain ⟨t, ht, hs, hins⟩ := remove_then_search mainState 3 mainState_reachable hc
  exact ⟨mainState_reachable, hc, t, ht, hs, hins 6 60 (heads 1)⟩

theorem eraseP_eq_erase_of_find {p : Nat → Bool} {l : List Nat} {d : Nat}
    (h : l.find? p = some d) : l.eraseP p = l.erase d := by
  obtain ⟨hd, a, b, e, ha⟩ := List.find?_eq_some.1 h
  have hda : d ∉ a := by
    intro hmem
    have := ha d hmem
    simp [hd] at this
  subst e
  rw [List.eraseP_append_right _ (fun x hx => by simpa using ha x hx),
    List.eraseP_cons_of_pos hd, List.erase_append_right _ hda, List.erase_cons_head]

theorem atLevel_erase (heap : List Node) (i d : Nat) {l : List Nat} (nd : l.Nodup) :
    atLevel heap i (l.erase d) = (atLevel heap i l).erase d := by
  unfold atLevel
  rw [nd.erase_eq_filter, (nd.filter _).erase_eq_filter, List.filter_filter,
    List.filter_filter]
  apply List.filter_congr
  intro x _
  exact Bool.and_comm _ _

theorem mem_keys_iff {s : SkipList} (h : Reachable s) (k : Int) :
    k ∈ keys s ↔ ∃ p ∈ levelChain s 0, keyAt s.heap p = k := by
  rw [h.inv.keys_eq, List.mem_map]

/-- C3, `remove` takes out exactly one node: in a reachable state that holds
an entry with key `k` (duplicates allowed), `remove(k)` deletes from the
sequence of entries of the level-0 chain the first entry with key `k` and no
other; the node `d` of that entry is afterwards on no level chain, and every
level chain is the previous one without `d`, in the previous order, with the
keys, values and levels of all nodes as before. -/
theorem remove_exactly_one (s : SkipList) (k : Int) (h : Reachable s) (hk : k ∈ keys s) :
    ∃ t d, remove k s = some t ∧ firstNode k s = some d ∧
      (∃ a v b, entries s = a ++ (k, v) :: b ∧ k ∉ a.map Prod.fst ∧
        entryAt s.heap d = (k, v) ∧ entries t = a ++ b) ∧
      (∀ p, entryAt t.heap p = entryAt s.heap p ∧ lvl t.heap p = lvl s.heap p) ∧
      ∀ i, (levelChain s i).Nodup ∧ d ∉ levelChain t i ∧
        levelChain t i = (levelChain s i).erase d := by
  have inv := h.inv
  obtain ⟨t, ht, invt, sn, _, _⟩ := inv.remove_step k
  obtain ⟨p, hp, hpk⟩ := (mem_keys_iff h k).1 hk
  have hfind : ∃ d, firstNode k s = some d := by
    unfold firstNode
    cases hf : (levelChain s 0).find? (fun p => decide (keyAt s.heap p = k)) with
    | some d => exact ⟨d, rfl⟩
    | none =>
      have := List.find?_eq_none.1 hf p hp
      simp [hpk] at this
  obtain ⟨d, hd⟩ := hfind
  have hd2 : (levelChain s 0).find? (fun p => decide (keyAt s.heap p = k)) = some d := hd
  rw [eraseP_eq_erase_of_find hd2] at invt
  have hnd : (levelChain s 0).Nodup := (List.nodup_cons.1 inv.nodup).2
  have hchain : ∀ i, levelChain t i = (levelChain s i).erase d := by
    intro i
    rw [invt.levelChain_all i, inv.levelChain_all i,
      Inv.atLevel_congr (g := s.heap) (fun q _ => sn.lvl q), atLevel_erase _ _ _ hnd]
  refine ⟨t, d, ht, hd, ?_, fun q => ⟨sn.entryAt q, sn.lvl q⟩, ?_⟩
  · obtain ⟨hdk, as, bs, e, has⟩ := List.find?_eq_some.1 hd2
    have hdk2 : keyAt s.heap d = k := by simpa using hdk
    have hda : d ∉ as := by
      intro hmem
      have := has d hmem
      simp [hdk2] at this
    refine ⟨as.map (entryAt s.heap), (entryAt s.heap d).2, bs.map (entryAt s.heap),
      ?_, ?_, ?_, ?_⟩
    · unfold entries
      rw [e, List.map_append, List.map_cons, ← hdk2]
      rfl
    · intro hmem
      rw [List.map_map] at hmem
      obtain ⟨x, hx, hxk⟩ := List.mem_map.1 hmem
      have := has x hx
      have hxk2 : keyAt s.heap x = k := hxk
      simp [hxk2] at this
    · rw [← hdk2]; rfl
    · unfold entries
      rw [hchain 0, e, List.erase_append_right _ hda, List.erase_cons_head, List.map_append]
      congr 1 <;> exact List.map_congr_left fun q _ => sn.entryAt q
  · intro i
    have hndi : (levelChain s i).Nodup := by
      rw [inv.levelChain_all i]
      exact hnd.sublist (List.filter_sublist _)
    refine ⟨hndi, ?_, hchain i⟩
    rw [hchain i]
    intro hmem
    exact ((List.Nodup.mem_erase_iff hndi).1 hmem).1 rfl

set_option maxRecDepth 100000 in
/-- In the list of `main`, `remove(3)` takes out the node of key 3. -/
theorem remove_exactly_one_witness :
    Reachable mainState ∧ (3 : Int) ∈ keys mainState ∧
    ∃ t d, remove 3 mainState = some t ∧ firstNode 3 mainState = some d ∧
      (∃ a v b, entries mainState = a ++ (3, v) :: b ∧ (3 : Int) ∉ a.map Prod.fst ∧
        entryAt mainState.heap d = (3, v) ∧ entries t = a ++ b) ∧
      (∀ p, entryAt t.heap p = entryAt mainState.heap p ∧
        lvl t.heap p = lvl mainState.heap p) ∧
      ∀ i, (levelChain mainState i).Nodup ∧ d ∉ levelChain t i ∧
        levelChain t i = (levelChain mainState i).erase d := by
  have hk : (3 : Int) ∈ keys mainState := by
    simp only [mainState, mainInserts, insertCalls, List.map, runCalls, Call.run,
      SkipList.insert, randomLevel_heads]
    decide
  exact ⟨mainState_reachable, hk, remove_exactly_one mainState 3 mainState_reachable hk⟩

theorem Reachable.removeResult_eq {s : SkipList} (h : Reachable s) (k : Int) :
    removeResult k s = some () := by
  obtain ⟨t, ht, _⟩ := h.remove_entries k
  unfold removeResult
  rw [ht]
  rfl

set_option maxRecDepth 100000 in
/-- C4 fails as stated: `remove` is `void`, so in the list of `main` the call
for the absent key 6, which changes nothing, hands back the same as the call for
the present key 3, which unlinks a node; no reading of what `remove` hands back
is `false` for the first call and `true` for the second. -/
theorem remove_reports_nothing :
    Reachable mainState ∧ (6 : Int) ∉ keys mainState ∧ (3 : Int) ∈ keys mainState ∧
    remove 6 mainState = some mainState ∧ remove 3 mainState ≠ some mainState ∧
    removeResult 6 mainState = removeResult 3 mainState ∧
    ¬ ∃ report : Option Unit → Bool,
        report (removeResult 6 mainState) = false ∧
        report (removeResult 3 mainState) = true := by
  have h6 : (6 : Int) ∉ keys mainState := by
    simp only [mainState, mainInserts, insertCalls, List.map, runCalls, Call.run,
      SkipList.insert, randomLevel_heads]
    decide
  have h3 : (3 : Int) ∈ keys mainState := by
    simp only [mainState, mainInserts, insertCalls, List.map, runCalls, Call.run,
      SkipList.insert, randomLevel_heads]
    decide
  have hr := mainState_reachable
  obtain ⟨t6, ht6, _, _, hsame⟩ := hr.remove_entries 6
  obtain ⟨t3, ht3, _, et3, _⟩ := hr.remove_entries 3
  have e : removeResult 6 mainState = removeResult 3 mainState := by
    rw [hr.removeResult_eq 6, hr.removeResult_eq 3]
  refine ⟨hr, h6, h3, by rw [ht6, hsame h6], ?_, e, ?_⟩
  · rw [ht3]
    intro hsome
    have e3 : t3 = mainState := Option.some.inj hsome
    rw [e3] at et3
    have hk : (keys mainState).erase 3 = keys mainState := by
      have := keys_delEntry 3 (entries mainState)
      rw [← et3] at this
      exact this.symm
    have hlen := List.length_erase_of_mem h3
    rw [hk] at hlen
    have hpos : 0 < (keys mainState).length := List.length_pos_of_mem h3
    omega
  · rintro ⟨report, hf, ht⟩
    rw [e, ht] at hf
    exact Bool.noConfusion hf

/-- C4 as amended: in a reachable state that holds no entry with key `k`,
`remove(k)` returns normally and leaves the state as it was, with the same level
and the same links in the header and in every node.  The method is `void`: it
hands back no report, and that nothing was removed shows in the unchanged
state. -/
theorem remove_absent_noop (s : SkipList) (k : Int) (h : Reachable s) (hk : k ∉ keys s) :
    remove k s = some s ∧ removeResult k s = some () := by
  obtain ⟨t, ht, _, _, hsame⟩ := h.remove_entries k
  refine ⟨by rw [ht, hsame hk], h.removeResult_eq k⟩

set_option maxRecDepth 100000 in
/-- On the empty list, of level 0, and on the list of `main`, removing a key
that is absent changes nothing. -/
theorem remove_absent_noop_witness :
    (Reachable SkipList.empty ∧ (7 : Int) ∉ keys SkipList.empty ∧
      remove 7 SkipList.empty = some SkipList.empty ∧
      removeResult 7 SkipList.empty = some ()) ∧
    (Reachable mainState ∧ (6 : Int) ∉ keys mainState ∧
      remove 6 mainState = some mainState ∧ removeResult 6 mainState = some ()) := by
  have h1 : (7 : Int) ∉ keys SkipList.empty := by decide
  have h2 : (6 : Int) ∉ keys mainState := by
    simp only [mainState, mainInserts, insertCalls, List.map, runCalls, Call.run,
      SkipList.insert, randomLevel_heads]
    decide
  exact ⟨⟨Reachable.empty, h1, remove_absent_noop _ 7 Reachable.empty h1⟩,
    ⟨mainState_reachable, h2, remove_absent_noop _ 6 mainState_reachable h2⟩⟩

theorem delEntry_insEntry (key value : Int) (es : List (Int × Int)) :
    delEntry key (insEntry key value es) = es := by
  unfold delEntry insEntry
  rw [List.eraseP_append_right _ (by
    intro e he
    have := List.mem_takeWhile_imp he
    simp only [decide_eq_true_eq] at this ⊢
    omega), List.eraseP_cons_of_pos (by simp), List.takeWhile_append_dropWhile]

/-- C5, `insert` never rejects or merges: in a reachable state, for every key
(also one that is present) and value, `insert` succeeds and adds one entry:
the entries of the level-0 chain are the previous ones in their order with
`(k, v)` put in at one place, and the number of entries with key `k` grows by
one.  After a second `insert(k, v2)` and one `remove(k)`, `search(k)` still
finds an entry with key `k`, namely `(k, v)`. -/
theorem insert_adds_one (s : SkipList) (k v : Int) (flips : Nat → Bool) (h : Reachable s) :
    ∃ t, insert k v flips s = some t ∧
      (∃ a b, entries s = a ++ b ∧ entries t = a ++ (k, v) :: b) ∧
      (keys t).count k = (keys s).count k + 1 ∧
      ∀ (v2 : Int) (flips2 : Nat → Bool),
        ∃ t2 t3, insert k v2 flips2 t = some t2 ∧ remove k t2 = some t3 ∧
          search k t3 = some v ∧ (k, v) ∈ entries t3 := by
  obtain ⟨t, ht, rt, et⟩ := h.insert_entries k v flips
  refine ⟨t, ht, ?_, ?_, ?_⟩
  · rw [et]; exact insEntry_split k v (entries s)
  · have hp := (insEntry_perm k v (entries s)).map Prod.fst
    unfold keys
    rw [et, hp.count_eq, List.map_cons, List.count_cons_self]
  · intro v2 flips2
    obtain ⟨t2, ht2, rt2, et2⟩ := rt.insert_entries k v2 flips2
    obtain ⟨t3, ht3, rt3, et3, _⟩ := rt2.remove_entries k
    rw [et2, delEntry_insEntry] at et3
    refine ⟨t2, t3, ht2, ht3, ?_, ?_⟩
    · rw [rt3.search_lookup, et3, et, lookup_insEntry]
    · rw [et3, et]
      exact (insEntry_perm k v (entries s)).mem_iff.2 (List.mem_cons_self _ _)

/-- In the list of `main`, a second entry with key 5 is added next to the first. -/
theorem insert_adds_one_witness :
    Reachable mainState ∧
    ∃ t, insert 5 55 (heads 4) mainState = some t ∧
      (∃ a b, entries mainState = a ++ b ∧ entries t = a ++ (5, 55) :: b) ∧
      (keys t).count 5 = (keys mainState).count 5 + 1 ∧
      ∀ (v2 : Int) (flips2 : Nat → Bool),
        ∃ t2 t3, insert 5 v2 flips2 t = some t2 ∧ remove 5 t2 = some t3 ∧
          search 5 t3 = some 55 ∧ ((5 : Int), (55 : Int)) ∈ entries t3 :=
  ⟨mainState_reachable, insert_adds_one mainState 5 55 (heads 4) mainState_reachable⟩

theorem minusOneState_reachable : Reachable minusOneState := by
  unfold minusOneState
  cases h : SkipList.insert 5 (-1) (heads 0) SkipList.empty with
  | none => exact Reachable.empty
  | some t => exact Reachable.insert 5 (-1) (heads 0) Reachable.empty h

set_option maxRecDepth 100000 in
/-- C6 fails as stated: in the list that holds the single entry `(5, -1)`,
`search(5)` returns `-1` although key 5 is present, the same result as
`search(6)` for the absent key 6. -/
theorem search_absence_collides :
    Reachable minusOneState ∧ (5 : Int) ∈ keys minusOneState ∧
    (6 : Int) ∉ keys minusOneState ∧
    search 5 minusOneState = some (-1) ∧ search 6 minusOneState = some (-1) ∧
    ¬ (search 5 minusOneState = some (-1) ↔ (5 : Int) ∉ keys minusOneState) := by
  have e : minusOneState = ⟨1, [⟨-1, -1, some 1 :: List.replicate 31 none⟩, ⟨5, -1, [none]⟩]⟩ := by
    simp only [minusOneState, SkipList.insert, randomLevel_heads]
    decide
  refine ⟨minusOneState_reachable, ?_⟩
  rw [e]
  decide

/-- C6 as amended: in a reachable state `search(k)` returns `-1` exactly when no
entry has key `k` or the first entry with key `k` on the level-0 chain stores the
value `-1`; a result other than `-1` is the value of an entry with key `k`. -/
theorem search_absent_iff (s : SkipList) (k : Int) (h : Reachable s) :
    (search k s = some (-1) ↔
      (k ∉ keys s ∨ firstWith k (entries s) = some (k, -1))) ∧
    ∀ v, search k s = some v → v ≠ -1 → (k, v) ∈ entries s := by
  rw [h.search_lookup]
  constructor
  · constructor
    · intro hl
      by_cases hk : k ∈ keys s
      · right
        have hl2 : lookup k (entries s) = -1 := Option.some.inj hl
        unfold lookup at hl2
        cases hf : firstWith k (entries s) with
        | none => exact absurd hk (firstWith_none.1 hf)
        | some e =>
          rw [hf] at hl2
          have hl3 : e.2 = -1 := hl2
          obtain ⟨_, h2⟩ := firstWith_some hf
          rw [← h2, ← hl3]
      · exact Or.inl hk
    · rintro (hk | hf)
      · rw [lookup_absent hk]
      · unfold lookup
        rw [hf]
  · intro v hv hne
    have hl : lookup k (entries s) = v := Option.some.inj hv
    by_cases hk : k ∈ keys s
    · rw [← hl]; exact lookup_mem hk
    · rw [lookup_absent hk] at hl
      exact absurd hl.symm hne

set_option maxRecDepth 100000 in
/-- In the list of `main`, whose values differ from `-1`, `search` tells the
present key 3 from the absent key 6. -/
theorem search_absent_iff_witness :
    Reachable mainState ∧
    ((search 3 mainState = some (-1) ↔
      ((3 : Int) ∉ keys mainState ∨ firstWith 3 (entries mainState) = some (3, -1))) ∧
    ∀ v, search 3 mainState = some v → v ≠ -1 → ((3 : Int), v) ∈ entries mainState) :=
  ⟨mainState_reachable, search_absent_iff mainState 3 mainState_reachable⟩

/-- Removing the keys of a list, each as often as it occurs and in any order,
empties the list. -/
theorem Reachable.run_removes {s : SkipList} (h : Reachable s) :
    ∀ (ks : List Int), ks.Perm (keys s) →
      ∃ t, SkipList.runCalls (removeCalls ks) s = some t ∧ Reachable t ∧ entries t = [] := by
  intro ks
  induction ks generalizing s with
  | nil =>
    intro hp
    have hk : keys s = [] := List.Perm.eq_nil hp.symm
    exact ⟨s, rfl, h, List.map_eq_nil_iff.1 hk⟩
  | cons k ks ih =>
    intro hp
    obtain ⟨s2, h2, r2, e2, _⟩ := h.remove_entries k
    have hk2 : ks.Perm (keys s2) := by
      have := hp.erase k
      rw [List.erase_cons_head] at this
      unfold keys
      rw [e2, keys_delEntry]
      exact this
    obtain ⟨t, ht, rt, et⟩ := ih r2 hk2
    refine ⟨t, ?_, rt, et⟩
    simp only [removeCalls, List.map_cons, SkipList.runCalls, Call.run, h2, Option.some_bind]
    exact ht

theorem Reachable.header_links_empty {t : SkipList} (h : Reachable t) (he : entries t = []) :
    ∀ i, i < MAX_LEVEL → readFwd t.heap header i = some none := by
  intro i hi
  have inv := h.inv
  have hc : levelChain t 0 = [] := List.map_eq_nil_iff.1 he
  rw [hc] at inv
  exact inv.linked i hi

/-- C7, bulk insert then delete: after inserting any pairs (keys may repeat, any
coin flips) into the empty list, `search(k)` returns for every inserted key `k`
a value `v` such that `(k, v)` was inserted; and after `remove(k)` has then been
called once for each inserted pair, in any order, `search` returns `-1` for every
inserted key and every link of the header is null. -/
theorem bulk_insert_delete (ps : List (Int × Int × (Nat → Bool))) :
    ∃ s, runCalls (insertCalls ps) SkipList.empty = some s ∧
      (∀ p ∈ ps, ∃ v, search p.1 s = some v ∧ (p.1, v) ∈ ps.map fun q => (q.1, q.2.1)) ∧
      ∀ ks : List Int, ks.Perm (ps.map fun p => p.1) →
        ∃ t, runCalls (removeCalls ks) s = some t ∧
          (∀ p ∈ ps, search p.1 t = some (-1)) ∧
          ∀ i, i < MAX_LEVEL → readFwd t.heap header i = some none := by
  obtain ⟨s, hs, hr, hperm⟩ := Reachable.empty.run_inserts ps
  rw [entries_empty, List.append_nil] at hperm
  have hkeys : (keys s).Perm (ps.map fun p => p.1) := by
    have := hperm.map Prod.fst
    rwa [List.map_map] at this
  refine ⟨s, hs, ?_, ?_⟩
  · intro p hp
    refine ⟨lookup p.1 (entries s), hr.search_lookup p.1, ?_⟩
    refine hperm.mem_iff.1 (lookup_mem ?_)
    exact hkeys.mem_iff.2 (List.mem_map.2 ⟨p, hp, rfl⟩)
  · intro ks hks
    obtain ⟨t, ht, rt, et⟩ := hr.run_removes ks (hks.trans hkeys.symm)
    refine ⟨t, ht, ?_, rt.header_links_empty et⟩
    intro p _
    rw [rt.search_lookup, et]
    rfl

/-- C8, the three operations never fail: in a reachable state `insert` (with any
coin flips), `search` and `remove` return a result, for every key and value;
that is, no null or unset pointer is dereferenced, no vector is indexed at or
past its length and no loop runs out of fuel. -/
theorem operations_total (s : SkipList) (h : Reachable s) :
    (∀ (k v : Int) (flips : Nat → Bool), ∃ t, insert k v flips s = some t) ∧
    (∀ k : Int, ∃ v, search k s = some v) ∧
    (∀ k : Int, ∃ t, remove k s = some t) := by
  refine ⟨?_, ?_, ?_⟩
  · intro k v flips
    obtain ⟨t, ht, _⟩ := h.insert_entries k v flips
    exact ⟨t, ht⟩
  · intro k
    exact ⟨_, h.search_lookup k⟩
  · intro k
    obtain ⟨t, ht, _⟩ := h.remove_entries k
    exact ⟨t, ht⟩

/-- The three operations return a result on the list of `main`. -/
theorem operations_total_witness :
    Reachable mainState ∧
    (∀ (k v : Int) (flips : Nat → Bool), ∃ t, insert k v flips mainState = some t) ∧
    (∀ k : Int, ∃ v, search k mainState = some v) ∧
    (∀ k : Int, ∃ t, remove k mainState = some t) :=
  ⟨mainState_reachable, operations_total mainState mainState_reachable⟩

/-- C9, the key of the header never collides with a key: in a reachable state
the header is on no level chain and is not the node that `search` and `remove`
find for a key; `search(k)` returns the value of the first entry of the level-0
chain with key `k` (`-1` if there is none) and `remove(k)` deletes that entry,
for every `k`, also `k = -1`; when `-1` was not inserted,
`search(-1)` returns `-1` and `remove(-1)` changes nothing, and after
`insert(-1, v)` the call `search(-1)` returns `v`. -/
theorem header_key_never_matches (s : SkipList) (k : Int) (h : Reachable s) :
    (∀ i, header ∉ levelChain s i) ∧ firstNode k s ≠ some header ∧
    search k s = some (lookup k (entries s)) ∧
    (∃ t, remove k s = some t ∧ entries t = delEntry k (entries s) ∧
      (k ∉ keys s → t = s)) ∧
    ((-1 : Int) ∉ keys s → search (-1) s = some (-1) ∧ remove (-1) s = some s) ∧
    ∀ (v : Int) (flips : Nat → Bool),
      ∃ t, insert (-1) v flips s = some t ∧ search (-1) t = some v := by
  refine ⟨?_, ?_, h.search_lookup k, ?_, ?_, ?_⟩
  · intro i hmem
    rw [h.inv.levelChain_all i] at hmem
    exact h.inv.not_header (mem_atLevel.1 hmem).1
  · intro hf
    exact h.inv.not_header (List.mem_of_find?_eq_some hf)
  · obtain ⟨t, ht, _, et, hsame⟩ := h.remove_entries k
    exact ⟨t, ht, et, hsame⟩
  · intro hk
    obtain ⟨t, ht, _, _, hsame⟩ := h.remove_entries (-1)
    refine ⟨?_, by rw [ht, hsame hk]⟩
    rw [h.search_lookup, lookup_absent hk]
  · intro v flips
    obtain ⟨t, ht, rt, et⟩ := h.insert_entries (-1) v flips
    refine ⟨t, ht, ?_⟩
    rw [rt.search_lookup, et, lookup_insEntry]

/-- On the list of `main` the key `-1` of the header is treated as any other key. -/
theorem header_key_never_matches_witness :
    Reachable mainState ∧
    (∀ i, header ∉ levelChain mainState i) ∧ firstNode (-1) mainState ≠ some header ∧
    search (-1) mainState = some (lookup (-1) (entries mainState)) ∧
    (∃ t, remove (-1) mainState = some t ∧
      entries t = delEntry (-1) (entries mainState) ∧
      ((-1 : Int) ∉ keys mainState → t = mainState)) ∧
    ((-1 : Int) ∉ keys mainState →
      search (-1) mainState = some (-1) ∧ remove (-1) mainState = some mainState) ∧
    ∀ (v : Int) (flips : Nat → Bool),
      ∃ t, insert (-1) v flips mainState = some t ∧ search (-1) t = some v :=
  ⟨mainState_reachable, header_key_never_matches mainState (-1) mainState_reachable⟩

/-- C10, the range of the level generator: for every sequence of coin flips
`randomLevel` returns a level between 1 and `MAX_LEVEL = 32`; after `n`
successes followed by a failure it returns `min(MAX_LEVEL, 1 + n)`; when every
flip succeeds it returns `MAX_LEVEL`, and when the first flip fails it returns 1. -/
theorem randomLevel_range (flips : Nat → Bool) :
    MAX_LEVEL = 32 ∧ 1 ≤ randomLevel flips ∧ randomLevel flips ≤ MAX_LEVEL ∧
    (∀ n, (∀ i, i < n → flips i = true) → flips n = false →
      randomLevel flips = min MAX_LEVEL (1 + n)) ∧
    ((∀ i, flips i = true) → randomLevel flips = MAX_LEVEL) ∧
    (flips 0 = false → randomLevel flips = 1) := by
  refine ⟨rfl, randomLevel_pos flips, randomLevel_le flips, ?_, ?_, ?_⟩
  · intro n hall hn
    unfold randomLevel
    exact randomLevelLoop_closed flips n 0 1 (fun i hi => by rw [Nat.zero_add]; exact hall i hi)
      (Or.inl (by rw [Nat.zero_add]; exact hn)) (by decide)
  · intro hall
    unfold randomLevel
    rw [randomLevelLoop_closed flips (MAX_LEVEL - 1) 0 1 (fun i _ => hall _)
      (Or.inr (by decide)) (by decide)]
    decide
  · intro h0
    unfold randomLevel
    rw [randomLevelLoop_closed flips 0 0 1 (fun i hi => by omega) (Or.inl h0) (by decide)]
    decide

/-- Two successes and a failure give level 3, successes only give level 32 and a
first failure gives level 1. -/
theorem randomLevel_range_witness :
    randomLevel (heads 2) = 3 ∧ randomLevel (fun _ => true) = 32 ∧
    randomLevel (fun _ => false) = 1 :=
  ⟨(randomLevel_range (heads 2)).2.2.2.1 2 (by decide) (by decide),
    (randomLevel_range fun _ => true).2.2.2.2.1 (fun _ => rfl),
    (randomLevel_range fun _ => false).2.2.2.2.2 rfl⟩

/-- Every level from 1 to `MAX_LEVEL` is the result of `randomLevel` for some
coin flips, so the reachable states cover every choice of levels. -/
theorem randomLevel_onto (l : Nat) (h1 : 1 ≤ l) (h2 : l ≤ MAX_LEVEL) :
    randomLevel (heads (l - 1)) = l := by
  rw [randomLevel_heads]
  omega

/-! ## The claims on the order of the chains -/

theorem reachable_run (cs : List Call) :
    Reachable ((SkipList.runCalls cs SkipList.empty).getD SkipList.empty) := by
  cases h : SkipList.runCalls cs SkipList.empty with
  | none => exact Reachable.empty
  | some t => exact Reachable.empty.runCalls h

theorem Reachable.chainKeys_le {s : SkipList} (h : Reachable s) (i : Nat) :
    (chainKeys s i).Pairwise fun a b => a ≤ b := by
  unfold chainKeys
  rw [h.inv.levelChain_all i, List.pairwise_map]
  exact h.inv.sorted.sublist (List.filter_sublist _)

theorem Reachable.chainKeys_lt {s : SkipList} (h : Reachable s) (nd : (keys s).Nodup)
    (i : Nat) : (chainKeys s i).Pairwise fun a b => a < b := by
  have hle := h.chainKeys_le i
  have hne : (chainKeys s i).Pairwise fun a b => a ≠ b := by
    unfold chainKeys
    rw [h.inv.levelChain_all i]
    rw [h.inv.keys_eq] at nd
    exact (nd.sublist ((List.filter_sublist _).map _))
  exact (hle.and hne).imp fun hab => lt_of_le_of_ne hab.1 hab.2

theorem ReachableFresh.reachable_nodup {s : SkipList} (h : ReachableFresh s) :
    Reachable s ∧ (keys s).Nodup := by
  induction h with
  | empty =>
    refine ⟨Reachable.empty, ?_⟩
    unfold keys; rw [entries_empty]; exact List.nodup_nil
  | @insert s0 t0 k v flips _ hk hstep ih =>
    obtain ⟨t, ht, rt, et⟩ := ih.1.insert_entries k v flips
    rw [hstep] at ht
    cases ht
    refine ⟨rt, ?_⟩
    have hp := (insEntry_perm k v (entries s0)).map Prod.fst
    unfold keys
    rw [et, hp.nodup_iff, List.map_cons]
    exact List.nodup_cons.2 ⟨hk, ih.2⟩
  | @remove s0 t0 k _ hstep ih =>
    obtain ⟨t, ht, rt, et, _⟩ := ih.1.remove_entries k
    rw [hstep] at ht
    cases ht
    refine ⟨rt, ?_⟩
    unfold keys
    rw [et, keys_delEntry]
    exact ih.2.erase k

set_option maxRecDepth 100000 in
/-- C11 fails as stated: after `insert(5, 1)` and `insert(5, 2)` the level-0
chain holds the keys 5, 5, which are not strictly increasing. -/
theorem twin_keys_not_increasing :
    Reachable twinState ∧ chainKeys twinState 0 = [5, 5] ∧
    ¬ (chainKeys twinState 0).Pairwise fun a b => a < b := by
  have e : chainKeys twinState 0 = [5, 5] := by
    simp only [twinState, insertCalls, List.map, runCalls, Call.run, SkipList.insert,
      randomLevel_heads]
    decide
  refine ⟨reachable_run _, e, ?_⟩
  rw [e]
  decide

/-- C11 as amended: in every reachable state the keys along the chain of every
level are non-decreasing, and they are strictly increasing when the list holds
no two entries with the same key. -/
theorem chain_keys_ordered (s : SkipList) (i : Nat) (h : Reachable s) :
    ((chainKeys s i).Pairwise fun a b => a ≤ b) ∧
    ((keys s).Nodup → (chainKeys s i).Pairwise fun a b => a < b) :=
  ⟨h.chainKeys_le i, fun nd => h.chainKeys_lt nd i⟩

set_option maxRecDepth 100000 in
/-- In the list of `main`, whose keys are distinct, the keys of level 1 increase. -/
theorem chain_keys_ordered_witness :
    Reachable mainState ∧ (keys mainState).Nodup ∧
    ((chainKeys mainState 1).Pairwise fun a b => a ≤ b) ∧
    ((chainKeys mainState 1).Pairwise fun a b => a < b) := by
  have nd : (keys mainState).Nodup := by
    simp only [mainState, mainInserts, insertCalls, List.map, runCalls, Call.run,
      SkipList.insert, randomLevel_heads]
    decide
  have h := chain_keys_ordered mainState 1 mainState_reachable
  exact ⟨mainState_reachable, nd, h.1, h.2 nd⟩

/-- C12, subsumption: in every reachable state, for every level `i > 0`, the
chain of level `i` is a sublist of the chain of level `i - 1`: each of its nodes
is on the chain below, and in the same relative order. -/
theorem chain_subsumption (s : SkipList) (i : Nat) (h : Reachable s) (hi : 0 < i) :
    (levelChain s i).Sublist (levelChain s (i - 1)) ∧
    ∀ p ∈ levelChain s i, p ∈ levelChain s (i - 1) := by
  have hsub : (levelChain s i).Sublist (levelChain s (i - 1)) := by
    rw [h.inv.levelChain_all i, h.inv.levelChain_all (i - 1)]
    have e : atLevel s.heap i (levelChain s 0)
        = (atLevel s.heap (i - 1) (levelChain s 0)).filter
            fun p => decide (i < lvl s.heap p) := by
      unfold atLevel
      rw [List.filter_filter]
      apply List.filter_congr
      intro p _
      by_cases c : i < lvl s.heap p
      · have c2 : i - 1 < lvl s.heap p := by omega
        simp [c, c2]
      · simp [c]
    rw [e]
    exact List.filter_sublist _
  exact ⟨hsub, fun p hp => hsub.subset hp⟩

set_option maxRecDepth 100000 in
/-- In the list of `main` the chain of level 2 lies within the chain of level 1. -/
theorem chain_subsumption_witness :
    Reachable mainState ∧ 0 < 2 ∧
    (levelChain mainState 2).Sublist (levelChain mainState (2 - 1)) ∧
    ∀ p ∈ levelChain mainState 2, p ∈ levelChain mainState (2 - 1) :=
  ⟨mainState_reachable, by decide, chain_subsumption mainState 2 mainState_reachable (by decide)⟩

/-- C15, sortedness with duplicates: in every reachable state, also after
insertions of a key that is present, the keys along the chain of every level are
non-decreasing; and they are strictly increasing at every level in the states
reached by calls in which no `insert` used a key that was in the list at the
time of the call. -/
theorem sorted_with_duplicates (s : SkipList) (i : Nat) :
    (Reachable s → (chainKeys s i).Pairwise fun a b => a ≤ b) ∧
    (ReachableFresh s → (chainKeys s i).Pairwise fun a b => a < b) :=
  ⟨fun h => h.chainKeys_le i, fun h =>
    h.reachable_nodup.1.chainKeys_lt h.reachable_nodup.2 i⟩

/-- A run of insertions whose keys are distinct and not in the list keeps the
keys of the list fresh. -/
theorem ReachableFresh.run_fresh_inserts {s : SkipList} (h : ReachableFresh s) :
    ∀ (ps : List (Int × Int × (Nat → Bool))),
      ((ps.map fun p => p.1) ++ keys s).Nodup →
      ∀ t, SkipList.runCalls (insertCalls ps) s = some t → ReachableFresh t := by
  intro ps
  induction ps generalizing s with
  | nil =>
    intro _ t e
    cases e
    exact h
  | cons p ps ih =>
    intro nd t e
    simp only [List.map_cons, List.cons_append] at nd
    have hp : p.1 ∉ keys s := fun hm =>
      (List.nodup_cons.1 nd).1 (List.mem_append_right _ hm)
    obtain ⟨s2, h2, _, e2⟩ := h.reachable_nodup.1.insert_entries p.1 p.2.1 p.2.2
    have hf2 : ReachableFresh s2 := ReachableFresh.insert p.1 p.2.1 p.2.2 h hp h2
    simp only [insertCalls, List.map_cons, SkipList.runCalls, Call.run, h2,
      Option.some_bind] at e
    refine ih hf2 ?_ t e
    have hk : (keys s2).Perm (p.1 :: keys s) := by
      have := (insEntry_perm p.1 p.2.1 (entries s)).map Prod.fst
      unfold keys
      rw [e2]
      exact this
    have hperm : ((ps.map fun p => p.1) ++ keys s2).Perm
        (p.1 :: ((ps.map fun p => p.1) ++ keys s)) :=
      (hk.append_left _).trans List.perm_middle
    exact hperm.nodup_iff.2 nd

theorem mainState_fresh : ReachableFresh mainState := by
  unfold mainState
  cases h : SkipList.runCalls (insertCalls mainInserts) SkipList.empty with
  | none => exact ReachableFresh.empty
  | some t => exact ReachableFresh.empty.run_fresh_inserts mainInserts (by decide) t h

set_option maxRecDepth 100000 in
/-- In the list after `insert(5, 1); insert(3, 7); insert(5, 2)` the keys of
level 0 are 3, 5, 5 and those of level 1 are 3, 5: non-decreasing.  In the list
of `main`, built without a repeated key, the keys of level 0 are 1, 3, 5, 7, 9,
11 and those of level 1 are 3, 5, 9: strictly increasing. -/
theorem sorted_with_duplicates_witness :
    (Reachable mixedState ∧
      chainKeys mixedState 0 = [3, 5, 5] ∧ chainKeys mixedState 1 = [3, 5] ∧
      ((chainKeys mixedState 0).Pairwise fun a b => a ≤ b) ∧
      ((chainKeys mixedState 1).Pairwise fun a b => a ≤ b)) ∧
    (ReachableFresh mainState ∧
      chainKeys mainState 0 = [1, 3, 5, 7, 9, 11] ∧ chainKeys mainState 1 = [3, 5, 9] ∧
      ((chainKeys mainState 0).Pairwise fun a b => a < b) ∧
      ((chainKeys mainState 1).Pairwise fun a b => a < b)) := by
  have m0 : chainKeys mixedState 0 = [3, 5, 5] := by
    simp only [mixedState, insertCalls, List.map, runCalls, Call.run, SkipList.insert,
      randomLevel_heads]
    decide
  have m1 : chainKeys mixedState 1 = [3, 5] := by
    simp only [mixedState, insertCalls, List.map, runCalls, Call.run, SkipList.insert,
      randomLevel_heads]
    decide
  have k0 : chainKeys mainState 0 = [1, 3, 5, 7, 9, 11] := by
    simp only [mainState, mainInserts, insertCalls, List.map, runCalls, Call.run,
      SkipList.insert, randomLevel_heads]
    decide
  have k1 : chainKeys mainState 1 = [3, 5, 9] := by
    simp only [mainState, mainInserts, insertCalls, List.map, runCalls, Call.run,
      SkipList.insert, randomLevel_heads]
    decide
  exact ⟨⟨reachable_run _, m0, m1,
      (sorted_with_duplicates mixedState 0).1 (reachable_run _),
      (sorted_with_duplicates mixedState 1).1 (reachable_run _)⟩,
    ⟨mainState_fresh, k0, k1,
      (sorted_with_duplicates mainState 0).2 mainState_fresh,
      (sorted_with_duplicates mainState 1).2 mainState_fresh⟩⟩

/-! ## The steps of the operations on the level-0 chain -/

/-- The effect of `insert` on the level-0 chain and on the store. -/
theorem Reachable.insert_chain {s : SkipList} (h : Reachable s) (key value : Int)
    (flips : Nat → Bool) :
    ∃ t, SkipList.insert key value flips s = some t ∧ Reachable t ∧
      levelChain t 0 = SkipList.below s.heap key (levelChain s 0) ++
        s.heap.length :: notBelow s.heap key (levelChain s 0) ∧
      t.level = max s.level (randomLevel flips) ∧
      t.heap.length = s.heap.length + 1 ∧
      entryAt t.heap s.heap.length = (key, value) ∧
      lvl t.heap s.heap.length = randomLevel flips ∧
      ∀ p, p ≠ s.heap.length →
        entryAt t.heap p = entryAt s.heap p ∧ lvl t.heap p = lvl s.heap p := by
  obtain ⟨t, ht, invt, hl, sn⟩ := h.inv.insert_step key value flips
  refine ⟨t, ht, Reachable.insert key value flips h ht, invt.chain_zero, hl, ?_, ?_, ?_, ?_⟩
  · rw [sn.1]; simp
  · rw [sn.entryAt, entryAt_snoc_new]; rfl
  · rw [sn.lvl, lvl_snoc_new]; simp [Node.new]
  · intro p hp
    exact ⟨by rw [sn.entryAt, entryAt_snoc_ne _ _ hp], by rw [sn.lvl, lvl_snoc_ne _ _ hp]⟩

/-- The effect of `remove` on the level-0 chain and on the store. -/
theorem Reachable.remove_chain {s : SkipList} (h : Reachable s) (key : Int) :
    ∃ t, SkipList.remove key s = some t ∧ Reachable t ∧
      levelChain t 0 = (levelChain s 0).eraseP (fun p => decide (keyAt s.heap p = key)) ∧
      SameNodes s.heap t.heap ∧ t.level ≤ s.level := by
  obtain ⟨t, ht, invt, sn, hle, _⟩ := h.inv.remove_step key
  exact ⟨t, ht, Reachable.remove key h ht, invt.chain_zero, sn, hle⟩

theorem Reachable.chain_lt_length {s : SkipList} (h : Reachable s) :
    ∀ p ∈ levelChain s 0, p < s.heap.length := fun _ hp => h.inv.lt_length hp

theorem Reachable.youngestFirst {s : SkipList} (h : Reachable s) : YoungestFirst s := by
  induction h with
  | empty =>
    unfold YoungestFirst
    rw [empty_inv.chain_zero]
    exact List.Pairwise.nil
  | @insert s0 t0 k v flips h0 hstep ih =>
    obtain ⟨t, ht, _, hc, _, _, hnew, _, hold⟩ := h0.insert_chain k v flips
    rw [hstep] at ht
    cases ht
    have hlt := h0.chain_lt_length
    have hkey : ∀ p ∈ levelChain s0 0, keyAt t0.heap p = keyAt s0.heap p := by
      intro p hp
      unfold keyAt
      rw [(hold p (Nat.ne_of_lt (hlt p hp))).1]
    have hkm : keyAt t0.heap s0.heap.length = k := by
      unfold keyAt; rw [hnew]
    have hpre := Inv.below_subset s0.heap k (levelChain s0 0)
    have hpost := Inv.notBelow_subset s0.heap k (levelChain s0 0)
    have hxs : (levelChain s0 0).Pairwise
        fun p q => keyAt t0.heap p = keyAt t0.heap q → q < p := by
      refine List.Pairwise.imp_of_mem ?_ ih
      intro a b ha hb hab e
      rw [hkey a ha, hkey b hb] at e
      exact hab e
    unfold YoungestFirst
    rw [hc, List.pairwise_append]
    refine ⟨hxs.sublist (List.takeWhile_sublist _), ?_, ?_⟩
    · rw [List.pairwise_cons]
      exact ⟨fun q hq _ => hlt q (hpost q hq), hxs.sublist (List.dropWhile_sublist _)⟩
    · intro a ha b hb e
      rcases List.mem_cons.1 hb with hb1 | hb2
      · exfalso
        rw [hb1, hkm, hkey a (hpre a ha)] at e
        have := below_lt ha
        omega
      · have hsplit : (SkipList.below s0.heap k (levelChain s0 0) ++
            notBelow s0.heap k (levelChain s0 0)).Pairwise
            fun p q => keyAt t0.heap p = keyAt t0.heap q → q < p := by
          rw [below_append_notBelow]; exact hxs
        exact (List.pairwise_append.1 hsplit).2.2 a ha b hb2 e
  | @remove s0 t0 k h0 hstep ih =>
    obtain ⟨t, ht, _, hc, sn, _⟩ := h0.remove_chain k
    rw [hstep] at ht
    cases ht
    unfold YoungestFirst
    rw [hc]
    refine (List.Pairwise.sublist (List.eraseP_sublist _) ih).imp ?_
    intro a b hab e
    rw [sn.keyAt, sn.keyAt] at e
    exact hab e

theorem Reachable.firstNode_of_mem {s : SkipList} (h : Reachable s) {k : Int}
    (hk : k ∈ keys s) :
    ∃ d a b, firstNode k s = some d ∧ levelChain s 0 = a ++ d :: b ∧
      keyAt s.heap d = k ∧ ∀ p ∈ a, keyAt s.heap p ≠ k := by
  obtain ⟨p, hp, hpk⟩ := (mem_keys_iff h k).1 hk
  cases hf : (levelChain s 0).find? (fun p => decide (keyAt s.heap p = k)) with
  | none =>
    have := List.find?_eq_none.1 hf p hp
    simp [hpk] at this
  | some d =>
    obtain ⟨hdk, a, b, e, ha⟩ := List.find?_eq_some.1 hf
    refine ⟨d, a, b, hf, e, by simpa using hdk, ?_⟩
    intro q hq
    have := ha q hq
    simpa using this

/-- C13, last in first out among duplicates: in a reachable state with an entry
of key `k`, the node that `search(k)` reads and `remove(k)` unlinks is the node
of key `k` on the level-0 chain with the greatest address, the one allocated
last; `insert(k, v)` allocates its node at the next address, above all nodes of
the list, and that node is then the first with key `k`.  So after
`insert(k, v1); insert(k, v2)`, with any coin flips, `search(k)` returns `v2`,
and after a further `remove(k)` it returns `v1`. -/
theorem lifo_among_duplicates (s : SkipList) (k : Int) (h : Reachable s) :
    (k ∈ keys s → ∃ d, firstNode k s = some d ∧ d ∈ levelChain s 0 ∧
        keyAt s.heap d = k ∧
        (∀ p ∈ levelChain s 0, keyAt s.heap p = k → p ≤ d) ∧
        search k s = some (valueAt s.heap d) ∧
        ∃ t, remove k s = some t ∧ levelChain t 0 = (levelChain s 0).erase d) ∧
    (∀ (v : Int) (flips : Nat → Bool), ∃ t, insert k v flips s = some t ∧
        (∀ p ∈ levelChain s 0, p < s.heap.length) ∧
        firstNode k t = some s.heap.length ∧ entryAt t.heap s.heap.length = (k, v)) ∧
    ∀ (v1 v2 : Int) (f1 f2 : Nat → Bool), ∃ t1 t2 t3,
        insert k v1 f1 s = some t1 ∧ insert k v2 f2 t1 = some t2 ∧
        search k t2 = some v2 ∧ remove k t2 = some t3 ∧ search k t3 = some v1 := by
  refine ⟨?_, ?_, ?_⟩
  · intro hk
    obtain ⟨d, a, b, hf, e, hdk, ha⟩ := h.firstNode_of_mem hk
    have hf2 : (levelChain s 0).find? (fun p => decide (keyAt s.heap p = k)) = some d := hf
    refine ⟨d, hf, by rw [e]; simp, hdk, ?_, ?_, ?_⟩
    · intro p hp hpk
      have hy : (a ++ d :: b).Pairwise
          fun p q => keyAt s.heap p = keyAt s.heap q → q < p := by
        rw [← e]; exact h.youngestFirst
      rw [e] at hp
      rcases List.mem_append.1 hp with h1 | h1
      · exact absurd hpk (ha p h1)
      · rcases List.mem_cons.1 h1 with h2 | h2
        · rw [h2]
        · have := (List.pairwise_cons.1 (List.pairwise_append.1 hy).2.1).1 p h2
            (by rw [hdk, hpk])
          omega
    · rw [h.inv.search_step k, hf2]
    · obtain ⟨t, ht, _, hc, _, _⟩ := h.remove_chain k
      exact ⟨t, ht, by rw [hc, eraseP_eq_erase_of_find hf2]⟩
  · intro v flips
    obtain ⟨t, ht, _, hc, _, _, hnew, _, hold⟩ := h.insert_chain k v flips
    refine ⟨t, ht, h.chain_lt_length, ?_, hnew⟩
    unfold firstNode
    rw [hc, List.find?_append, List.find?_eq_none.2 (by
      intro p hp
      have h1 := below_lt hp
      have h2 := h.chain_lt_length p (Inv.below_subset _ _ _ p hp)
      have h3 : keyAt t.heap p = keyAt s.heap p := by
        unfold keyAt; rw [(hold p (Nat.ne_of_lt h2)).1]
      simp only [decide_eq_true_eq, h3]
      omega)]
    have hkm : keyAt t.heap s.heap.length = k := by
      unfold keyAt; rw [hnew]
    simp [hkm]
  · intro v1 v2 f1 f2
    obtain ⟨t1, ht1, r1, e1⟩ := h.insert_entries k v1 f1
    obtain ⟨t2, ht2, r2, e2⟩ := r1.insert_entries k v2 f2
    obtain ⟨t3, ht3, r3, e3, _⟩ := r2.remove_entries k
    refine ⟨t1, t2, t3, ht1, ht2, ?_, ht3, ?_⟩
    · rw [r2.search_lookup, e2, lookup_insEntry]
    · rw [r3.search_lookup, e3, e2, delEntry_insEntry, e1, lookup_insEntry]

set_option maxRecDepth 100000 in
/-- In the list after `insert(5, 1); insert(5, 2)`, `search(5)` and `remove(5)`
take the node of the second insertion. -/
theorem lifo_among_duplicates_witness :
    Reachable twinState ∧ (5 : Int) ∈ keys twinState ∧
    firstNode 5 twinState = some 2 ∧ search 5 twinState = some 2 ∧
    ∃ d, firstNode 5 twinState = some d ∧ d ∈ levelChain twinState 0 ∧
      keyAt twinState.heap d = 5 ∧
      (∀ p ∈ levelChain twinState 0, keyAt twinState.heap p = 5 → p ≤ d) ∧
      search 5 twinState = some (valueAt twinState.heap d) ∧
      ∃ t, remove 5 twinState = some t ∧
        levelChain t 0 = (levelChain twinState 0).erase d := by
  have e : twinState = ⟨2, [⟨-1, -1, some 2 :: some 2 :: List.replicate 30 none⟩,
      ⟨5, 1, [none]⟩, ⟨5, 2, [some 1, none]⟩]⟩ := by
    simp only [twinState, insertCalls, List.map, runCalls, Call.run, SkipList.insert,
      randomLevel_heads]
    decide
  have hk : (5 : Int) ∈ keys twinState := by rw [e]; decide
  have h1 : firstNode 5 twinState = some 2 := by rw [e]; decide
  have h2 : search 5 twinState = some 2 := by rw [e]; decide
  exact ⟨reachable_run _, hk, h1, h2,
    (lifo_among_duplicates twinState 5 (reachable_run _)).1 hk⟩

/-! ## Refinement of the reference model -/

theorem modelInsert_eq (key value : Int) (es : List (Int × Int)) :
    modelInsert key value es = insEntry key value es := by
  unfold insEntry
  induction es with
  | nil => rfl
  | cons e es ih =>
    by_cases c : e.1 < key
    · have c2 : ¬ e.1 ≥ key := by omega
      simp only [modelInsert, c2, if_false, ih]
      rw [List.takeWhile_cons_of_pos (by simpa using c),
        List.dropWhile_cons_of_pos (by simpa using c)]
      rfl
    · have c2 : e.1 ≥ key := by omega
      simp only [modelInsert, c2, if_true]
      rw [List.takeWhile_cons_of_neg (by simpa using c),
        List.dropWhile_cons_of_neg (by simpa using c)]
      rfl

theorem modelRemove_eq (key : Int) (es : List (Int × Int)) :
    modelRemove key es = delEntry key es := by
  unfold delEntry
  induction es with
  | nil => rfl
  | cons e es ih =>
    by_cases c : e.1 = key
    · simp only [modelRemove, c, if_true]
      rw [List.eraseP_cons_of_pos (by simpa using c)]
    · simp only [modelRemove, c, if_false, ih]
      rw [List.eraseP_cons_of_neg (by simpa using c)]

theorem modelSearch_eq (key : Int) (es : List (Int × Int)) :
    modelSearch key es = lookup key es := by
  unfold lookup firstWith
  induction es with
  | nil => rfl
  | cons e es ih =>
    by_cases c : e.1 = key
    · simp only [modelSearch, c, if_true]
      rw [List.find?_cons_of_pos _ (by simpa using c)]
    · simp only [modelSearch, c, if_false, ih]
      rw [List.find?_cons_of_neg _ (by simpa using c)]

/-- A run of calls from a reachable state succeeds, and its entries are those of
the run of the reference model. -/
theorem Reachable.run_model {s : SkipList} (h : Reachable s) :
    ∀ (cs : List Call), ∃ t, SkipList.runCalls cs s = some t ∧ Reachable t ∧
      entries t = runModel (cs.map Call.op) (entries s) := by
  intro cs
  induction cs generalizing s with
  | nil => exact ⟨s, rfl, h, rfl⟩
  | cons c cs ih =>
    cases c with
    | insert k v f =>
      obtain ⟨s2, h2, r2, e2⟩ := h.insert_entries k v f
      obtain ⟨t, ht, rt, et⟩ := ih r2
      refine ⟨t, ?_, rt, ?_⟩
      · simp only [SkipList.runCalls, Call.run, h2, Option.some_bind]
        exact ht
      · rw [et, e2]
        simp only [List.map_cons, Call.op, runModel, ModelOp.run, modelInsert_eq]
    | remove k =>
      obtain ⟨s2, h2, r2, e2, _⟩ := h.remove_entries k
      obtain ⟨t, ht, rt, et⟩ := ih r2
      refine ⟨t, ?_, rt, ?_⟩
      · simp only [SkipList.runCalls, Call.run, h2, Option.some_bind]
        exact ht
      · rw [et, e2]
        simp only [List.map_cons, Call.op, runModel, ModelOp.run, modelRemove_eq]

/-- C14, refinement of a sorted association list: every sequence of `insert`
and `remove` calls on the empty list succeeds; the entries of the level-0 chain
are then the list of the reference model after the same operations, and every
`search` returns what the reference `search` returns.  A second run of the same
operations with other coin flips ends with the same entries and the same
`search` results. -/
theorem refines_sorted_list (cs : List Call) :
    ∃ s, runCalls cs SkipList.empty = some s ∧
      entries s = runModel (cs.map Call.op) [] ∧
      (∀ k, search k s = some (modelSearch k (runModel (cs.map Call.op) []))) ∧
      ∀ cs2 : List Call, cs2.map Call.op = cs.map Call.op →
        ∃ s2, runCalls cs2 SkipList.empty = some s2 ∧ entries s2 = entries s ∧
          ∀ k, search k s2 = search k s := by
  obtain ⟨s, hs, rs, es⟩ := Reachable.empty.run_model cs
  rw [entries_empty] at es
  refine ⟨s, hs, es, ?_, ?_⟩
  · intro k
    rw [rs.search_lookup, modelSearch_eq, es]
  · intro cs2 hops
    obtain ⟨s2, hs2, rs2, es2⟩ := Reachable.empty.run_model cs2
    rw [entries_empty, hops, ← es] at es2
    refine ⟨s2, hs2, es2, ?_⟩
    intro k
    rw [rs2.search_lookup, rs.search_lookup, es2]

/-! ## The levels of the nodes -/

theorem Reachable.step_frame {s t : SkipList} (h : Reachable s) (c : Call)
    (hc : c.run s = some t) :
    Reachable t ∧ s.heap.length ≤ t.heap.length ∧
      ∀ p, p < s.heap.length →
        entryAt t.heap p = entryAt s.heap p ∧ lvl t.heap p = lvl s.heap p := by
  cases c with
  | insert k v f =>
    obtain ⟨t1, ht1, r1, _, _, hlen, _, _, hold⟩ := h.insert_chain k v f
    have e : SkipList.insert k v f s = some t := hc
    rw [ht1] at e
    cases e
    exact ⟨r1, by omega, fun p hp => hold p (Nat.ne_of_lt hp)⟩
  | remove k =>
    obtain ⟨t1, ht1, r1, _, sn, _⟩ := h.remove_chain k
    have e : SkipList.remove k s = some t := hc
    rw [ht1] at e
    cases e
    exact ⟨r1, by rw [sn.1], fun p _ => ⟨sn.entryAt p, sn.lvl p⟩⟩

/-- No call changes the key, the value or the number of links of a node that is
allocated. -/
theorem Reachable.run_frame {s : SkipList} (h : Reachable s) :
    ∀ (cs : List Call) (t : SkipList), SkipList.runCalls cs s = some t →
      s.heap.length ≤ t.heap.length ∧
      ∀ p, p < s.heap.length →
        entryAt t.heap p = entryAt s.heap p ∧ lvl t.heap p = lvl s.heap p := by
  intro cs
  induction cs generalizing s with
  | nil =>
    intro t e
    cases e
    exact ⟨le_refl _, fun _ _ => ⟨rfl, rfl⟩⟩
  | cons c cs ih =>
    intro t e
    simp only [SkipList.runCalls] at e
    cases hc : c.run s with
    | none => rw [hc] at e; simp at e
    | some s2 =>
      rw [hc] at e
      simp only [Option.some_bind] at e
      obtain ⟨r2, hlen, hfr⟩ := h.step_frame c hc
      obtain ⟨hlen2, hfr2⟩ := ih r2 t e
      refine ⟨le_trans hlen hlen2, fun p hp => ?_⟩
      have h1 := hfr p hp
      have h2 := hfr2 p (by omega)
      exact ⟨h2.1.trans h1.1, h2.2.trans h1.2⟩

/-- C16, the level of a node: `insert` with generated level `L` allocates a node
with exactly `L` links; the node keeps this number of links through every later
call; and in every reachable state a node is on the chain of level `i` exactly
when it is in the list (on the level-0 chain) and `i` is below its number of
links. -/
theorem node_level_invariant (s : SkipList) (h : Reachable s) :
    (∀ p i, p ∈ levelChain s i ↔ (p ∈ levelChain s 0 ∧ i < lvl s.heap p)) ∧
    ∀ (k v : Int) (flips : Nat → Bool), ∃ t, insert k v flips s = some t ∧
      s.heap.length ∈ levelChain t 0 ∧
      (deref t.heap s.heap.length).map (fun n => n.forward.length)
        = some (randomLevel flips) ∧
      (∀ i, s.heap.length ∈ levelChain t i ↔ i < randomLevel flips) ∧
      ∀ (cs : List Call) (u : SkipList), runCalls cs t = some u →
        lvl u.heap s.heap.length = randomLevel flips := by
  have hmem : ∀ {r : SkipList}, Reachable r →
      ∀ p i, p ∈ levelChain r i ↔ (p ∈ levelChain r 0 ∧ i < lvl r.heap p) := by
    intro r hr p i
    rw [hr.inv.levelChain_all i]
    exact mem_atLevel
  refine ⟨hmem h, ?_⟩
  intro k v flips
  obtain ⟨t, ht, rt, hc, _, hlen, _, hlvl, _⟩ := h.insert_chain k v flips
  have hin : s.heap.length ∈ levelChain t 0 := by rw [hc]; simp
  refine ⟨t, ht, hin, ?_, ?_, ?_⟩
  · obtain ⟨n, hn, hl⟩ := deref_eq_some_of_lvl (rt.inv.lvl_pos _ hin)
    rw [hlvl] at hl
    simp only [deref, hn, Option.map_some', hl]
  · intro i
    rw [hmem rt, hlvl]
    exact ⟨fun hh => hh.2, fun hh => ⟨hin, hh⟩⟩
  · intro cs u hu
    rw [((rt.run_frame cs u hu).2 s.heap.length (by omega)).2, hlvl]

set_option maxRecDepth 100000 in
/-- In the list of `main`, the node of key 9, inserted with level 4, is on the
chains of the levels 0 to 3 and on no other. -/
theorem node_level_invariant_witness :
    Reachable mainState ∧ lvl mainState.heap 5 = 4 ∧
    (∀ p i, p ∈ levelChain mainState i ↔
      (p ∈ levelChain mainState 0 ∧ i < lvl mainState.heap p)) ∧
    ∀ (k v : Int) (flips : Nat → Bool), ∃ t, insert k v flips mainState = some t ∧
      mainState.heap.length ∈ levelChain t 0 ∧
      (deref t.heap mainState.heap.length).map (fun n => n.forward.length)
        = some (randomLevel flips) ∧
      (∀ i, mainState.heap.length ∈ levelChain t i ↔ i < randomLevel flips) ∧
      ∀ (cs : List Call) (u : SkipList), runCalls cs t = some u →
        lvl u.heap mainState.heap.length = randomLevel flips := by
  have hl : lvl mainState.heap 5 = 4 := by
    simp only [mainState, mainInserts, insertCalls, List.map, runCalls, Call.run,
      SkipList.insert, randomLevel_heads]
    decide
  have h := node_level_invariant mainState mainState_reachable
  exact ⟨mainState_reachable, hl, h.1, h.2⟩

/-! ## The level of the list -/

namespace Inv

variable {s : SkipList} {xs : List Nat}

/-- The two outcomes of `remove`: nothing has the key and the state stays, or a
node is unlinked and the level is shrunk. -/
theorem remove_cases (inv : Inv s xs) (key : Int) :
    ((∀ p ∈ xs, keyAt s.heap p ≠ key) ∧ SkipList.remove key s = some s) ∨
    ((∃ p ∈ xs, keyAt s.heap p = key) ∧ ∃ t, SkipList.remove key s = some t ∧
      t.level ≤ s.level ∧ (1 ≤ s.level → 1 ≤ t.level) ∧
      (1 < t.level → readFwd t.heap header (t.level - 1) ≠ some none)) := by
  have habs : (∀ d, (notBelow s.heap key xs).head? = some d → keyAt s.heap d ≠ key) →
      (∀ p ∈ xs, keyAt s.heap p ≠ key) ∧ SkipList.remove key s = some s :=
    fun h => ⟨inv.absent_of_head key h, inv.remove_absent key h⟩
  cases hpost : notBelow s.heap key xs with
  | nil => exact Or.inl (habs (by simp [hpost]))
  | cons d tl =>
    by_cases hk : keyAt s.heap d = key
    · obtain ⟨h2, l2, he, _, _, hle, hpos, _, hlast⟩ := inv.remove_eq key hpost hk
      exact Or.inr ⟨⟨d, notBelow_subset s.heap key xs d (by rw [hpost]; simp), hk⟩,
        _, he, hle, hpos, hlast⟩
    · refine Or.inl (habs ?_)
      intro d2 hd2
      rw [hpost] at hd2
      cases hd2
      exact hk

end Inv

theorem Reachable.level_le {s : SkipList} (h : Reachable s) : s.level ≤ MAX_LEVEL :=
  h.inv.level_le

theorem Reachable.mem_levelChain {s : SkipList} (h : Reachable s) (p i : Nat) :
    p ∈ levelChain s i ↔ (p ∈ levelChain s 0 ∧ i < lvl s.heap p) := by
  rw [h.inv.levelChain_all i]
  exact mem_atLevel

theorem Reachable.header_read {s : SkipList} (h : Reachable s) {i : Nat}
    (hi : i < MAX_LEVEL) : readFwd s.heap header i = some (levelChain s i).head? := by
  rw [h.inv.levelChain_eq hi]
  exact (h.inv.linked i hi).read

theorem Reachable.header_set_iff {s : SkipList} (h : Reachable s) {i : Nat}
    (hi : i < MAX_LEVEL) :
    readFwd s.heap header i ≠ some none ↔ ∃ p ∈ levelChain s 0, i < lvl s.heap p := by
  rw [h.header_read hi]
  constructor
  · intro hne
    cases hc : levelChain s i with
    | nil => rw [hc] at hne; exact absurd rfl hne
    | cons q l =>
      have hq : q ∈ levelChain s i := by rw [hc]; simp
      exact ⟨q, (h.mem_levelChain q i).1 hq⟩
  · rintro ⟨p, hp, hl⟩ e
    have hmem : p ∈ levelChain s i := (h.mem_levelChain p i).2 ⟨hp, hl⟩
    have := Option.some.inj e
    rw [List.head?_eq_none_iff] at this
    rw [this] at hmem
    simp at hmem

theorem Reachable.emptyFrom_level {s : SkipList} (h : Reachable s) : EmptyFrom s s.level := by
  intro i hi hmax
  by_contra hne
  obtain ⟨p, hp, hl⟩ := (h.header_set_iff hmax).1 hne
  have := h.inv.lvl_le p hp
  omega

theorem Reachable.level_pos_of_mem {s : SkipList} (h : Reachable s) {p : Nat}
    (hp : p ∈ levelChain s 0) : 1 ≤ s.level :=
  le_trans (h.inv.lvl_pos p hp) (h.inv.lvl_le p hp)

theorem Reachable.topTight {s : SkipList} (h : Reachable s) : TopTight s := by
  induction h with
  | empty =>
    intro hl
    exact absurd hl (by decide)
  | @insert s0 t0 k v flips h0 hstep ih =>
    obtain ⟨t, ht, rt, hc, hlev, _, _, hlvl, hold⟩ := h0.insert_chain k v flips
    rw [hstep] at ht
    cases ht
    intro hl
    have hmax : t0.level - 1 < MAX_LEVEL := by have := rt.level_le; omega
    rw [rt.header_set_iff hmax]
    by_cases c : s0.level ≤ randomLevel flips
    · refine ⟨s0.heap.length, by rw [hc]; simp, ?_⟩
      rw [hlvl, hlev, max_eq_right c]
      have := randomLevel_pos flips
      omega
    · have e : t0.level = s0.level := by rw [hlev, max_eq_left (by omega)]
      rw [e] at hl ⊢
      have hmax0 : s0.level - 1 < MAX_LEVEL := by have := h0.level_le; omega
      obtain ⟨p, hp, hpl⟩ := (h0.header_set_iff hmax0).1 (ih hl)
      refine ⟨p, ?_, ?_⟩
      · rw [hc]
        have : p ∈ SkipList.below s0.heap k (levelChain s0 0) ++
            notBelow s0.heap k (levelChain s0 0) := by
          rw [below_append_notBelow]; exact hp
        rcases List.mem_append.1 this with h1 | h1
        · exact List.mem_append_left _ h1
        · exact List.mem_append_right _ (List.mem_cons_of_mem _ h1)
      · rw [(hold p (Nat.ne_of_lt (h0.chain_lt_length p hp))).2]
        exact hpl
  | @remove s0 t0 k h0 hstep ih =>
    rcases h0.inv.remove_cases k with ⟨_, he⟩ | ⟨_, t, he, _, _, hlast⟩
    · rw [he] at hstep
      cases hstep
      exact ih
    · rw [he] at hstep
      cases hstep
      exact hlast

theorem Reachable.remove_level_pos {s t : SkipList} (h : Reachable s) {k : Int}
    (hstep : SkipList.remove k s = some t) (hl : 1 ≤ s.level) : 1 ≤ t.level := by
  rcases h.inv.remove_cases k with ⟨_, he⟩ | ⟨_, t2, he, _, hpos, _⟩
  · rw [he] at hstep
    cases hstep
    exact hl
  · rw [he] at hstep
    cases hstep
    exact hpos hl

/-- Once an `insert` has run, the level stays at 1 or above. -/
theorem Reachable.run_level {s : SkipList} (h : Reachable s) :
    ∀ (cs : List Call) (t : SkipList), SkipList.runCalls cs s = some t →
      (1 ≤ s.level ∨ ∃ c ∈ cs, c.isInsert = true) → 1 ≤ t.level := by
  intro cs
  induction cs generalizing s with
  | nil =>
    intro t e hor
    cases e
    rcases hor with h1 | ⟨c, hc, _⟩
    · exact h1
    · simp at hc
  | cons c cs ih =>
    intro t e hor
    simp only [SkipList.runCalls] at e
    cases hc : c.run s with
    | none => rw [hc] at e; simp at e
    | some s2 =>
      rw [hc] at e
      simp only [Option.some_bind] at e
      have r2 := (h.step_frame c hc).1
      cases c with
      | insert k v f =>
        obtain ⟨t1, ht1, _, _, hlev, _⟩ := h.insert_chain k v f
        have e2 : SkipList.insert k v f s = some s2 := hc
        rw [ht1] at e2
        cases e2
        refine ih r2 t e (Or.inl ?_)
        rw [hlev]
        exact le_trans (randomLevel_pos f) (le_max_right _ _)
      | remove k =>
        have e2 : SkipList.remove k s = some s2 := hc
        rcases hor with h1 | ⟨c2, hc2, hins⟩
        · exact ih r2 t e (Or.inl (h.remove_level_pos e2 h1))
        · rcases List.mem_cons.1 hc2 with h3 | h3
          · rw [h3] at hins
            simp [Call.isInsert] at hins
          · exact ih r2 t e (Or.inr ⟨c2, h3, hins⟩)

/-- C17, the range of the level: the constructed list has level 0; every
sequence of calls on it succeeds and ends with a level of at most `MAX_LEVEL`,
and of at least 1 when the sequence holds an `insert`, whatever calls follow
it. -/
theorem topLevel_range (cs : List Call) :
    SkipList.empty.level = 0 ∧
    ∃ s, runCalls cs SkipList.empty = some s ∧ s.level ≤ MAX_LEVEL ∧
      ((∃ c ∈ cs, c.isInsert = true) → 1 ≤ s.level) := by
  obtain ⟨s, hs, rs, _⟩ := Reachable.empty.run_model cs
  exact ⟨rfl, s, hs, rs.level_le, fun hins => Reachable.empty.run_level cs s hs (Or.inr hins)⟩

theorem Reachable.level_le_one_of_empty {s : SkipList} (h : Reachable s)
    (he : entries s = []) : s.level ≤ 1 := by
  by_contra hcon
  have hl : 1 < s.level := by omega
  have hmax : s.level - 1 < MAX_LEVEL := by have := h.level_le; omega
  obtain ⟨p, hp, _⟩ := (h.header_set_iff hmax).1 (h.topTight hl)
  have hc : levelChain s 0 = [] := List.map_eq_nil_iff.1 he
  rw [hc] at hp
  simp at hp

theorem Reachable.top_link_set {s : SkipList} (h : Reachable s) (hne : entries s ≠ []) :
    1 ≤ s.level ∧ readFwd s.heap header (s.level - 1) ≠ some none := by
  have hc : levelChain s 0 ≠ [] := fun e => hne (by unfold entries; rw [e]; rfl)
  obtain ⟨p, hp⟩ := List.exists_mem_of_ne_nil _ hc
  have hpos := h.level_pos_of_mem hp
  refine ⟨hpos, ?_⟩
  by_cases hl : 1 < s.level
  · exact h.topTight hl
  · have e : s.level - 1 = 0 := by omega
    rw [e, h.header_set_iff (by decide)]
    exact ⟨p, hp, h.inv.lvl_pos p hp⟩

set_option maxRecDepth 100000 in
/-- C18 fails as stated: after `insert(1, 10)` and `remove(1)` the level is 1
although every link of the header is null, so that 0 is a smaller value from
which on no node is reachable. -/
theorem drained_level_not_least :
    Reachable drainedState ∧ drainedState.level = 1 ∧ EmptyFrom drainedState 0 ∧
    ¬ (∀ t, EmptyFrom drainedState t → drainedState.level ≤ t) := by
  have e : drainedState = ⟨1, [⟨-1, -1, List.replicate 32 none⟩,
      ⟨1, 10, [none, none, none]⟩]⟩ := by
    simp only [drainedState, runCalls, Call.run, SkipList.insert, randomLevel_heads]
    decide
  have h0 : EmptyFrom drainedState 0 := by
    rw [e]
    unfold EmptyFrom
    decide
  refine ⟨reachable_run _, by rw [e], h0, ?_⟩
  intro hall
  have := hall 0 h0
  rw [e] at this
  exact absurd this (by decide)

/-- C18 as amended: in every reachable state the level is at most `MAX_LEVEL`,
all links of the header from the level on are null, and the level is the least
value with that property whenever the list holds an entry; when the list is
empty the level is 0 or 1. -/
theorem topLevel_tight (s : SkipList) (h : Reachable s) :
    s.level ≤ MAX_LEVEL ∧ EmptyFrom s s.level ∧
    (entries s ≠ [] → ∀ t, EmptyFrom s t → s.level ≤ t) ∧
    (entries s = [] → s.level ≤ 1) := by
  refine ⟨h.level_le, h.emptyFrom_level, ?_, h.level_le_one_of_empty⟩
  intro hne t ht
  obtain ⟨hpos, hset⟩ := h.top_link_set hne
  by_contra hcon
  exact hset (ht (s.level - 1) (by omega) (by have := h.level_le; omega))

set_option maxRecDepth 100000 in
/-- In the list of `main` the level is 4, the level of the node of key 9. -/
theorem topLevel_tight_witness :
    Reachable mainState ∧ mainState.level = 4 ∧
    mainState.level ≤ MAX_LEVEL ∧ EmptyFrom mainState mainState.level ∧
    (entries mainState ≠ [] → ∀ t, EmptyFrom mainState t → mainState.level ≤ t) ∧
    (entries mainState = [] → mainState.level ≤ 1) := by
  have hl : mainState.level = 4 := by
    simp only [mainState, mainInserts, insertCalls, List.map, runCalls, Call.run,
      SkipList.insert, randomLevel_heads]
    decide
  exact ⟨mainState_reachable, hl, topLevel_tight mainState mainState_reachable⟩

/-- C19, the shrink after a removal: in a reachable state that holds an entry
with key `k`, `remove(k)` succeeds and leaves a level between 1 and `MAX_LEVEL`
with all links of the header from the level on null; the level is 1 when the
list is now empty, and otherwise the link of the header just below the level is
set, so that the level is the number of the highest level with content. -/
theorem shrink_after_remove (s : SkipList) (k : Int) (h : Reachable s) (hk : k ∈ keys s) :
    ∃ t, remove k s = some t ∧ 1 ≤ t.level ∧ t.level ≤ s.level ∧
      t.level ≤ MAX_LEVEL ∧ EmptyFrom t t.level ∧
      (entries t = [] → t.level = 1) ∧
      (entries t ≠ [] → readFwd t.heap header (t.level - 1) ≠ some none) := by
  obtain ⟨t, ht, rt, _, _, hle⟩ := h.remove_chain k
  obtain ⟨p, hp, _⟩ := (mem_keys_iff h k).1 hk
  have hpos : 1 ≤ t.level := h.remove_level_pos ht (h.level_pos_of_mem hp)
  refine ⟨t, ht, hpos, hle, rt.level_le, rt.emptyFrom_level, ?_, ?_⟩
  · intro he
    have := rt.level_le_one_of_empty he
    omega
  · intro hne
    exact (rt.top_link_set hne).2

set_option maxRecDepth 100000 in
/-- In the list of `main`, removing key 9, the only node of level 4, brings the
level down to 3, the level of the node of key 3. -/
theorem shrink_after_remove_witness :
    Reachable mainState ∧ (9 : Int) ∈ keys mainState ∧
    (remove 9 mainState).map (fun t => t.level) = some 3 ∧
    ∃ t, remove 9 mainState = some t ∧ 1 ≤ t.level ∧ t.level ≤ mainState.level ∧
      t.level ≤ MAX_LEVEL ∧ EmptyFrom t t.level ∧
      (entries t = [] → t.level = 1) ∧
      (entries t ≠ [] → readFwd t.heap header (t.level - 1) ≠ some none) := by
  have hk : (9 : Int) ∈ keys mainState := by
    simp only [mainState, mainInserts, insertCalls, List.map, runCalls, Call.run,
      SkipList.insert, randomLevel_heads]
    decide
  have hl : (remove 9 mainState).map (fun t => t.level) = some 3 := by
    simp only [mainState, mainInserts, insertCalls, List.map, runCalls, Call.run,
      SkipList.insert, randomLevel_heads]
    decide
  exact ⟨mainState_reachable, hk, hl, shrink_after_remove mainState 9 mainState_reachable hk⟩

/-! ## Termination of the descents -/

/-- Without its count, `advanceCount` is `advance`. -/
theorem advanceCount_fst (heap : List Node) (key : Int) (i : Nat) :
    ∀ (fuel current : Nat),
      (advanceCount heap key i fuel current).map Prod.fst = advance heap key i fuel current
  | 0, _ => rfl
  | fuel + 1, current => by
    simp only [advanceCount, advance]
    cases readFwd heap current i with
    | none => rfl
    | some next =>
      cases next with
      | none => rfl
      | some q =>
        simp only [Option.some_bind]
        cases deref heap q with
        | none => rfl
        | some n =>
          simp only [Option.some_bind]
          by_cases c : n.key < key
          · simp only [c, if_true, Option.map_map]
            rw [← advanceCount_fst heap key i fuel q]
            rfl
          · simp only [c, if_false, Option.map_some']

/-- Without its count, `descendCount` is `descend`. -/
theorem descendCount_fst (heap : List Node) (key : Int) (fuel : Nat) :
    ∀ (n current : Nat) (update : List (Option Nat)),
      (descendCount heap key fuel n current update).map (fun d => (d.1, d.2.1))
        = descend heap key fuel n current update
  | 0, _, _ => rfl
  | i + 1, current, update => by
    simp only [descendCount, descend]
    rw [← advanceCount_fst heap key i fuel current]
    cases advanceCount heap key i fuel current with
    | none => rfl
    | some r =>
      simp only [Option.some_bind, Option.map_some']
      by_cases c : i < update.length
      · simp only [c, if_true, Option.map_map]
        rw [← descendCount_fst heap key fuel i r.1 (update.set i (some r.1))]
        rfl
      · simp only [c, if_false, Option.map_none']

/-- Without its count, `descendSearchCount` is `descendSearch`. -/
theorem descendSearchCount_fst (heap : List Node) (key : Int) (fuel : Nat) :
    ∀ (n current : Nat),
      (descendSearchCount heap key fuel n current).map Prod.fst
        = descendSearch heap key fuel n current
  | 0, _ => rfl
  | i + 1, current => by
    simp only [descendSearchCount, descendSearch]
    rw [← advanceCount_fst heap key i fuel current]
    cases advanceCount heap key i fuel current with
    | none => rfl
    | some r =>
      simp only [Option.some_bind, Option.map_some', Option.map_map]
      rw [← descendSearchCount_fst heap key fuel i r.1]
      rfl

theorem advanceCount_spec {heap : List Node} {key : Int} {i : Nat} {b : List Nat} :
    ∀ (a : List Nat) (c fuel : Nat), Linked heap i c (a ++ b) →
      (∀ p ∈ a, keyAt heap p < key) → (∀ q ∈ b, ¬ keyAt heap q < key) →
      a.length < fuel → advanceCount heap key i fuel c = some (a.getLastD c, a.length)
  | _, _, 0, _, _, _, hf => by omega
  | [], c, fuel + 1, h, _, hb, _ => by
    simp only [List.nil_append] at h
    simp only [advanceCount, h.read, Option.some_bind, List.getLastD_nil, List.length_nil]
    cases b with
    | nil => rfl
    | cons q b =>
      obtain ⟨n, hn, _⟩ := deref_eq_some_of_lvl (Linked.lvl_lt h q (by simp))
      have hk := hb q (by simp)
      rw [keyAt_eq hn] at hk
      simp [deref, hn, hk]
  | x :: a, c, fuel + 1, h, ha, hb, hf => by
    simp only [List.cons_append] at h
    obtain ⟨n, hn, _⟩ := deref_eq_some_of_lvl (Linked.lvl_lt h x (by simp))
    have hk := ha x (by simp)
    rw [keyAt_eq hn] at hk
    have ih := advanceCount_spec a x fuel h.2 (fun p hp => ha p (List.mem_cons_of_mem _ hp)) hb
      (by simpa using hf)
    simp only [advanceCount, h.1, Option.some_bind, deref, hn, hk, if_true, ih,
      Option.map_some', List.getLastD_cons, List.length_cons]

theorem getLastD_mem_of_ne_nil {α : Type} : ∀ (l : List α) (d : α), l ≠ [] → l.getLastD d ∈ l
  | [], _, h => absurd rfl h
  | x :: l, d, _ => by
    rw [List.getLastD_cons]
    exact getLastD_mem l x

/-- In a duplicate-free list, nothing after the last element that passes a test
passes it. -/
theorem filter_after_last (g : Nat → Bool) (h c : Nat) (l a1 a2 : List Nat)
    (nd : (h :: l).Nodup) (hc : c = (l.filter g).getLastD h)
    (e : h :: l = a1 ++ c :: a2) : a2.filter g = [] := by
  by_contra hne
  have hlast : (a2.filter g).getLastD c ∈ a2 :=
    (List.filter_sublist _).subset (getLastD_mem_of_ne_nil _ c hne)
  cases a1 with
  | nil =>
    simp only [List.nil_append, List.cons.injEq] at e
    obtain ⟨e1, e2⟩ := e
    have hfl : l.filter g ≠ [] := by rw [e2]; exact hne
    have hmem : c ∈ l := by
      rw [hc]
      exact (List.filter_sublist _).subset (getLastD_mem_of_ne_nil _ h hfl)
    rw [← e1] at hmem
    exact (List.nodup_cons.1 nd).1 hmem
  | cons y a1 =>
    simp only [List.cons_append, List.cons.injEq] at e
    obtain ⟨_, e2⟩ := e
    have ndl : (a1 ++ c :: a2).Nodup := by rw [← e2]; exact (List.nodup_cons.1 nd).2
    have hca2 : c ∉ a2 := (List.nodup_cons.1 (List.nodup_append.1 ndl).2.1).1
    have hcl : c ∈ l := by rw [e2]; simp
    have hch : c ≠ h := fun e3 => (List.nodup_cons.1 nd).1 (e3 ▸ hcl)
    have hgc : g c = true := by
      have hm : c ∈ h :: l.filter g := by rw [hc]; exact getLastD_mem _ _
      rcases List.mem_cons.1 hm with h1 | h1
      · exact absurd h1 hch
      · exact (List.mem_filter.1 h1).2
    have hfil : l.filter g = a1.filter g ++ c :: a2.filter g := by
      rw [e2, List.filter_append, List.filter_cons_of_pos hgc]
    rw [hfil, getLastD_append_cons] at hc
    rw [← hc] at hlast
    exact hca2 hlast

theorem countP_lvl_succ (heap : List Node) (i : Nat) (l : List Nat) :
    l.countP (fun p => decide (lvl heap p = i + 1)) + l.countP (fun p => decide (lvl heap p ≤ i))
      = l.countP (fun p => decide (lvl heap p ≤ i + 1)) := by
  induction l with
  | nil => rfl
  | cons x l ih =>
    simp only [List.countP_cons, decide_eq_true_eq]
    split_ifs <;> omega

namespace Inv

variable {s : SkipList} {xs : List Nat}

theorem atLevel_succ (heap : List Node) (i : Nat) (l : List Nat) :
    atLevel heap (i + 1) l = (atLevel heap i l).filter fun p => decide (i + 1 < lvl heap p) := by
  unfold atLevel
  rw [List.filter_filter]
  apply List.filter_congr
  intro p _
  by_cases c : i + 1 < lvl heap p
  · have c2 : i < lvl heap p := by omega
    simp [c, c2]
  · simp [c]

/-- The inner loop at level `i`, started where the level above ended, walks
only over nodes that have exactly `i + 1` links. -/
theorem advanceCount_from (inv : Inv s xs) (key : Int) {i : Nat} (hi : i < MAX_LEVEL) :
    ∃ n, advanceCount s.heap key i s.heap.length (predAt s.heap (below s.heap key xs) (i + 1))
        = some (predAt s.heap (below s.heap key xs) i, n) ∧
      n ≤ (below s.heap key xs).countP fun p => decide (lvl s.heap p = i + 1) := by
  have hc := predAt_succ_mem s.heap (below s.heap key xs) i
  obtain ⟨a1, a2, e⟩ := List.append_of_mem hc
  have hl := inv.linked_split key hi
  have hsuf : Linked s.heap i (predAt s.heap (below s.heap key xs) (i + 1))
      (a2 ++ atLevel s.heap i (notBelow s.heap key xs)) := by
    refine Linked.suffix a1 hl ?_
    rw [← List.cons_append, e]; simp
  have nd : (header :: atLevel s.heap i (below s.heap key xs)).Nodup := by
    refine inv.nodup.sublist (List.Sublist.cons₂ _ ?_)
    exact (List.filter_sublist _).trans (List.takeWhile_sublist _)
  have hsub : a2.Sublist (atLevel s.heap i (below s.heap key xs)) := by
    cases a1 with
    | nil =>
      simp only [List.nil_append, List.cons.injEq] at e
      rw [e.2]
    | cons y a1 =>
      simp only [List.cons_append, List.cons.injEq] at e
      rw [e.2]
      exact (List.sublist_cons_self _ _).trans (List.sublist_append_right _ _)
  have hsub2 : a2.Sublist (below s.heap key xs) := hsub.trans (List.filter_sublist _)
  have hnone := filter_after_last (fun p => decide (i + 1 < lvl s.heap p)) header
    (predAt s.heap (below s.heap key xs) (i + 1)) (atLevel s.heap i (below s.heap key xs))
    a1 a2 nd (by unfold predAt; rw [atLevel_succ]) e
  have hlen : a2.length < s.heap.length := by
    have h2 : (below s.heap key xs).length ≤ xs.length := (List.takeWhile_sublist _).length_le
    have h3 := inv.length_lt
    have h4 := hsub2.length_le
    omega
  refine ⟨a2.length, ?_, ?_⟩
  · rw [advanceCount_spec a2 _ s.heap.length hsuf (fun p hp => below_lt (hsub2.subset hp))
      (fun q hq => inv.notBelow_ge key (mem_atLevel.1 hq).1) hlen]
    congr 2
    rw [← getLastD_append_cons a1 _ header a2, ← e, List.getLastD_cons]
    rfl
  · have hall : ∀ p ∈ a2, decide (lvl s.heap p = i + 1) = true := by
      intro p hp
      have h1 := (mem_atLevel.1 (hsub.subset hp)).2
      have h2 : ¬ (decide (i + 1 < lvl s.heap p) = true) := by
        intro hg
        have : p ∈ a2.filter fun p => decide (i + 1 < lvl s.heap p) :=
          List.mem_filter.2 ⟨hp, hg⟩
        rw [hnone] at this
        simp at this
      simp only [decide_eq_true_eq] at h2 ⊢
      omega
    rw [← List.countP_eq_length.2 hall]
    exact hsub2.countP_le _

theorem descendCount_spec (inv : Inv s xs) (key : Int) :
    ∀ (n : Nat) (update : List (Option Nat)), n ≤ MAX_LEVEL → update.length = MAX_LEVEL →
      ∃ u m, descendCount s.heap key s.heap.length n
          (predAt s.heap (below s.heap key xs) n) update
          = some (predAt s.heap (below s.heap key xs) 0, u, m) ∧
        u.length = MAX_LEVEL ∧
        m ≤ n + (below s.heap key xs).countP fun p => decide (lvl s.heap p ≤ n)
  | 0, update, _, hl => ⟨update, 0, rfl, hl, Nat.zero_le _⟩
  | i + 1, update, hn, hl => by
    have hi : i < MAX_LEVEL := by omega
    obtain ⟨k, hadv, hk⟩ := inv.advanceCount_from key hi
    obtain ⟨u, m, hu, hlen, hm⟩ := descendCount_spec inv key i
      (update.set i (some (predAt s.heap (below s.heap key xs) i))) (by omega)
      (by simp [hl])
    refine ⟨u, m + k + 1, ?_, hlen, ?_⟩
    · simp only [descendCount, hadv, Option.some_bind, hl, hi, if_true, hu, Option.map_some']
    · have := countP_lvl_succ s.heap i (below s.heap key xs)
      omega

theorem descendSearchCount_spec (inv : Inv s xs) (key : Int) :
    ∀ (n : Nat), n ≤ MAX_LEVEL →
      ∃ m, descendSearchCount s.heap key s.heap.length n
          (predAt s.heap (below s.heap key xs) n)
          = some (predAt s.heap (below s.heap key xs) 0, m) ∧
        m ≤ n + (below s.heap key xs).countP fun p => decide (lvl s.heap p ≤ n)
  | 0, _ => ⟨0, rfl, Nat.zero_le _⟩
  | i + 1, hn => by
    have hi : i < MAX_LEVEL := by omega
    obtain ⟨k, hadv, hk⟩ := inv.advanceCount_from key hi
    obtain ⟨m, hu, hm⟩ := descendSearchCount_spec inv key i (by omega)
    refine ⟨m + k + 1, ?_, ?_⟩
    · simp only [descendSearchCount, hadv, Option.some_bind, hu, Option.map_some']
    · have := countP_lvl_succ s.heap i (below s.heap key xs)
      omega

theorem below_count_le (inv : Inv s xs) (key : Int) (n : Nat) :
    (below s.heap key xs).countP (fun p => decide (lvl s.heap p ≤ n)) ≤ (entries s).length := by
  rw [inv.entries_eq, List.length_map]
  exact le_trans (List.countP_le_length _) (List.takeWhile_sublist _).length_le

end Inv

theorem Linked.next_mem {heap : List Node} {i : Nat} :
    ∀ {l : List Nat} {c : Nat}, Linked heap i c l →
      ∀ p ∈ c :: l, ∀ q, readFwd heap p i = some (some q) → q ∈ l
  | [], c, h, p, hp, q, hq => by
    have hp2 : p = c := by simpa using hp
    subst hp2
    have h2 : readFwd heap p i = some none := h
    rw [h2] at hq
    simp at hq
  | x :: l, c, h, p, hp, q, hq => by
    rcases List.mem_cons.1 hp with e | hp2
    · subst e
      rw [h.1] at hq
      simp only [Option.some.injEq] at hq
      rw [← hq]; simp
    · exact List.mem_cons_of_mem _ (Linked.next_mem h.2 p hp2 q hq)

/-- No link of any allocated node, in the list or unlinked, points to the header. -/
theorem Reachable.no_link_to_header {s : SkipList} (h : Reachable s) :
    ∀ p j, readFwd s.heap p j ≠ some (some header) := by
  induction h with
  | empty =>
    intro p j hr
    have hp : p = 0 := by
      by_contra hne
      have : readFwd SkipList.empty.heap p j = none := by
        unfold readFwd deref SkipList.empty
        rw [List.getElem?_eq_none (by simp; omega)]
        rfl
      rw [this] at hr
      simp at hr
    subst hp
    by_cases hj : j < MAX_LEVEL
    · have := empty_inv.linked j hj
      have h2 : readFwd SkipList.empty.heap header j = some none := this
      have h3 : readFwd SkipList.empty.heap 0 j = some none := h2
      rw [h3] at hr
      simp at hr
    · have h4 := readFwd_isSome_iff.1 ⟨_, hr⟩
      have h5 : lvl SkipList.empty.heap 0 = MAX_LEVEL := empty_inv.hdr
      omega
  | @insert s0 t0 k v flips h0 hstep ih =>
    obtain ⟨h2, he, _, rd⟩ := h0.inv.insert_eq k v flips
    rw [he] at hstep
    cases hstep
    intro p j hr
    have hpos : 0 < s0.heap.length := lt_length_of_lvl (i := 0)
      (by rw [h0.inv.hdr]; decide : 0 < lvl s0.heap header)
    have hr2 : readFwd h2 p j = some (some header) := hr
    rw [rd p j] at hr2
    split_ifs at hr2 with c1 c2 c3 c4
    · simp only [Option.some.injEq] at hr2
      have : header = 0 := rfl
      omega
    · exact ih _ j hr2
    · exact ih p j hr2
    · exact ih p j hr2
  | @remove s0 t0 k h0 hstep ih =>
    cases hpost : notBelow s0.heap k (levelChain s0 0) with
    | nil =>
      rw [h0.inv.remove_absent k (by simp [hpost])] at hstep
      cases hstep
      exact ih
    | cons d tl =>
      by_cases hk : keyAt s0.heap d = k
      · obtain ⟨h2, l2, he, _, rd, _⟩ := h0.inv.remove_eq k hpost hk
        rw [he] at hstep
        cases hstep
        intro p j hr
        have hr2 : readFwd h2 p j = some (some header) := hr
        rw [rd p j] at hr2
        split_ifs at hr2
        · exact ih d j hr2
        · exact ih p j hr2
      · rw [h0.inv.remove_absent k (by
          intro d2 hd2
          rw [hpost] at hd2
          cases hd2
          exact hk)] at hstep
        cases hstep
        exact ih

/-- C20, termination: in every reachable state each level chain from the header
is a duplicate-free list of nodes that ends in a null link and does not hold
the header; what follows a node of the chain does not hold that node, and no
link points to the header.  The descent of `insert` and `remove` and the
descent of `search` return for every key, after a number of link traversals and
level steps that is at most the number of nodes in the list plus the level. -/
theorem descent_terminates (s : SkipList) (key : Int) (h : Reachable s) :
    (∀ i, (levelChain s i).Nodup ∧ header ∉ levelChain s i ∧
      (i < MAX_LEVEL → Linked s.heap i header (levelChain s i)) ∧
      ∀ a p b, levelChain s i = a ++ p :: b → Linked s.heap i p b ∧ p ∉ b) ∧
    (∀ p j, readFwd s.heap p j ≠ some (some header)) ∧
    (∃ c u n, descendCount s.heap key s.heap.length s.level header
        (List.replicate MAX_LEVEL none) = some (c, u, n) ∧
      descend s.heap key s.heap.length s.level header (List.replicate MAX_LEVEL none)
        = some (c, u) ∧
      n ≤ (entries s).length + s.level) ∧
    ∃ c n, descendSearchCount s.heap key s.heap.length s.level header = some (c, n) ∧
      descendSearch s.heap key s.heap.length s.level header = some c ∧
      n ≤ (entries s).length + s.level := by
  have inv := h.inv
  refine ⟨?_, h.no_link_to_header, ?_, ?_⟩
  · intro i
    have hnd : (levelChain s i).Nodup := by
      rw [inv.levelChain_all i]
      exact (List.nodup_cons.1 inv.nodup).2.sublist (List.filter_sublist _)
    have hlink : i < MAX_LEVEL → Linked s.heap i header (levelChain s i) := by
      intro hi
      rw [inv.levelChain_eq hi]
      exact inv.linked i hi
    refine ⟨hnd, ?_, hlink, ?_⟩
    · intro hmem
      rw [inv.levelChain_all i] at hmem
      exact inv.not_header (mem_atLevel.1 hmem).1
    · intro a p b e
      have hi : i < MAX_LEVEL := by
        by_contra hcon
        rw [inv.levelChain_top (by omega)] at e
        cases a <;> simp at e
      refine ⟨Linked.suffix (header :: a) (hlink hi) (by rw [e]; rfl), ?_⟩
      rw [e] at hnd
      exact (List.nodup_cons.1 (List.nodup_append.1 hnd).2.1).1
  · obtain ⟨u, n, hd, _, hn⟩ := inv.descendCount_spec key s.level
      (List.replicate MAX_LEVEL none) inv.level_le (by simp)
    rw [inv.predAt_top key (le_refl _)] at hd
    refine ⟨_, u, n, hd, ?_, ?_⟩
    · rw [← descendCount_fst, hd]; rfl
    · have := inv.below_count_le key s.level
      omega
  · obtain ⟨n, hd, hn⟩ := inv.descendSearchCount_spec key s.level inv.level_le
    rw [inv.predAt_top key (le_refl _)] at hd
    refine ⟨_, n, hd, ?_, ?_⟩
    · rw [← descendSearchCount_fst, hd]; rfl
    · have := inv.below_count_le key s.level
      omega

set_option maxRecDepth 100000 in
/-- In the list of `main`, of six nodes and level 4, the descent for key 8
takes 7 steps: three links and four levels. -/
theorem descent_terminates_witness :
    Reachable mainState ∧
    (descendSearchCount mainState.heap 8 mainState.heap.length mainState.level header).map
      Prod.snd = some 7 ∧
    (entries mainState).length + mainState.level = 10 ∧
    ∃ c n, descendSearchCount mainState.heap 8 mainState.heap.length mainState.level header
        = some (c, n) ∧
      descendSearch mainState.heap 8 mainState.heap.length mainState.level header = some c ∧
      n ≤ (entries mainState).length + mainState.level := by
  have h1 : (descendSearchCount mainState.heap 8 mainState.heap.length mainState.level
      header).map Prod.snd = some 7 := by
    simp only [mainState, mainInserts, insertCalls, List.map, runCalls, Call.run,
      SkipList.insert, randomLevel_heads]
    decide
  have h2 : (entries mainState).length + mainState.level = 10 := by
    simp only [mainState, mainInserts, insertCalls, List.map, runCalls, Call.run,
      SkipList.insert, randomLevel_heads]
    decide
  exact ⟨mainState_reachable, h1, h2,
    (descent_terminates mainState 8 mainState_reachable).2.2.2⟩

end SkipList
